import Mathlib

/-!
Verification development for the demucs-js spectral transform engine and
chunked-inference pipeline (src/dsp.ts, src/apply.ts, src/onnx-htdemucs.ts,
src/wav-utils.ts).

Modelling conventions (shallow embedding of the TypeScript source):

* A JS `Float32Array` is modelled as a total function `ℕ → ℝ` together with
  an explicit size where the code consults `.length`; freshly allocated
  arrays are the constant-zero function (Float32Array is zero-initialised).
  Float32 rounding is idealised to exact real arithmetic.
* A loop nest whose iterations write pairwise-distinct cells and read only
  data from before the loop is rendered pointwise: the resulting buffer is
  written as one function of the destination index, with the branch
  condition delimiting exactly the cells the loop writes.  Loops whose
  iterations read cells written by earlier iterations of the same loop
  (the reflect-padding fill, the FFT passes, the chunk loop) are rendered
  as sequential folds in iteration order.
* Where the code reads `array.length` of a tensor's flat buffer we use
  `shape.prod`, the invariant the code maintains.
* A JS `throw` becomes `Except.error`; the error taxonomy of the design
  (SizeError / ShapeError / RangeError) labels the throw sites.
* Out-of-range shape destructuring (JS `undefined`) is modelled as `0`,
  which matches the observable loop behaviour (`i < undefined` is false).
-/

/-- Error taxonomy of the design document: SizeError for the FFT length
check, ShapeError for tensor-dimension mismatches, RangeError for chunk
bounds, otherError for remaining throw sites (e.g. validLength), fuelError
marking a non-terminating chunk loop (stride 0). -/
inductive Err where
  | sizeError
  | shapeError
  | rangeError
  | otherError
  | fuelError
deriving DecidableEq, Repr

/-- `{ data: Float32Array, shape: number[] }` from src/dsp.ts.  The flat
buffer is a total function; indices at or beyond `shape.prod` are junk. -/
structure Tensor where
  data : ℕ → ℝ
  shape : List ℕ

/-- Pair of same-shaped tensors holding real and imaginary parts. -/
structure ComplexTensor where
  real : Tensor
  imag : Tensor

/-- Single write into a flat buffer (`arr[i] = v`). -/
def upd (f : ℕ → ℝ) (i : ℕ) (v : ℝ) : ℕ → ℝ :=
  fun j => if j = i then v else f j

/-- The all-zero buffer (`new Float32Array(n)`). -/
def zeros : ℕ → ℝ := fun _ => 0

/-- Trailing dimension `shape[shape.length - 1]` (0 when absent). -/
def lastDim (t : Tensor) : ℕ :=
  t.shape.getD (t.shape.length - 1) 0

@[simp] theorem upd_same (f : ℕ → ℝ) (i : ℕ) (v : ℝ) : upd f i v i = v := by
  simp [upd]

theorem upd_other (f : ℕ → ℝ) (i j : ℕ) (v : ℝ) (h : j ≠ i) : upd f i v j = f j := by
  simp [upd, h]

/-!
### padReflect (src/dsp.ts lines 108–132)

```
function padReflect(arr, padLeft, padRight) {
  const length = arr.length;
  const newLength = length + padLeft + padRight;
  const result = new Float32Array(newLength);
  for (let i = 0; i < length; i++) result[padLeft + i] = arr[i];
  for (let i = 0; i < padLeft; i++) {
    const srcIdx = padLeft - i;
    result[i] = result[srcIdx];
  }
  for (let i = 0; i < padRight; i++) {
    const dstIdx = padLeft + length + i;
    const srcIdx = padLeft + length - 2 - i;
    result[dstIdx] = result[srcIdx];
  }
  return result;
}
```

The two reflection loops read the `result` buffer being built, so they are
kept as sequential folds.  `arr.length` becomes the explicit `length`
argument.
-/

def padReflect (arr : ℕ → ℝ) (length padLeft padRight : ℕ) : ℕ → ℝ :=
  let result0 : ℕ → ℝ := zeros
  let result1 := (List.range length).foldl (fun r i => upd r (padLeft + i) (arr i)) result0
  let result2 := (List.range padLeft).foldl (fun r i => upd r i (r (padLeft - i))) result1
  let result3 := (List.range padRight).foldl
    (fun r i => upd r (padLeft + length + i) (r (padLeft + length - 2 - i))) result2
  result3

/-- Concrete two-sample input 1, 2 used to evaluate padReflect. -/
noncomputable def twoSampleArr : ℕ → ℝ :=
  fun i => if i = 0 then 1 else if i = 1 then 2 else 0

/-- C1: with x = [1, 2] and symmetric pad p = 1, padReflect yields
[1, 1, 2, 1]: position p-1-k = 0 holds 1 while position p+1+k = 2 holds 2
(k = 0), so the mirror identity padReflect(x,p,p)[p-1-k] =
padReflect(x,p,p)[p+1+k] claimed by the spec fails.  The left-pad loop
copies result[padLeft - i] out of the partially built result buffer rather
than arr[padLeft - i], so the left padding does not mirror the signal
(PyTorch reflect would produce [2, 1, 2, 1]). -/
theorem padReflect_left_pad_not_mirrored :
    padReflect twoSampleArr 2 1 1 0 = 1 ∧
    padReflect twoSampleArr 2 1 1 2 = 2 ∧
    padReflect twoSampleArr 2 1 1 0 ≠ padReflect twoSampleArr 2 1 1 2 := by
  have h0 : padReflect twoSampleArr 2 1 1 0 = 1 := by
    simp [padReflect, List.range_succ, upd, zeros, twoSampleArr]
  have h2 : padReflect twoSampleArr 2 1 1 2 = 2 := by
    simp [padReflect, List.range_succ, upd, zeros, twoSampleArr]
  refine ⟨h0, h2, ?_⟩
  rw [h0, h2]
  norm_num

/-!
### fft (src/dsp.ts lines 14–69)

Iterative radix-2 Cooley-Tukey: power-of-two check `(n & (n-1)) !== 0`,
bit-reversal permutation with the Gold-Rader mirror counter, then
`log2(n)` butterfly stages.  The JS arrays carry their length; here the
length is the explicit argument `n`.  Trigonometric values are idealised
reals, so the definitions are noncomputable; none of the theorems below
ever force them.
-/

/-- The inner `while (k <= j) { j -= k; k >>= 1; } j += k;` of the
bit-reversal counter.  The `k = 0` guard marks a state on which the JS
loop would not terminate; it is unreachable from the loop's actual uses. -/
def grStep (j k : ℕ) : ℕ :=
  if h : k = 0 then j
  else if k ≤ j then grStep (j - k) (k / 2)
  else j + k
termination_by k
decreasing_by exact Nat.div_lt_self (Nat.pos_of_ne_zero h) one_lt_two

/-- Simultaneous swap `[f[a], f[b]] = [f[b], f[a]]`. -/
def swap2 (f : ℕ → ℝ) (a b : ℕ) : ℕ → ℝ :=
  fun i => if i = a then f b else if i = b then f a else f i

/-- Bit-reversal permutation pass over both component arrays
(src/dsp.ts lines 26–38).  State: the two buffers and the counter `j`. -/
def bitrevPass (n : ℕ) (re im : ℕ → ℝ) : (ℕ → ℝ) × (ℕ → ℝ) :=
  let r := (List.range (n - 1)).foldl
    (fun (s : ((ℕ → ℝ) × (ℕ → ℝ)) × ℕ) i =>
      let p := if i < s.2 then (swap2 s.1.1 i s.2, swap2 s.1.2 i s.2) else s.1
      (p, grStep s.2 (n / 2)))
    ((re, im), 0)
  r.1

/-- One block of butterflies (the `for j` loop of src/dsp.ts lines 49–64)
with block base `i`; the state carries the two buffers and the running
twiddle `(wr, wi)`, which starts at `(1, 0)` and is rotated by
`(cos angle, sin angle)` after each butterfly. -/
noncomputable def butterflyInner (cosA sinA : ℝ) (halfLen i : ℕ)
    (st : (ℕ → ℝ) × (ℕ → ℝ)) : (ℕ → ℝ) × (ℕ → ℝ) :=
  ((List.range halfLen).foldl
    (fun (s : ((ℕ → ℝ) × (ℕ → ℝ)) × ℝ × ℝ) j =>
      let re := s.1.1
      let im := s.1.2
      let wr := s.2.1
      let wi := s.2.2
      let k := i + j
      let l := k + halfLen
      let tr := wr * re l - wi * im l
      let ti := wr * im l + wi * re l
      let re1 := upd (upd re l (re k - tr)) k (re k + tr)
      let im1 := upd (upd im l (im k - ti)) k (im k + ti)
      ((re1, im1), (wr * cosA - wi * sinA, wr * sinA + wi * cosA)))
    (st, 1, 0)).1

/-- One stage (`len` fixed) of the decimation-in-time loop
(src/dsp.ts lines 41–66): blocks start at `i = 0, len, 2*len, ...` while
`i < n`, and the per-stage angle is `-2*pi/len`. -/
noncomputable def stagePass (n len : ℕ) (st : (ℕ → ℝ) × (ℕ → ℝ)) :
    (ℕ → ℝ) × (ℕ → ℝ) :=
  let halfLen := len / 2
  let angle : ℝ := -2 * Real.pi / len
  (List.range ((n + len - 1) / len)).foldl
    (fun s bi => butterflyInner (Real.cos angle) (Real.sin angle) halfLen (bi * len) s) st

/-- All stages `len = 2, 4, ..., 2^(log2 n)` (the `for (len = 2; len <= n;
len <<= 1)` loop): exactly `log2 n` iterations with `len = 2^(l+1)`. -/
noncomputable def fftStages (n : ℕ) (st : (ℕ → ℝ) × (ℕ → ℝ)) :
    (ℕ → ℝ) × (ℕ → ℝ) :=
  (List.range (Nat.log2 n)).foldl (fun s l => stagePass n (2 ^ (l + 1)) s) st

/-- `fft(realInput, imagInput = null)` (src/dsp.ts lines 14–69).  Throws
SizeError when `(n & (n-1)) !== 0`; a missing imaginary input is the zero
array. -/
noncomputable def fft (realInput : ℕ → ℝ) (imagInput : Option (ℕ → ℝ)) (n : ℕ) :
    Except Err ((ℕ → ℝ) × (ℕ → ℝ)) :=
  if n &&& (n - 1) ≠ 0 then .error .sizeError
  else .ok (fftStages n (bitrevPass n realInput (imagInput.getD zeros)))

/-- `ifft(realInput, imagInput)` (src/dsp.ts lines 74–94): negate the
imaginary input, forward fft, then negate the imaginary output and divide
both outputs by `n` (each loop touches indices `< n` only). -/
noncomputable def ifft (re im : ℕ → ℝ) (n : ℕ) :
    Except Err ((ℕ → ℝ) × (ℕ → ℝ)) := do
  let imagConj : ℕ → ℝ := fun i => if i < n then -(im i) else 0
  let r ← fft re (some imagConj) n
  return (fun i => if i < n then r.1 i / n else r.1 i,
          fun i => if i < n then -(r.2 i) / n else r.2 i)

/-- Boolean success test for the embedded Except values. -/
def exOk {α : Type} (e : Except Err α) : Bool :=
  match e with
  | .ok _ => true
  | .error _ => false

/-!
### Power-of-two characterisation of the fft length check
-/

theorem land_eq_zero_iff_bits (a b : ℕ) :
    a &&& b = 0 ↔ ∀ i, ¬(a.testBit i = true ∧ b.testBit i = true) := by
  constructor
  · intro h i hi
    have hb := Nat.testBit_land a b i
    rw [h, Nat.zero_testBit, hi.1, hi.2] at hb
    simp at hb
  · intro h
    apply Nat.eq_of_testBit_eq
    intro i
    rw [Nat.testBit_land, Nat.zero_testBit]
    cases hA : a.testBit i <;> cases hB : b.testBit i <;> simp_all [h i]

theorem land_pred_eq_zero_iff (n : ℕ) :
    n &&& (n - 1) = 0 ↔ n = 0 ∨ ∃ k, n = 2 ^ k := by
  constructor
  · intro h
    induction n using Nat.strong_induction_on with
    | _ n ih =>
      match n, h with
      | 0, _ => exact Or.inl rfl
      | 1, _ => exact Or.inr ⟨0, rfl⟩
      | (n + 2), h =>
        rcases Nat.even_or_odd (n + 2) with he | ho
        · obtain ⟨m, hm⟩ := he
          have hm2 : n + 2 = 2 * m := by omega
          have hmpos : 1 ≤ m := by omega
          have hbits := (land_eq_zero_iff_bits _ _).mp h
          have hsub : m &&& (m - 1) = 0 := by
            apply (land_eq_zero_iff_bits _ _).mpr
            intro i hi
            apply hbits (i + 1)
            constructor
            · rw [Nat.testBit_add_one, hm2]
              have : 2 * m / 2 = m := by omega
              rw [this]; exact hi.1
            · rw [Nat.testBit_add_one]
              have : (n + 2 - 1) / 2 = m - 1 := by omega
              rw [this]; exact hi.2
          have hlt : m < n + 2 := by omega
          rcases ih m hlt hsub with h0 | ⟨k, hk⟩
          · omega
          · exact Or.inr ⟨k + 1, by rw [hm2, hk]; ring⟩
        · exfalso
          have hbits := (land_eq_zero_iff_bits _ _).mp h
          have hhalf : (n + 2) / 2 = 0 := by
            apply Nat.eq_of_testBit_eq
            intro i
            rw [Nat.zero_testBit]
            by_contra hne
            have hb : ((n + 2) / 2).testBit i = true := by
              cases hx : ((n + 2) / 2).testBit i
              · exact absurd hx hne
              · rfl
            apply hbits (i + 1)
            constructor
            · rw [Nat.testBit_add_one]; exact hb
            · rw [Nat.testBit_add_one]
              have : (n + 2 - 1) / 2 = (n + 2) / 2 := by
                rcases ho with ⟨c, hc⟩
                omega
              rw [this]; exact hb
          omega
  · rintro (rfl | ⟨k, rfl⟩)
    · rfl
    · apply (land_eq_zero_iff_bits _ _).mpr
      intro i hi
      have h1 := hi.1
      have hik : i = k := by
        by_contra hne
        rw [Nat.testBit_two_pow_of_ne (Ne.symm hne)] at h1
        exact absurd h1 (by simp)
      have h2 := hi.2
      rw [hik, Nat.testBit_two_pow_sub_one] at h2
      simp at h2

/-- C8 counterexample: a zero-length input is not a power of two, yet fft
accepts it, because `0 & (0-1) = 0` passes the bit-trick check. -/
theorem fft_accepts_length_zero : exOk (fft zeros none 0) = true := by
  rfl

/-- C8 (amended): fft fails with SizeError exactly when the input length is
neither zero nor a power of two; every power of two, and also the length-0
input, is accepted. -/
theorem fft_sizeError_iff (re : ℕ → ℝ) (im : Option (ℕ → ℝ)) (n : ℕ) :
    (fft re im n = .error .sizeError ↔ ¬(n = 0 ∨ ∃ k, n = 2 ^ k)) ∧
    (exOk (fft re im n) = true ↔ (n = 0 ∨ ∃ k, n = 2 ^ k)) := by
  rw [← land_pred_eq_zero_iff]
  unfold fft
  by_cases h : n &&& (n - 1) = 0 <;> simp [h, exOk]

/-!
### TensorChunk (src/apply.ts lines 7–80)
-/

/-- Copy a shape and overwrite its last entry (`shape[shape.length-1] = v`
after `[...shape]`); the empty shape is untouched. -/
def setLast (s : List ℕ) (v : ℕ) : List ℕ :=
  match s with
  | [] => []
  | _ => s.dropLast ++ [v]

/-- A TensorChunk value: a non-copying window `{offset, length}` into the
trailing dimension of `tensor`. -/
structure TensorChunk where
  tensor : Tensor
  offset : ℤ
  length : ℤ

/-- The TensorChunk constructor (src/apply.ts lines 12–27).  Throws
RangeError when `offset < 0` or `offset >= totalLength`; a `null` length
defaults to `totalLength - offset` and an explicit one is clamped with
`Math.min(totalLength - offset, length)`. -/
def TensorChunk.make (tensor : Tensor) (offset : ℤ) (length? : Option ℤ) :
    Except Err TensorChunk :=
  let totalLength : ℤ := lastDim tensor
  if offset < 0 then .error .rangeError
  else if totalLength ≤ offset then .error .rangeError
  else
    let length := match length? with
      | none => totalLength - offset
      | some l => min (totalLength - offset) l
    .ok ⟨tensor, offset, length⟩

/-- `TensorChunk.padded(targetLength)` (src/apply.ts lines 29–79): centre
the chunk's valid region, clamp to the source bounds, copy the surviving
slice and zero-fill the rest.  Throws RangeError when
`targetLength < this.length`.  The copy loop nest writes each output cell
at most once, so it is rendered pointwise on the output index. -/
def TensorChunk.padded (c : TensorChunk) (targetLength : ℕ) : Except Err Tensor :=
  let delta : ℤ := (targetLength : ℤ) - c.length
  let totalLength : ℤ := (lastDim c.tensor : ℤ)
  if delta < 0 then .error .rangeError
  else
    let start := c.offset - delta / 2
    let stop := start + targetLength
    let correctStart := max 0 start
    let correctEnd := min totalLength stop
    let padLeft := (correctStart - start).toNat
    let sliceLength := (correctEnd - correctStart).toNat
    let shape := setLast c.tensor.shape targetLength
    .ok { data := fun idx =>
            let i := idx / targetLength
            let jj := idx % targetLength
            if idx < shape.prod ∧ padLeft ≤ jj ∧ jj < padLeft + sliceLength then
              c.tensor.data (i * lastDim c.tensor + correctStart.toNat + (jj - padLeft))
            else 0,
          shape := shape }

/-- Length of a successfully constructed chunk (observation helper). -/
def chunkLenOf (e : Except Err TensorChunk) : ℤ :=
  match e with
  | .ok c => c.length
  | .error _ => -1

/-- A concrete 1-d tensor of trailing length 3. -/
noncomputable def tensor3 : Tensor := ⟨zeros, [3]⟩

/-- C7 counterexample: requesting a chunk of length 5 from a tensor of
trailing length 3 violates `length <= totalLength - offset`, yet the
constructor raises no error — the length is silently clamped to 3. -/
theorem tensorChunk_overlong_request_accepted :
    exOk (TensorChunk.make tensor3 0 (some 5)) = true ∧
    chunkLenOf (TensorChunk.make tensor3 0 (some 5)) = 3 ∧
    ¬((5 : ℤ) ≤ (3 : ℤ) - 0) := by
  refine ⟨rfl, by decide, by decide⟩

/-- C7 (amended): the constructor raises RangeError exactly when the
offset is out of bounds (`offset < 0` or `offset >= totalLength`); an
over-long requested length is clamped, not rejected, and every constructed
chunk satisfies `0 <= offset < totalLength` and
`length <= totalLength - offset`; `padded(targetLength)` raises RangeError
exactly when `targetLength` is shorter than the chunk's length. -/
theorem tensorChunk_bounds (t : Tensor) (off : ℤ) (len? : Option ℤ) :
    (exOk (TensorChunk.make t off len?) = true ↔
      0 ≤ off ∧ off < (lastDim t : ℤ)) ∧
    (∀ c, TensorChunk.make t off len? = .ok c →
      (0 ≤ c.offset ∧ c.offset < (lastDim t : ℤ) ∧
        c.length ≤ (lastDim t : ℤ) - c.offset) ∧
      ∀ target : ℕ, exOk (c.padded target) = true ↔ c.length ≤ (target : ℤ)) := by
  have hpad : ∀ (c : TensorChunk) (target : ℕ),
      exOk (c.padded target) = true ↔ c.length ≤ (target : ℤ) := by
    intro c target
    unfold TensorChunk.padded
    by_cases hd : (target : ℤ) - c.length < 0
    · simp [hd, exOk]; omega
    · simp [hd, exOk]; omega
  constructor
  · unfold TensorChunk.make
    by_cases h1 : off < 0
    · simp [h1, exOk]
    · by_cases h2 : (lastDim t : ℤ) ≤ off
      · simp [h1, h2, exOk]
      · simp [h1, h2, exOk]
        omega
  · intro c hc
    refine ⟨?_, fun target => hpad c target⟩
    unfold TensorChunk.make at hc
    by_cases h1 : off < 0
    · simp [h1] at hc
    · by_cases h2 : (lastDim t : ℤ) ≤ off
      · simp [h1, h2] at hc
      · simp [h1, h2] at hc
        cases len? with
        | none =>
          simp at hc
          cases hc
          dsimp only
          omega
        | some l =>
          simp at hc
          cases hc
          dsimp only
          refine ⟨by omega, by omega, ?_⟩
          have : min ((lastDim t : ℤ) - off) l ≤ (lastDim t : ℤ) - off :=
            min_le_left _ _
          omega

/-- C7 witness: instantiating the bounds theorem at the concrete chunk
`make tensor3 0 none = ok ⟨tensor3, 0, 3⟩`. -/
theorem tensorChunk_bounds_witness :
    ((0 : ℤ) ≤ (⟨tensor3, 0, 3⟩ : TensorChunk).offset ∧
      (⟨tensor3, 0, 3⟩ : TensorChunk).offset < (lastDim tensor3 : ℤ) ∧
      (⟨tensor3, 0, 3⟩ : TensorChunk).length ≤
        (lastDim tensor3 : ℤ) - (⟨tensor3, 0, 3⟩ : TensorChunk).offset) ∧
    ∀ target : ℕ,
      exOk ((⟨tensor3, 0, 3⟩ : TensorChunk).padded target) = true ↔
        (⟨tensor3, 0, 3⟩ : TensorChunk).length ≤ (target : ℤ) :=
  (tensorChunk_bounds tensor3 0 none).2 ⟨tensor3, 0, 3⟩ (by rfl)

/-!
### istft (src/dsp.ts lines 399–475)
-/

/-- First component of a successful fft/ifft result (observation helper;
used only where the surrounding code has already ruled the error out). -/
def okFst (e : Except Err ((ℕ → ℝ) × (ℕ → ℝ))) : ℕ → ℝ :=
  match e with
  | .ok p => p.1
  | .error _ => zeros

/-- The successful-result tensor of istft (everything after the three
throw sites of src/dsp.ts lines 399-475): full two-sided spectrum per
frame via conjugate symmetry, per-frame inverse FFT, windowed
overlap-add, and the final window-energy normalisation guarded at 1e-8.
The overlap-add `+=` loops commute, so the accumulated buffers are
rendered as sums over the frame index.  `outputLength` is truncating ℕ
subtraction here; `istft` only reaches this value after ruling out the
negative-allocation RangeError, so on that path either the signed output
length is non-negative and the truncation is exact, or `batch = 0` and
the tensor has no elements. -/
noncomputable def istftOut (z : ComplexTensor) (nFft hopLength : ℕ) (window : ℕ → ℝ)
    (normalized : Bool) (length? : Option ℕ) (center : Bool) : Tensor :=
  let batch := z.real.shape.getD 0 0
  let freqs := z.real.shape.getD 1 0
  let numFrames := z.real.shape.getD 2 0
  let L0 := match length? with
    | some l => l
    | none => nFft + (numFrames - 1) * hopLength
  let outputLength := if center then L0 - nFft else L0
  -- Full two-sided spectrum of one frame via conjugate symmetry
  -- (the mirror fill reads the already-written region `nFft - freq < freqs`).
  let spectrumRe : ℕ → ℕ → ℕ → ℝ := fun b frame freq =>
    if freq < freqs then z.real.data (b * freqs * numFrames + freq * numFrames + frame)
    else if freq < nFft then
      z.real.data (b * freqs * numFrames + (nFft - freq) * numFrames + frame)
    else 0
  let spectrumIm : ℕ → ℕ → ℕ → ℝ := fun b frame freq =>
    if freq < freqs then z.imag.data (b * freqs * numFrames + freq * numFrames + frame)
    else if freq < nFft then
      -z.imag.data (b * freqs * numFrames + (nFft - freq) * numFrames + frame)
    else 0
  let frameVal : ℕ → ℕ → ℕ → ℝ := fun b frame =>
    okFst (ifft (spectrumRe b frame) (spectrumIm b frame) nFft)
  let norm : ℝ := if normalized then Real.sqrt nFft else 1
  let frameStart : ℕ → ℤ := fun frame =>
    (frame * hopLength : ℤ) - (if center then (nFft / 2 : ℕ) else 0)
  let rawOut : ℕ → ℝ := fun gidx =>
    let b := gidx / outputLength
    let oi := gidx % outputLength
    if gidx < batch * outputLength then
      ∑ frame ∈ Finset.range numFrames,
        (if 0 ≤ (oi : ℤ) - frameStart frame ∧ (oi : ℤ) - frameStart frame < nFft then
          frameVal b frame ((oi : ℤ) - frameStart frame).toNat *
            window ((oi : ℤ) - frameStart frame).toNat * norm
        else 0)
    else 0
  let windowSumF : ℕ → ℝ := fun gidx =>
    let oi := gidx % outputLength
    if gidx < batch * outputLength then
      ∑ frame ∈ Finset.range numFrames,
        (if 0 ≤ (oi : ℤ) - frameStart frame ∧ (oi : ℤ) - frameStart frame < nFft then
          window ((oi : ℤ) - frameStart frame).toNat *
            window ((oi : ℤ) - frameStart frame).toNat
        else 0)
    else 0
  { data := fun gidx =>
      if windowSumF gidx > 1 / 100000000 then rawOut gidx / windowSumF gidx
      else rawOut gidx,
    shape := [batch, outputLength] }

/-- The signed output length of istft (src/dsp.ts lines 408–418):
`length` if given, else `nFft + (numFrames - 1) * hopLength`, minus
`nFft` when centred.  JS computes this in double arithmetic where
`numFrames - 1` can be `-1`, so the value lives in `ℤ`. -/
def istftOutputLength (nFft hopLength numFrames : ℕ) (length? : Option ℕ)
    (center : Bool) : ℤ :=
  let L0 : ℤ := match length? with
    | some l => (l : ℤ)
    | none => (nFft : ℤ) + ((numFrames : ℤ) - 1) * hopLength
  if center then L0 - nFft else L0

/-- `istft(z, nFft, hopLength, window, normalized, length, center)`.
Throws ShapeError when `2*freqs - 2 !== nFft`; then
`new Float32Array(batch * outputLength)` (src/dsp.ts line 421) throws
RangeError when `batch * outputLength` is negative; then, when at least
one (batch, frame) iteration runs and `nFft` is not a power of two, the
inner `ifft` call throws SizeError; otherwise the result is `istftOut`. -/
noncomputable def istft (z : ComplexTensor) (nFft hopLength : ℕ) (window : ℕ → ℝ)
    (normalized : Bool) (length? : Option ℕ) (center : Bool) : Except Err Tensor :=
  if 2 * ((z.real.shape.getD 1 0 : ℕ) : ℤ) - 2 ≠ (nFft : ℤ) then .error .shapeError
  else if (z.real.shape.getD 0 0 : ℤ) *
      istftOutputLength nFft hopLength (z.real.shape.getD 2 0) length? center < 0 then
    .error .rangeError
  else if 1 ≤ z.real.shape.getD 0 0 * z.real.shape.getD 2 0 ∧ nFft &&& (nFft - 1) ≠ 0 then
    .error .sizeError
  else .ok (istftOut z nFft hopLength window normalized length? center)

/-- A concrete complex tensor of shape [1, 4, 1] (all-zero data). -/
noncomputable def ctensor641 : ComplexTensor :=
  ⟨⟨zeros, [1, 4, 1]⟩, ⟨zeros, [1, 4, 1]⟩⟩

/-- C9 counterexample: for input shape [1, 4, 1] and nFft = 6 the
precondition 2*freqs - 2 = nFft holds, yet istft raises SizeError (6 is
not a power of two, so the per-frame inverse FFT throws), contradicting
the claim that no error is raised when the precondition holds. -/
theorem istft_precondition_not_sufficient :
    istft ctensor641 6 1 zeros false none true = .error .sizeError ∧
    2 * ((ctensor641.real.shape.getD 1 0 : ℕ) : ℤ) - 2 = (6 : ℤ) := by
  constructor
  · rfl
  · decide

/-- C9 (amended): istft raises ShapeError exactly when
`2*freqs - 2 != nFft`; when that precondition holds it raises RangeError
exactly when `batch * outputLength` is negative (the
`new Float32Array(batch * outputLength)` allocation); and it succeeds
exactly when additionally `nFft` passes the FFT power-of-two check or no
(batch, frame) iteration runs (otherwise the per-frame inverse FFT
raises SizeError). -/
theorem istft_error_iff (z : ComplexTensor) (nFft hopLength : ℕ) (window : ℕ → ℝ)
    (normalized : Bool) (length? : Option ℕ) (center : Bool) :
    (istft z nFft hopLength window normalized length? center = .error .shapeError ↔
      2 * ((z.real.shape.getD 1 0 : ℕ) : ℤ) - 2 ≠ (nFft : ℤ)) ∧
    (istft z nFft hopLength window normalized length? center = .error .rangeError ↔
      (2 * ((z.real.shape.getD 1 0 : ℕ) : ℤ) - 2 = (nFft : ℤ) ∧
        (z.real.shape.getD 0 0 : ℤ) *
          istftOutputLength nFft hopLength (z.real.shape.getD 2 0) length? center
          < 0)) ∧
    (exOk (istft z nFft hopLength window normalized length? center) = true ↔
      (2 * ((z.real.shape.getD 1 0 : ℕ) : ℤ) - 2 = (nFft : ℤ) ∧
        0 ≤ (z.real.shape.getD 0 0 : ℤ) *
          istftOutputLength nFft hopLength (z.real.shape.getD 2 0) length? center ∧
        (z.real.shape.getD 0 0 * z.real.shape.getD 2 0 = 0 ∨
          nFft &&& (nFft - 1) = 0))) := by
  unfold istft
  split_ifs with h1 h2 h3
  · refine ⟨⟨fun _ => h1, fun _ => rfl⟩, ?_, ?_⟩
    · constructor
      · intro h
        exact absurd h (by simp)
      · intro h
        exact absurd h.1 h1
    · constructor
      · intro h
        exact absurd h (by simp [exOk])
      · intro h
        exact absurd h.1 h1
  · refine ⟨?_, ⟨fun _ => ⟨not_not.mp h1, h2⟩, fun _ => rfl⟩, ?_⟩
    · constructor
      · intro h
        exact absurd h (by simp)
      · intro h
        exact absurd (not_not.mp h1) h
    · constructor
      · intro h
        exact absurd h (by simp [exOk])
      · intro h
        exact absurd h2 (not_lt.mpr h.2.1)
  · refine ⟨?_, ?_, ?_⟩
    · constructor
      · intro h
        exact absurd h (by simp)
      · intro h
        exact absurd (not_not.mp h1) h
    · constructor
      · intro h
        exact absurd h (by simp)
      · intro h
        exact absurd h.2 h2
    · constructor
      · intro h
        exact absurd h (by simp [exOk])
      · intro h
        rcases h.2.2 with h0 | hp
        · exact absurd h3.1 (by omega)
        · exact absurd hp h3.2
  · refine ⟨?_, ?_, ?_⟩
    · constructor
      · intro h
        exact absurd h (by simp)
      · intro h
        exact absurd (not_not.mp h1) h
    · constructor
      · intro h
        exact absurd h (by simp)
      · intro h
        exact absurd h.2 h2
    · constructor
      · intro _
        refine ⟨not_not.mp h1, not_lt.mp h2, ?_⟩
        push_neg at h3
        rcases Nat.eq_zero_or_pos
          (z.real.shape.getD 0 0 * z.real.shape.getD 2 0) with h0 | hp
        · exact Or.inl h0
        · exact Or.inr (h3 hp)
      · intro _
        rfl

/-!
### pad1d (src/dsp.ts lines 137–206)
-/

inductive PadMode where
  | constant
  | reflect
deriving DecidableEq

/-- `pad1d(x, [paddingLeft, paddingRight], mode)`: pads the trailing
dimension of every outer slice.  In reflect mode a too-short input is
first zero-extended by the minimal deficit and the two pads are reduced
accordingly (src/dsp.ts lines 147–174); then each outer slice is padded
independently, by zero-fill (constant) or by `padReflect` (reflect).  Both
copy loop nests write each output cell at most once and are rendered
pointwise. -/
def pad1d (x : Tensor) (paddingLeft paddingRight : ℕ) (mode : PadMode) : Tensor :=
  let length := lastDim x
  let maxPad := max paddingLeft paddingRight
  let ext : (ℕ → ℝ) × List ℕ × ℕ × ℕ :=
    if mode = PadMode.reflect ∧ length ≤ maxPad then
      let extraPad := maxPad - length + 1
      let extraPadRight := min paddingRight extraPad
      let extraPadLeft := extraPad - extraPadRight
      let newLength := length + extraPadLeft + extraPadRight
      let shape := setLast x.shape newLength
      (fun idx =>
        let i := idx / newLength
        let j := idx % newLength
        if idx < shape.prod ∧ extraPadLeft ≤ j ∧ j < extraPadLeft + length then
          x.data (i * length + (j - extraPadLeft))
        else 0,
       shape, paddingLeft - extraPadLeft, paddingRight - extraPadRight)
    else (x.data, x.shape, paddingLeft, paddingRight)
  let xData := ext.1
  let xShape := ext.2.1
  let aL := ext.2.2.1
  let aR := ext.2.2.2
  let currentLength := xShape.getD (xShape.length - 1) 0
  let outputLength := currentLength + aL + aR
  let shape := setLast xShape outputLength
  { data := fun idx =>
      let i := idx / outputLength
      let j := idx % outputLength
      if idx < shape.prod then
        match mode with
        | PadMode.constant =>
          if aL ≤ j ∧ j < aL + currentLength then xData (i * currentLength + (j - aL))
          else 0
        | PadMode.reflect =>
          padReflect (fun jj => xData (i * currentLength + jj)) currentLength aL aR j
      else 0,
    shape := shape }

/-!
### stft / spectro / spec (src/dsp.ts lines 212–360)
-/

/-- `hannWindow(n)` (src/dsp.ts lines 96–102). -/
noncomputable def hannWindow (n : ℕ) : ℕ → ℝ :=
  fun i => if i < n then 0.5 * (1 - Real.cos (2 * Real.pi * i / n)) else 0

/-- Both components of a successful fft result (observation helper; used
only where the surrounding code has already ruled the error out). -/
def okPair (e : Except Err ((ℕ → ℝ) × (ℕ → ℝ))) : (ℕ → ℝ) × (ℕ → ℝ) :=
  match e with
  | .ok p => p
  | .error _ => (zeros, zeros)

/-- The successful-result tensor of `stft(x[batch,len], nFft, hopLength,
window, normalized, center, padMode)` (src/dsp.ts lines 212–265): optional
centre padding of `nFft/2` per side, `floor((inputLength - nFft)/hop) + 1`
frames (floor division on integers, clamped at 0 where JS would fail to
allocate), windowed and `1/sqrt(nFft)`-scaled frames through the forward
FFT, keeping bins `[0, nFft/2]`. -/
noncomputable def stftOut (x : Tensor) (nFft hopLength : ℕ) (window : ℕ → ℝ)
    (normalized : Bool) (center : Bool) (padMode : PadMode) : ComplexTensor :=
  let batch := x.shape.getD 0 0
  let length := x.shape.getD 1 0
  let padded := pad1d x (nFft / 2) (nFft / 2) padMode
  let inputData := if center then padded.data else x.data
  let inputLength := if center then lastDim padded else length
  let numFrames := (Int.fdiv ((inputLength : ℤ) - (nFft : ℤ)) (hopLength : ℤ) + 1).toNat
  let numFreqs := nFft / 2 + 1
  let norm : ℝ := if normalized then 1 / Real.sqrt nFft else 1
  let frameFFT : ℕ → ℕ → (ℕ → ℝ) × (ℕ → ℝ) := fun b frame =>
    okPair (fft
      (fun i => if i < nFft then
        inputData (b * inputLength + frame * hopLength + i) * window i * norm
      else 0) none nFft)
  ⟨⟨(fun idx =>
      let frame := idx % numFrames
      let freq := idx / numFrames % numFreqs
      let b := idx / (numFrames * numFreqs)
      if idx < batch * numFreqs * numFrames then (frameFFT b frame).1 freq else 0),
    [batch, numFreqs, numFrames]⟩,
   ⟨(fun idx =>
      let frame := idx % numFrames
      let freq := idx / numFrames % numFreqs
      let b := idx / (numFrames * numFreqs)
      if idx < batch * numFreqs * numFrames then (frameFFT b frame).2 freq else 0),
    [batch, numFreqs, numFrames]⟩⟩

/-- `stft` with its error behaviour: the per-frame `fft` call throws
SizeError on the first processed frame when `nFft` is not a power of
two. -/
noncomputable def stft (x : Tensor) (nFft hopLength : ℕ) (window : ℕ → ℝ)
    (normalized : Bool) (center : Bool) (padMode : PadMode) : Except Err ComplexTensor :=
  let so := stftOut x nFft hopLength window normalized center padMode
  if 1 ≤ so.real.shape.getD 0 0 * so.real.shape.getD 2 0 ∧ nFft &&& (nFft - 1) ≠ 0 then
    .error .sizeError
  else .ok so

/-- `spectro(x, nFft = 512, hopLength = null)` (src/dsp.ts lines 267–294):
default hop `nFft/4`, reshape to `[otherSize, length]`, normalized centred
reflect STFT with a Hann window, reshape back to `[..., freqs, frames]`. -/
noncomputable def spectro (x : Tensor) (nFft : ℕ) (hopLength? : Option ℕ) :
    Except Err ComplexTensor := do
  let hopLength := hopLength?.getD (nFft / 4)
  let length := lastDim x
  let otherSize := x.shape.prod / length
  let reshaped : Tensor := ⟨x.data, [otherSize, length]⟩
  let result ← stft reshaped nFft hopLength (hannWindow nFft) true true PadMode.reflect
  let freqs := result.real.shape.getD 1 0
  let frames := result.real.shape.getD 2 0
  let outputShape := x.shape.dropLast ++ [freqs, frames]
  return ⟨⟨result.real.data, outputShape⟩, ⟨result.imag.data, outputShape⟩⟩

/-- The cropping stage of spec (src/dsp.ts lines 313–359): drop the top
frequency bin (`z[..., :-1, :]`), then keep frames `[2, 2+le)`.  The
spectrogram output shape is always `front ++ [freqs, frames]`, so the two
`newShape[...-2] = ...` copies are rendered with dropLast; both copy loop
nests write each output cell exactly once and are rendered pointwise. -/
noncomputable def specCrop (z : ComplexTensor) (le : ℕ) : ComplexTensor :=
  let zshape := z.real.shape
  let oldFreqs := zshape.getD (zshape.length - 2) 0
  let frames := zshape.getD (zshape.length - 1) 0
  let newFreqs := oldFreqs - 1
  let outerSize := zshape.prod / (oldFreqs * frames)
  let dropTop : (ℕ → ℝ) → ℕ → ℝ := fun src idx =>
    let frame := idx % frames
    let freq := idx / frames % newFreqs
    let i := idx / (frames * newFreqs)
    if idx < outerSize * newFreqs * frames then
      src (i * (oldFreqs * frames) + freq * frames + frame)
    else 0
  let newReal := dropTop z.real.data
  let newImag := dropTop z.imag.data
  let slicedShape := zshape.dropLast.dropLast ++ [newFreqs, le]
  let sliceFrames : (ℕ → ℝ) → ℕ → ℝ := fun src idx =>
    let frame := idx % le
    let freq := idx / le % newFreqs
    let i := idx / (le * newFreqs)
    if idx < outerSize * newFreqs * le then
      src (i * (newFreqs * frames) + freq * frames + (2 + frame))
    else 0
  ⟨⟨sliceFrames newReal, slicedShape⟩, ⟨sliceFrames newImag, slicedShape⟩⟩

/-- `spec(x)` (src/dsp.ts lines 296–360): hop 1024, reflect-pad by
`hl/2*3 = 1536` on the left and `pad + le*hl - len` on the right
(`le = ceil(len/1024)`), 4096-point spectrogram, then the `specCrop`
stage above. -/
noncomputable def spec (x : Tensor) : Except Err ComplexTensor := do
  let hl := 1024
  let lastDimLength := lastDim x
  let le := (lastDimLength + hl - 1) / hl
  let pad := hl / 2 * 3
  let paddingRight := pad + le * hl - lastDimLength
  let paddedX := pad1d x pad paddingRight PadMode.reflect
  let z ← spectro paddedX 4096 (some hl)
  return specCrop z le

/-!
### magnitude (src/dsp.ts lines 362–393) and mask (src/apply.ts lines 116–160)
-/

/-- `magnitude(z)`: interleave real/imag parts as adjacent channel pairs,
`[B, C, Fr, T] -> [B, 2C, Fr, T]`.  The loop nest writes every output cell
exactly once (channel `2c` from real, `2c+1` from imag) and is rendered
pointwise on the output index. -/
noncomputable def magnitude (z : ComplexTensor) : Tensor :=
  let B := z.real.shape.getD 0 0
  let C := z.real.shape.getD 1 0
  let Fr := z.real.shape.getD 2 0
  let T := z.real.shape.getD 3 0
  { data := fun idx =>
      let t := idx % T
      let fr := idx / T % Fr
      let ch := idx / (T * Fr) % (C * 2)
      let b := idx / (T * Fr * (C * 2))
      let srcIdx := b * C * Fr * T + ch / 2 * (Fr * T) + fr * T + t
      if idx < B * (C * 2) * Fr * T then
        if ch % 2 = 0 then z.real.data srcIdx else z.imag.data srcIdx
      else 0,
    shape := [B, C * 2, Fr, T] }

/-- `mask(m)`: de-interleave adjacent channel pairs back into a complex
tensor, `[B, S, C, Fr, T] -> [B, S, C/2, Fr, T]` (src/apply.ts lines
116–160); channel `2c` feeds the real part and `2c+1` the imaginary
part.  Rendered pointwise on the output index. -/
noncomputable def mask (m : Tensor) : ComplexTensor :=
  let B := m.shape.getD 0 0
  let S := m.shape.getD 1 0
  let C := m.shape.getD 2 0
  let Fr := m.shape.getD 3 0
  let T := m.shape.getD 4 0
  let Chalf := C / 2
  let sz := B * S * Chalf * Fr * T
  let outShape := [B, S, Chalf, Fr, T]
  let pick : ℕ → ℕ → ℝ := fun off idx =>
    let t := idx % T
    let fr := idx / T % Fr
    let c := idx / (T * Fr) % Chalf
    let s := idx / (T * Fr * Chalf) % S
    let b := idx / (T * Fr * Chalf * S)
    if idx < sz then
      m.data (b * S * C * Fr * T + s * (C * Fr * T) + (c * 2 + off) * (Fr * T) + fr * T + t)
    else 0
  ⟨⟨pick 0, outShape⟩, ⟨pick 1, outShape⟩⟩

/-!
### Shape and index lemmas
-/

theorem getD_last_append (fr : List ℕ) (L : ℕ) :
    (fr ++ [L]).getD ((fr ++ [L]).length - 1) 0 = L := by
  induction fr with
  | nil => rfl
  | cons a fr ih =>
    have hlen : ((a :: fr) ++ [L]).length - 1 = fr.length + 1 := by simp
    rw [hlen]
    have h2 : (a :: fr) ++ [L] = a :: (fr ++ [L]) := rfl
    rw [h2, List.getD_cons_succ]
    have hlen2 : (fr ++ [L]).length - 1 = fr.length := by simp
    rw [hlen2] at ih
    exact ih

theorem getD_penult_append (fr : List ℕ) (a b : ℕ) :
    (fr ++ [a, b]).getD ((fr ++ [a, b]).length - 2) 0 = a := by
  induction fr with
  | nil => rfl
  | cons x fr ih =>
    have hlen : ((x :: fr) ++ [a, b]).length - 2 = fr.length + 1 := by simp
    rw [hlen]
    have h2 : (x :: fr) ++ [a, b] = x :: (fr ++ [a, b]) := rfl
    rw [h2, List.getD_cons_succ]
    have hlen2 : (fr ++ [a, b]).length - 2 = fr.length := by simp
    rw [hlen2] at ih
    exact ih

theorem lastDim_mk (d : ℕ → ℝ) (fr : List ℕ) (L : ℕ) :
    lastDim ⟨d, fr ++ [L]⟩ = L :=
  getD_last_append fr L

theorem setLast_append (fr : List ℕ) (L v : ℕ) : setLast (fr ++ [L]) v = fr ++ [v] := by
  cases fr with
  | nil => rfl
  | cons a t =>
    show setLast (a :: (t ++ [L])) v = a :: (t ++ [v])
    unfold setLast
    rw [show a :: (t ++ [L]) = (a :: t) ++ [L] from rfl, List.dropLast_concat]
    rfl

theorem prod_append_one (fr : List ℕ) (L : ℕ) : (fr ++ [L]).prod = fr.prod * L := by
  simp

theorem dropLast2_append (fr : List ℕ) (a b : ℕ) :
    (fr ++ [a, b]).dropLast.dropLast = fr := by
  have h1 : fr ++ [a, b] = (fr ++ [a]) ++ [b] := by simp
  rw [h1, List.dropLast_concat, List.dropLast_concat]

theorem getD_last_append2 (fr : List ℕ) (a b : ℕ) :
    (fr ++ [a, b]).getD ((fr ++ [a, b]).length - 1) 0 = b := by
  have h1 : fr ++ [a, b] = (fr ++ [a]) ++ [b] := by simp
  rw [h1]
  exact getD_last_append (fr ++ [a]) b

theorem prod_append_two (fr : List ℕ) (a b : ℕ) :
    (fr ++ [a, b]).prod = fr.prod * (a * b) := by
  have h1 : fr ++ [a, b] = (fr ++ [a]) ++ [b] := by simp
  rw [h1, prod_append_one, prod_append_one]
  ring

theorem encdec_mod (q r n : ℕ) (h : r < n) : (q * n + r) % n = r := by
  rw [Nat.mul_comm, Nat.mul_add_mod]
  exact Nat.mod_eq_of_lt h

theorem encdec_div (q r n : ℕ) (h : r < n) : (q * n + r) / n = q := by
  have hn : 0 < n := lt_of_le_of_lt (Nat.zero_le r) h
  rw [Nat.mul_comm, Nat.mul_add_div hn, Nat.div_eq_of_lt h, Nat.add_zero]

theorem encIdx_lt (i I j J : ℕ) (hi : i < I) (hj : j < J) : i * J + j < I * J := by
  calc i * J + j < (i + 1) * J := by ring_nf; omega
    _ ≤ I * J := Nat.mul_le_mul_right J hi

theorem fdiv_natCast (a b : ℕ) : Int.fdiv (a : ℤ) (b : ℤ) = ((a / b : ℕ) : ℤ) := by
  rw [Int.fdiv_eq_tdiv (Int.natCast_nonneg a) (Int.natCast_nonneg b), Int.ofNat_tdiv]

/-- Shape behaviour of pad1d on a nonempty trailing dimension: the trailing
dimension grows by exactly the two requested pads (in reflect mode the
pre-extension adds to the length what it removes from the pads). -/
theorem pad1d_shape (d : ℕ → ℝ) (fr : List ℕ) (L pL pR : ℕ) (mode : PadMode)
    (hL : 1 ≤ L) :
    (pad1d ⟨d, fr ++ [L]⟩ pL pR mode).shape = fr ++ [L + pL + pR] := by
  have harith : ∀ eP eR eL, eP = max pL pR - L + 1 → eR = min pR eP → eL = eP - eR →
      L ≤ max pL pR → (L + eL + eR) + (pL - eL) + (pR - eR) = L + pL + pR := by
    intro eP eR eL hP hR hL2 hmx
    rw [Nat.max_def] at hP hmx
    rw [Nat.min_def] at hR
    split_ifs at hP hR hmx <;> omega
  unfold pad1d
  dsimp only
  rw [lastDim_mk]
  by_cases hbr : mode = PadMode.reflect ∧ L ≤ max pL pR
  · rw [if_pos hbr]
    dsimp only
    rw [setLast_append, getD_last_append, setLast_append]
    rw [harith _ _ _ rfl rfl rfl hbr.2]
  · rw [if_neg hbr]
    dsimp only
    rw [getD_last_append, setLast_append]

/-!
### Observation helpers and success lemmas for the spectrogram pipeline
-/

def okShapeRe (e : Except Err ComplexTensor) : List ℕ :=
  match e with
  | .ok z => z.real.shape
  | .error _ => []

def okShapeIm (e : Except Err ComplexTensor) : List ℕ :=
  match e with
  | .ok z => z.imag.shape
  | .error _ => []

def okDataRe (e : Except Err ComplexTensor) : ℕ → ℝ :=
  match e with
  | .ok z => z.real.data
  | .error _ => zeros

def okDataIm (e : Except Err ComplexTensor) : ℕ → ℝ :=
  match e with
  | .ok z => z.imag.data
  | .error _ => zeros

theorem stft_4096_ok (x : Tensor) (hop : ℕ) (w : ℕ → ℝ) (nm c : Bool) (pm : PadMode) :
    stft x 4096 hop w nm c pm = .ok (stftOut x 4096 hop w nm c pm) := by
  unfold stft
  dsimp only
  rw [if_neg]
  intro hcon
  exact hcon.2 (by decide)

theorem stftOut_shape_4096 (d : ℕ → ℝ) (B L : ℕ) (hL : 1 ≤ L) (w : ℕ → ℝ) (nm : Bool) :
    (stftOut ⟨d, [B, L]⟩ 4096 1024 w nm true PadMode.reflect).real.shape =
      [B, 2049, L / 1024 + 1] ∧
    (stftOut ⟨d, [B, L]⟩ 4096 1024 w nm true PadMode.reflect).imag.shape =
      [B, 2049, L / 1024 + 1] := by
  have hpad := pad1d_shape d [B] L 2048 2048 PadMode.reflect hL
  simp only [List.cons_append, List.nil_append] at hpad
  have hlast : lastDim (pad1d ⟨d, [B, L]⟩ 2048 2048 PadMode.reflect) = L + 4096 := by
    unfold lastDim
    rw [hpad]
    have h2 : [B, L + 2048 + 2048] = [B] ++ [L + 2048 + 2048] := rfl
    rw [h2, getD_last_append]
  have hframes : ((Int.fdiv (((L + 4096 : ℕ) : ℤ) - ((4096 : ℕ) : ℤ)) ((1024 : ℕ) : ℤ)) +
      1).toNat = L / 1024 + 1 := by
    have hc : ((L + 4096 : ℕ) : ℤ) - ((4096 : ℕ) : ℤ) = ((L : ℕ) : ℤ) := by push_cast; ring
    rw [hc, fdiv_natCast]
    omega
  unfold stftOut
  dsimp only
  rw [if_pos rfl, hlast]
  constructor
  · rw [show ((4096 : ℕ) / 2 + 1) = 2049 from rfl]
    rw [show (⟨d, [B, L]⟩ : Tensor).shape.getD 0 0 = B from rfl]
    rw [hframes]
  · rw [show ((4096 : ℕ) / 2 + 1) = 2049 from rfl]
    rw [show (⟨d, [B, L]⟩ : Tensor).shape.getD 0 0 = B from rfl]
    rw [hframes]

theorem exBind_ok {α β : Type} (a : α) (f : α → Except Err β) :
    (Except.ok a : Except Err α) >>= f = f a := rfl

theorem spectro_4096 (t : Tensor) (fr : List ℕ) (L : ℕ) (hsh : t.shape = fr ++ [L])
    (hL : 1 ≤ L) :
    spectro t 4096 (some 1024) =
      .ok ⟨⟨(stftOut ⟨t.data, [fr.prod, L]⟩ 4096 1024 (hannWindow 4096) true true
              PadMode.reflect).real.data,
            fr ++ [2049, L / 1024 + 1]⟩,
           ⟨(stftOut ⟨t.data, [fr.prod, L]⟩ 4096 1024 (hannWindow 4096) true true
              PadMode.reflect).imag.data,
            fr ++ [2049, L / 1024 + 1]⟩⟩ := by
  have hlast : lastDim t = L := by
    unfold lastDim
    rw [hsh]
    exact getD_last_append fr L
  have hOS : t.shape.prod / L = fr.prod := by
    rw [hsh, prod_append_one]
    exact Nat.mul_div_cancel _ (by omega)
  have hdrop : t.shape.dropLast = fr := by
    rw [hsh]
    exact List.dropLast_concat
  unfold spectro
  rw [hlast]
  dsimp only
  rw [hOS, hdrop]
  rw [stft_4096_ok, exBind_ok, Option.getD_some]
  have hsr := (stftOut_shape_4096 t.data fr.prod L hL (hannWindow 4096) true).1
  rw [hsr]
  rfl

theorem specCrop_shapes (z : ComplexTensor) (fr : List ℕ) (a b le : ℕ)
    (hre : z.real.shape = fr ++ [a, b]) :
    (specCrop z le).real.shape = fr ++ [a - 1, le] ∧
    (specCrop z le).imag.shape = fr ++ [a - 1, le] := by
  unfold specCrop
  dsimp only
  rw [hre, getD_penult_append, dropLast2_append]
  exact ⟨rfl, rfl⟩

theorem specCrop_data (z : ComplexTensor) (fr : List ℕ) (F le : ℕ)
    (hre : z.real.shape = fr ++ [2049, F]) (i f u : ℕ)
    (hi : i < fr.prod) (hf : f < 2048) (hu : u < le) (huF : 2 + u < F) :
    (specCrop z le).real.data ((i * 2048 + f) * le + u) =
      z.real.data ((i * 2049 + f) * F + (2 + u)) ∧
    (specCrop z le).imag.data ((i * 2048 + f) * le + u) =
      z.imag.data ((i * 2049 + f) * F + (2 + u)) := by
  have hF1 : 1 ≤ F := by omega
  unfold specCrop
  dsimp only
  rw [hre, getD_penult_append, getD_last_append2, prod_append_two]
  rw [show (2049 : ℕ) - 1 = 2048 from rfl]
  rw [Nat.mul_div_cancel _ (by positivity)]
  have hmod1 : ((i * 2048 + f) * le + u) % le = u := encdec_mod _ _ _ hu
  have hdiv1 : ((i * 2048 + f) * le + u) / le = i * 2048 + f := encdec_div _ _ _ hu
  have hmod2 : (i * 2048 + f) % 2048 = f := encdec_mod _ _ _ hf
  have hdiv2 : ((i * 2048 + f) * le + u) / (le * 2048) = i := by
    have hidx : (i * 2048 + f) * le + u = i * (le * 2048) + (f * le + u) := by ring
    rw [hidx]
    refine encdec_div _ _ _ ?_
    calc f * le + u < 2048 * le := encIdx_lt f 2048 u le hf hu
      _ = le * 2048 := by ring
  have hin1 : (i * 2048 + f) * le + u < fr.prod * 2048 * le := by
    have hbsc : i * 2048 + f < fr.prod * 2048 := encIdx_lt i fr.prod f 2048 hi hf
    have h2 := encIdx_lt (i * 2048 + f) (fr.prod * 2048) u le hbsc hu
    exact h2
  have h2u : 2 + u < F := huF
  have hidx2 : i * (2048 * F) + f * F + (2 + u) = (i * 2048 + f) * F + (2 + u) := by ring
  have hmodB : (i * (2048 * F) + f * F + (2 + u)) % F = 2 + u := by
    rw [hidx2]
    exact encdec_mod _ _ _ h2u
  have hdivB : (i * (2048 * F) + f * F + (2 + u)) / F = i * 2048 + f := by
    rw [hidx2]
    exact encdec_div _ _ _ h2u
  have hdivB2 : (i * (2048 * F) + f * F + (2 + u)) / (F * 2048) = i := by
    have hidx3 : i * (2048 * F) + f * F + (2 + u) =
        i * (F * 2048) + (f * F + (2 + u)) := by ring
    rw [hidx3]
    refine encdec_div _ _ _ ?_
    calc f * F + (2 + u) < 2048 * F := encIdx_lt f 2048 (2 + u) F hf h2u
      _ = F * 2048 := by ring
  have hin2 : i * (2048 * F) + f * F + (2 + u) < fr.prod * 2048 * F := by
    rw [hidx2]
    have hbsc : i * 2048 + f < fr.prod * 2048 := encIdx_lt i fr.prod f 2048 hi hf
    have h2 := encIdx_lt (i * 2048 + f) (fr.prod * 2048) (2 + u) F hbsc h2u
    exact h2
  rw [hmod1, hdiv1, hmod2, hdiv2]
  rw [hmodB, hdivB, hmod2, hdivB2]
  constructor
  · rw [if_pos hin1, if_pos hin2]
    congr 1
    ring
  · rw [if_pos hin1, if_pos hin2]
    congr 1
    ring

/-- spec on a tensor with nonempty trailing dimension L succeeds, and its
value is specCrop applied to the reshaped stft payload: the input is
reflect-padded by 1536 left and `1536 + ceil(L/1024)*1024 - L` right
(total padded length `3072 + ceil(L/1024)*1024`), run through the
4096-point hop-1024 spectrogram (frame count `ceil(L/1024) + 4`), and
cropped to `le = ceil(L/1024)` frames. -/
theorem spec_ok (d : ℕ → ℝ) (fr : List ℕ) (L : ℕ) (hL : 1 ≤ L) :
    spec ⟨d, fr ++ [L]⟩ =
      .ok (specCrop
        ⟨⟨(stftOut ⟨(pad1d ⟨d, fr ++ [L]⟩ 1536 (1536 + (L + 1023) / 1024 * 1024 - L)
              PadMode.reflect).data,
             [fr.prod, 3072 + (L + 1023) / 1024 * 1024]⟩ 4096 1024 (hannWindow 4096)
             true true PadMode.reflect).real.data,
          fr ++ [2049, (L + 1023) / 1024 + 4]⟩,
         ⟨(stftOut ⟨(pad1d ⟨d, fr ++ [L]⟩ 1536 (1536 + (L + 1023) / 1024 * 1024 - L)
              PadMode.reflect).data,
             [fr.prod, 3072 + (L + 1023) / 1024 * 1024]⟩ 4096 1024 (hannWindow 4096)
             true true PadMode.reflect).imag.data,
          fr ++ [2049, (L + 1023) / 1024 + 4]⟩⟩
        ((L + 1023) / 1024)) := by
  have hle : L + 1024 - 1 = L + 1023 := by omega
  have hlast : lastDim ⟨d, fr ++ [L]⟩ = L := lastDim_mk d fr L
  have hP : L + 1536 + (1536 + (L + 1023) / 1024 * 1024 - L) =
      3072 + (L + 1023) / 1024 * 1024 := by omega
  have hpadsh := pad1d_shape d fr L 1536 (1536 + (L + 1023) / 1024 * 1024 - L)
    PadMode.reflect hL
  rw [hP] at hpadsh
  have hP1 : 1 ≤ 3072 + (L + 1023) / 1024 * 1024 := by omega
  have hfr : (3072 + (L + 1023) / 1024 * 1024) / 1024 + 1 = (L + 1023) / 1024 + 4 := by
    omega
  unfold spec
  rw [hlast]
  dsimp only
  rw [show (1024 : ℕ) / 2 * 3 = 1536 from rfl, hle]
  rw [spectro_4096 _ fr (3072 + (L + 1023) / 1024 * 1024) hpadsh hP1, exBind_ok]
  rw [hfr]
  rfl

/-- C3: for every input tensor with trailing dimension L >= 1, spec succeeds
and returns a complex tensor whose trailing two dimensions are exactly
2048 frequency bins (the 4096-point STFT's 2049 bins with the Nyquist bin
dropped) by exactly ceil(L/1024) frames; the underlying STFT of the input
reflect-padded by 1536 left and 1536 + ceil(L/1024)*1024 - L right has
2049 x (ceil(L/1024) + 4) bins (numFrames = floor((paddedLen - nFft)/hop)
+ 1 with the centering pad), and each output cell (i, f, u) is that STFT's
cell (i, f, 2 + u): the frame window starts at offset 2. -/
theorem spec_shape_and_window (x : Tensor) (fr : List ℕ) (L : ℕ)
    (hsh : x.shape = fr ++ [L]) (hL : 1 ≤ L) :
    exOk (spec x) = true ∧
    okShapeRe (spec x) = fr ++ [2048, (L + 1023) / 1024] ∧
    okShapeIm (spec x) = fr ++ [2048, (L + 1023) / 1024] ∧
    (stftOut ⟨(pad1d x 1536 (1536 + (L + 1023) / 1024 * 1024 - L) PadMode.reflect).data,
        [fr.prod, 3072 + (L + 1023) / 1024 * 1024]⟩ 4096 1024 (hannWindow 4096)
        true true PadMode.reflect).real.shape =
      [fr.prod, 2049, (L + 1023) / 1024 + 4] ∧
    (∀ i f u, i < fr.prod → f < 2048 → u < (L + 1023) / 1024 →
      okDataRe (spec x) ((i * 2048 + f) * ((L + 1023) / 1024) + u) =
        (stftOut ⟨(pad1d x 1536 (1536 + (L + 1023) / 1024 * 1024 - L) PadMode.reflect).data,
            [fr.prod, 3072 + (L + 1023) / 1024 * 1024]⟩ 4096 1024 (hannWindow 4096)
            true true PadMode.reflect).real.data
          ((i * 2049 + f) * ((L + 1023) / 1024 + 4) + (2 + u)) ∧
      okDataIm (spec x) ((i * 2048 + f) * ((L + 1023) / 1024) + u) =
        (stftOut ⟨(pad1d x 1536 (1536 + (L + 1023) / 1024 * 1024 - L) PadMode.reflect).data,
            [fr.prod, 3072 + (L + 1023) / 1024 * 1024]⟩ 4096 1024 (hannWindow 4096)
            true true PadMode.reflect).imag.data
          ((i * 2049 + f) * ((L + 1023) / 1024 + 4) + (2 + u))) := by
  obtain ⟨d, sh⟩ := x
  dsimp only at hsh
  subst hsh
  have hok := spec_ok d fr L hL
  have hfr2 : (3072 + (L + 1023) / 1024 * 1024) / 1024 + 1 = (L + 1023) / 1024 + 4 := by
    omega
  have hP1 : 1 ≤ 3072 + (L + 1023) / 1024 * 1024 := by omega
  refine ⟨?_, ?_, ?_, ?_, ?_⟩
  · rw [hok]; rfl
  · rw [hok]
    rw [show (2048 : ℕ) = 2049 - 1 from rfl]
    exact (specCrop_shapes _ fr 2049 ((L + 1023) / 1024 + 4) ((L + 1023) / 1024) rfl).1
  · rw [hok]
    rw [show (2048 : ℕ) = 2049 - 1 from rfl]
    exact (specCrop_shapes _ fr 2049 ((L + 1023) / 1024 + 4) ((L + 1023) / 1024) rfl).2
  · have hso := (stftOut_shape_4096
      (pad1d ⟨d, fr ++ [L]⟩ 1536 (1536 + (L + 1023) / 1024 * 1024 - L) PadMode.reflect).data
      fr.prod (3072 + (L + 1023) / 1024 * 1024) hP1 (hannWindow 4096) true).1
    rw [hfr2] at hso
    exact hso
  · intro i f u hi hf hu
    rw [hok]
    exact specCrop_data _ fr ((L + 1023) / 1024 + 4) ((L + 1023) / 1024)
      rfl i f u hi hf hu (by omega)

/-- C3 witness: the shape/window theorem instantiated at the concrete
one-sample tensor of shape [1] (fr = [], L = 1). -/
theorem spec_shape_and_window_witness :
    (⟨zeros, [1]⟩ : Tensor).shape = [] ++ [1] ∧ 1 ≤ 1 ∧
    (exOk (spec ⟨zeros, [1]⟩) = true ∧
     okShapeRe (spec ⟨zeros, [1]⟩) = [] ++ [2048, (1 + 1023) / 1024] ∧
     okShapeIm (spec ⟨zeros, [1]⟩) = [] ++ [2048, (1 + 1023) / 1024] ∧
     (stftOut ⟨(pad1d ⟨zeros, [1]⟩ 1536 (1536 + (1 + 1023) / 1024 * 1024 - 1)
          PadMode.reflect).data,
         [List.prod [], 3072 + (1 + 1023) / 1024 * 1024]⟩ 4096 1024 (hannWindow 4096)
         true true PadMode.reflect).real.shape =
       [List.prod [], 2049, (1 + 1023) / 1024 + 4] ∧
     (∀ i f u, i < List.prod [] → f < 2048 → u < (1 + 1023) / 1024 →
       okDataRe (spec ⟨zeros, [1]⟩) ((i * 2048 + f) * ((1 + 1023) / 1024) + u) =
         (stftOut ⟨(pad1d ⟨zeros, [1]⟩ 1536 (1536 + (1 + 1023) / 1024 * 1024 - 1)
              PadMode.reflect).data,
             [List.prod [], 3072 + (1 + 1023) / 1024 * 1024]⟩ 4096 1024 (hannWindow 4096)
             true true PadMode.reflect).real.data
           ((i * 2049 + f) * ((1 + 1023) / 1024 + 4) + (2 + u)) ∧
       okDataIm (spec ⟨zeros, [1]⟩) ((i * 2048 + f) * ((1 + 1023) / 1024) + u) =
         (stftOut ⟨(pad1d ⟨zeros, [1]⟩ 1536 (1536 + (1 + 1023) / 1024 * 1024 - 1)
              PadMode.reflect).data,
             [List.prod [], 3072 + (1 + 1023) / 1024 * 1024]⟩ 4096 1024 (hannWindow 4096)
             true true PadMode.reflect).imag.data
           ((i * 2049 + f) * ((1 + 1023) / 1024 + 4) + (2 + u)))) :=
  ⟨rfl, by decide, spec_shape_and_window ⟨zeros, [1]⟩ [] 1 rfl (by decide)⟩

/-- A concrete 5-dimensional complex tensor of shape [1, 1, 2, 1, 1]
(layout [B, S, C, Fr, T] with C = 2 even), all-zero data. -/
noncomputable def ctensor5 : ComplexTensor :=
  ⟨⟨zeros, [1, 1, 2, 1, 1]⟩, ⟨zeros, [1, 1, 2, 1, 1]⟩⟩

/-- C6 counterexample: magnitude destructures four dimensions and mask
five, so the literal composition mask(magnitude z) on a 5-dimensional
tensor is shape-incoherent.  For z of shape [1, 1, 2, 1, 1], magnitude
reads [B, C, Fr, T] = [1, 1, 2, 1] and outputs shape [1, 2, 2, 1], whence
mask reads [B, S, C, Fr, T] = [1, 2, 2, 1, 0] and outputs shape
[1, 2, 1, 1, 0] — not the original shape, so mask(magnitude(z)) does not
reproduce z. -/
theorem mask_magnitude_shape_mismatch :
    (mask (magnitude ctensor5)).real.shape ≠ ctensor5.real.shape := by
  decide

/-- magnitude's output value at the encoded in-range index
(b, ch, fr, t): channel ch reads the real part when ch is even and the
imaginary part when odd, at source channel ch / 2. -/
theorem magnitude_data (z : ComplexTensor) (B C Fr T : ℕ)
    (hre : z.real.shape = [B, C, Fr, T]) (b ch fr t : ℕ)
    (hb : b < B) (hch : ch < C * 2) (hfr : fr < Fr) (ht : t < T) :
    (magnitude z).data (((b * (C * 2) + ch) * Fr + fr) * T + t) =
      (if ch % 2 = 0 then z.real.data else z.imag.data)
        (b * C * Fr * T + ch / 2 * (Fr * T) + fr * T + t) := by
  unfold magnitude
  dsimp only
  rw [hre]
  rw [show ([B, C, Fr, T] : List ℕ).getD 0 0 = B from rfl,
      show ([B, C, Fr, T] : List ℕ).getD 1 0 = C from rfl,
      show ([B, C, Fr, T] : List ℕ).getD 2 0 = Fr from rfl,
      show ([B, C, Fr, T] : List ℕ).getD 3 0 = T from rfl]
  have m1 : (((b * (C * 2) + ch) * Fr + fr) * T + t) % T = t := encdec_mod _ _ _ ht
  have m2 : (((b * (C * 2) + ch) * Fr + fr) * T + t) / T = (b * (C * 2) + ch) * Fr + fr :=
    encdec_div _ _ _ ht
  have m3 : (((b * (C * 2) + ch) * Fr + fr) * T + t) / T % Fr = fr := by
    rw [m2]; exact encdec_mod _ _ _ hfr
  have m5 : (((b * (C * 2) + ch) * Fr + fr) * T + t) / (T * Fr) = b * (C * 2) + ch := by
    rw [← Nat.div_div_eq_div_mul, m2]; exact encdec_div _ _ _ hfr
  have m6 : (((b * (C * 2) + ch) * Fr + fr) * T + t) / (T * Fr) % (C * 2) = ch := by
    rw [m5]; exact encdec_mod _ _ _ hch
  have m7 : (((b * (C * 2) + ch) * Fr + fr) * T + t) / (T * Fr * (C * 2)) = b := by
    rw [← Nat.div_div_eq_div_mul, m5]; exact encdec_div _ _ _ hch
  have hmin : ((b * (C * 2) + ch) * Fr + fr) * T + t < B * (C * 2) * Fr * T := by
    have a1 : b * (C * 2) + ch < B * (C * 2) := encIdx_lt b B ch (C * 2) hb hch
    have a2 : (b * (C * 2) + ch) * Fr + fr < B * (C * 2) * Fr :=
      encIdx_lt _ _ fr Fr a1 hfr
    exact encIdx_lt _ _ t T a2 ht
  rw [m1, m3, m6, m7, if_pos hmin]
  split_ifs with hpar
  · rfl
  · rfl

/-- C6 (amended): mask is the exact inverse of magnitude's channel
interleaving once the network's source dimension is accounted for: for a
complex tensor z of 4-dimensional shape [B, C, Fr, T], reshaping
magnitude(z) (shape [B, 2C, Fr, T]) to the 5-dimensional layout
[B, 1, 2C, Fr, T] that mask expects and applying mask reproduces z
exactly — shapes [B, 1, C, Fr, T] and, at every in-range index
((b*C + c)*Fr + fr)*T + t, the identical real and imaginary values, with
no floating-point loss. -/
theorem mask_magnitude_inverse (z : ComplexTensor) (B C Fr T : ℕ)
    (hre : z.real.shape = [B, C, Fr, T]) :
    (mask ⟨(magnitude z).data, [B, 1, C * 2, Fr, T]⟩).real.shape = [B, 1, C, Fr, T] ∧
    (mask ⟨(magnitude z).data, [B, 1, C * 2, Fr, T]⟩).imag.shape = [B, 1, C, Fr, T] ∧
    ∀ b c fr t, b < B → c < C → fr < Fr → t < T →
      (mask ⟨(magnitude z).data, [B, 1, C * 2, Fr, T]⟩).real.data
          (((b * C + c) * Fr + fr) * T + t) =
        z.real.data (((b * C + c) * Fr + fr) * T + t) ∧
      (mask ⟨(magnitude z).data, [B, 1, C * 2, Fr, T]⟩).imag.data
          (((b * C + c) * Fr + fr) * T + t) =
        z.imag.data (((b * C + c) * Fr + fr) * T + t) := by
  have hC2 : C * 2 / 2 = C := Nat.mul_div_cancel C two_pos
  unfold mask
  dsimp only
  rw [show ([B, 1, C * 2, Fr, T] : List ℕ).getD 0 0 = B from rfl,
      show ([B, 1, C * 2, Fr, T] : List ℕ).getD 1 0 = 1 from rfl,
      show ([B, 1, C * 2, Fr, T] : List ℕ).getD 2 0 = C * 2 from rfl,
      show ([B, 1, C * 2, Fr, T] : List ℕ).getD 3 0 = Fr from rfl,
      show ([B, 1, C * 2, Fr, T] : List ℕ).getD 4 0 = T from rfl,
      hC2]
  refine ⟨rfl, rfl, ?_⟩
  intro b c fr t hb hc hfr ht
  have h1 : (((b * C + c) * Fr + fr) * T + t) % T = t := encdec_mod _ _ _ ht
  have h2 : (((b * C + c) * Fr + fr) * T + t) / T = (b * C + c) * Fr + fr :=
    encdec_div _ _ _ ht
  have h3 : (((b * C + c) * Fr + fr) * T + t) / T % Fr = fr := by
    rw [h2]; exact encdec_mod _ _ _ hfr
  have h5 : (((b * C + c) * Fr + fr) * T + t) / (T * Fr) = b * C + c := by
    rw [← Nat.div_div_eq_div_mul, h2]; exact encdec_div _ _ _ hfr
  have h6 : (((b * C + c) * Fr + fr) * T + t) / (T * Fr) % C = c := by
    rw [h5]; exact encdec_mod _ _ _ hc
  have h7 : (((b * C + c) * Fr + fr) * T + t) / (T * Fr * C) = b := by
    rw [← Nat.div_div_eq_div_mul, h5]; exact encdec_div _ _ _ hc
  have h8 : (((b * C + c) * Fr + fr) * T + t) / (T * Fr * C) % 1 = 0 := Nat.mod_one _
  have h9 : (((b * C + c) * Fr + fr) * T + t) / (T * Fr * C * 1) = b := by
    rw [Nat.mul_one]; exact h7
  have hin : ((b * C + c) * Fr + fr) * T + t < B * 1 * C * Fr * T := by
    have a1 : b * C + c < B * C := encIdx_lt b B c C hb hc
    have a2 : (b * C + c) * Fr + fr < B * C * Fr := encIdx_lt _ _ fr Fr a1 hfr
    have a3 : ((b * C + c) * Fr + fr) * T + t < B * C * Fr * T :=
      encIdx_lt _ _ t T a2 ht
    calc ((b * C + c) * Fr + fr) * T + t < B * C * Fr * T := a3
      _ = B * 1 * C * Fr * T := by ring
  rw [h1, h3, h6, h8, h9, if_pos hin]
  constructor
  · rw [show b * 1 * (C * 2) * Fr * T + 0 * (C * 2 * Fr * T) + (c * 2 + 0) * (Fr * T) +
        fr * T + t = ((b * (C * 2) + (c * 2 + 0)) * Fr + fr) * T + t from by ring]
    rw [magnitude_data z B C Fr T hre b (c * 2 + 0) fr t hb (by omega) hfr ht]
    rw [if_pos (show (c * 2 + 0) % 2 = 0 from by omega)]
    rw [show (c * 2 + 0) / 2 = c from by omega]
    congr 1
    ring
  · rw [if_pos hin]
    rw [show b * 1 * (C * 2) * Fr * T + 0 * (C * 2 * Fr * T) + (c * 2 + 1) * (Fr * T) +
        fr * T + t = ((b * (C * 2) + (c * 2 + 1)) * Fr + fr) * T + t from by ring]
    rw [magnitude_data z B C Fr T hre b (c * 2 + 1) fr t hb (by omega) hfr ht]
    rw [if_neg (show ¬ (c * 2 + 1) % 2 = 0 from by omega)]
    rw [show (c * 2 + 1) / 2 = c from by omega]
    congr 1
    ring

/-- A concrete 4-dimensional complex tensor of shape [1, 1, 1, 1]. -/
noncomputable def ctensor4 : ComplexTensor :=
  ⟨⟨zeros, [1, 1, 1, 1]⟩, ⟨zeros, [1, 1, 1, 1]⟩⟩

/-- C6 witness: the amended inverse theorem instantiated at the concrete
complex tensor of shape [B, C, Fr, T] = [1, 1, 1, 1]. -/
theorem mask_magnitude_inverse_witness :
    ctensor4.real.shape = [1, 1, 1, 1] ∧
    ((mask ⟨(magnitude ctensor4).data, [1, 1, 1 * 2, 1, 1]⟩).real.shape =
        [1, 1, 1, 1, 1] ∧
     (mask ⟨(magnitude ctensor4).data, [1, 1, 1 * 2, 1, 1]⟩).imag.shape =
        [1, 1, 1, 1, 1] ∧
     ∀ b c fr t, b < 1 → c < 1 → fr < 1 → t < 1 →
       (mask ⟨(magnitude ctensor4).data, [1, 1, 1 * 2, 1, 1]⟩).real.data
           (((b * 1 + c) * 1 + fr) * 1 + t) =
         ctensor4.real.data (((b * 1 + c) * 1 + fr) * 1 + t) ∧
       (mask ⟨(magnitude ctensor4).data, [1, 1, 1 * 2, 1, 1]⟩).imag.data
           (((b * 1 + c) * 1 + fr) * 1 + t) =
         ctensor4.imag.data (((b * 1 + c) * 1 + fr) * 1 + t)) :=
  ⟨rfl, mask_magnitude_inverse ctensor4 1 1 1 1 rfl⟩

/-!
### The inverse-spectrogram pipeline (src/dsp.ts lines 477–591) and the
chunked-inference pipeline (src/apply.ts, src/onnx-htdemucs.ts,
src/wav-utils.ts).  JS numbers holding lengths that flow into shapes are
ℕ; quantities produced by Math.floor on possibly-fractional values
(trainingLength, validLength, stride, offsets) are ℤ, converted with
toNat at tensor boundaries where the surrounding checks have made them
nonnegative.
-/

/-- `padComplex(z, [pfL, pfR], [ptL, ptR])` (src/dsp.ts lines 511–547):
zero-pad the trailing two (frequency, time) dimensions.  The copy loop
nest writes pairwise-distinct cells and is rendered pointwise. -/
noncomputable def padComplex (z : ComplexTensor)
    (padFreqLeft padFreqRight padTimeLeft padTimeRight : ℕ) : ComplexTensor :=
  let shape := z.real.shape
  let ndim := shape.length
  let oldFreqs := shape.getD (ndim - 2) 0
  let oldFrames := shape.getD (ndim - 1) 0
  let newFreqs := oldFreqs + padFreqLeft + padFreqRight
  let newFrames := oldFrames + padTimeLeft + padTimeRight
  let newShape := shape.dropLast.dropLast ++ [newFreqs, newFrames]
  let outerSize := newShape.prod / (newFreqs * newFrames)
  let copy : (ℕ → ℝ) → ℕ → ℝ := fun src idx =>
    let frame := idx % newFrames
    let freq := idx / newFrames % newFreqs
    let i := idx / (newFrames * newFreqs)
    if i < outerSize ∧ padFreqLeft ≤ freq ∧ freq < padFreqLeft + oldFreqs ∧
        padTimeLeft ≤ frame ∧ frame < padTimeLeft + oldFrames then
      src (i * oldFreqs * oldFrames + (freq - padFreqLeft) * oldFrames +
        (frame - padTimeLeft))
    else 0
  ⟨⟨copy z.real.data, newShape⟩, ⟨copy z.imag.data, newShape⟩⟩

/-- `ispectro(z, hopLength = null, length = null)` (src/dsp.ts lines
477–506): derive `nFft = 2*freqs - 2` from the trailing-but-one dimension,
reshape to `[otherSize, freqs, frames]`, run istft, reshape back. -/
noncomputable def ispectro (z : ComplexTensor) (hopLength? : Option ℕ)
    (length? : Option ℕ) : Except Err Tensor := do
  let originalShape := z.real.shape
  let freqs := originalShape.getD (originalShape.length - 2) 0
  let frames := originalShape.getD (originalShape.length - 1) 0
  let nFft := 2 * freqs - 2
  let hopLength := hopLength?.getD (nFft / 4)
  let otherSize := originalShape.prod / (freqs * frames)
  let reshapedZ : ComplexTensor :=
    ⟨⟨z.real.data, [otherSize, freqs, frames]⟩,
     ⟨z.imag.data, [otherSize, freqs, frames]⟩⟩
  let result ← istft reshapedZ nFft hopLength (hannWindow nFft) true length? true
  let outputLength := result.shape.getD 1 0
  return ⟨result.data, originalShape.dropLast.dropLast ++ [outputLength]⟩

/-- `ispec(z, length)` (src/dsp.ts lines 554–591): pad one extra frequency
bin and two frames each side, inverse spectrogram at hop 1024 with target
`le = 1024*ceil(length/1024) + 2*1536`, then crop `[pad, pad + length)` on
the trailing dimension (pointwise copy). -/
noncomputable def ispec (z : ComplexTensor) (length : ℕ) : Except Err Tensor := do
  let hl := 1024
  let paddedZ := padComplex z 0 1 0 0
  let paddedZ2 := padComplex paddedZ 0 0 2 2
  let pad := hl / 2 * 3
  let le := hl * ((length + hl - 1) / hl) + 2 * pad
  let x ← ispectro paddedZ2 (some hl) (some le)
  let totalLength := lastDim x
  let newShape := setLast x.shape length
  return ⟨fun idx =>
      if idx < newShape.prod then x.data (idx / length * totalLength + pad + idx % length)
      else 0,
    newShape⟩

/-- `padToTrainingLength(mix, trainingLength)` (src/apply.ts lines
86–114): right-pad the trailing dimension with zeros up to
trainingLength; no-op when already long enough.  Pointwise copy. -/
noncomputable def padToTrainingLength (mix : Tensor) (trainingLength : ℕ) : Tensor :=
  let currentLength := lastDim mix
  if trainingLength ≤ currentLength then mix
  else
    let shape := setLast mix.shape trainingLength
    { data := fun idx =>
        let i := idx / trainingLength
        let j := idx % trainingLength
        if idx < shape.prod ∧ j < currentLength then mix.data (i * currentLength + j)
        else 0,
      shape := shape }

/-- `addTensors(a, b)` (src/apply.ts lines 162–174): elementwise sum;
throws when the shape lists differ. -/
noncomputable def addTensors (a b : Tensor) : Except Err Tensor :=
  if a.shape ≠ b.shape then .error .shapeError
  else .ok ⟨fun i => if i < a.shape.prod then a.data i + b.data i else 0, a.shape⟩

/-- `cropToValidLength(x, validLength)` (src/apply.ts lines 176–202): keep
the leading validLength entries of the trailing dimension; no-op when
already short enough. -/
noncomputable def cropToValidLength (x : Tensor) (validLength : ℕ) : Tensor :=
  let currentLength := lastDim x
  if currentLength ≤ validLength then x
  else
    let newShape := setLast x.shape validLength
    { data := fun idx =>
        let i := idx / validLength
        let j := idx % validLength
        if idx < newShape.prod then x.data (i * currentLength + j) else 0,
      shape := newShape }

/-- `centerTrim(tensor, reference)` (src/apply.ts lines 204–240): trim the
trailing dimension symmetrically down to `reference`; throws when the
tensor is shorter than the reference.  `Math.floor(delta/2)` on the
positive delta is `Int.fdiv`. -/
noncomputable def centerTrim (tensor : Tensor) (reference : ℤ) : Except Err Tensor :=
  let tensorLength := lastDim tensor
  let delta : ℤ := (tensorLength : ℤ) - reference
  if delta < 0 then .error .otherError
  else if delta = 0 then .ok tensor
  else
    let start := Int.fdiv delta 2
    let stop := (tensorLength : ℤ) - (delta - Int.fdiv delta 2)
    let newLength := (stop - start).toNat
    let shape := setLast tensor.shape newLength
    .ok { data := fun idx =>
            let i := idx / newLength
            let j := idx % newLength
            if idx < shape.prod then tensor.data (i * tensorLength + start.toNat + j)
            else 0,
          shape := shape }

/-- The model interface consumed by apply.ts: the constants of
ONNXHTDemucs (src/onnx-htdemucs.ts lines 8–13) plus the network forward
pass, which runs an external ONNX session and is therefore an opaque
function of the two input tensors. -/
structure DemucsModel where
  sources : List String
  samplerate : ℕ
  segment : ℚ
  forward : Tensor → Tensor → Tensor × Tensor

/-- `validLength(length)` (src/onnx-htdemucs.ts lines 32–39): returns the
training length `floor(segment * samplerate)`, throwing when the request
exceeds it. -/
def DemucsModel.validLength (model : DemucsModel) (length : ℤ) : Except Err ℤ :=
  let trainingLength := ⌊model.segment * (model.samplerate : ℚ)⌋
  if trainingLength < length then .error .otherError else .ok trainingLength

/-- `applyInference(model, mix)` (src/apply.ts lines 242–275): pad the
chunk to the training length, spectrogram + magnitude, network forward,
mask + inverse spectrogram, sum the two branches, crop and centre-trim
back to the chunk length. -/
noncomputable def applyInference (model : DemucsModel) (mix : TensorChunk) :
    Except Err Tensor := do
  let length := mix.length
  let validLength ← model.validLength length
  let paddedMix ← mix.padded validLength.toNat
  let trainingLength := ⌊model.segment * (model.samplerate : ℚ)⌋
  let paddedPaddedMix := padToTrainingLength paddedMix trainingLength.toNat
  let z ← spec paddedPaddedMix
  let magspec := magnitude z
  let fwd := model.forward paddedMix magspec
  let zout := mask fwd.1
  let timeFromSpec ← ispec zout trainingLength.toNat
  let sumBeforeCrop ← addTensors fwd.2 timeFromSpec
  let out := cropToValidLength sumBeforeCrop validLength.toNat
  centerTrim out length

/-- The triangular weight vector before normalisation (src/apply.ts lines
292–298): `weight[i] = i + 1` up to the midpoint, `segment - i` after it;
indices at or beyond `segment` are unwritten zeros. -/
def splitWeightRaw (segment : ℕ) : ℕ → ℝ := fun i =>
  if i < segment then
    (if i < segment / 2 + 1 then ((i + 1 : ℕ) : ℝ) else ((segment - i : ℕ) : ℝ))
  else 0

/-- `weight.reduce(Math.max, -Infinity)` (src/apply.ts line 299); the
initial accumulator -Infinity is modelled by -1, below every triangle
value actually produced. -/
noncomputable def splitMaxWeight (segment : ℕ) : ℝ :=
  ((List.range segment).map (splitWeightRaw segment)).foldl max (-1)

/-- The normalised triangle weight (src/apply.ts lines 300–302). -/
noncomputable def splitWeight (segment : ℕ) : ℕ → ℝ := fun i =>
  if i < segment then splitWeightRaw segment i / splitMaxWeight segment else 0

/-- The mutable state of the applySplits chunk loop: the two accumulation
buffers plus the observable event history (progress calls and chunk
offsets). -/
structure SplitAcc where
  outData : ℕ → ℝ
  sumWeight : ℕ → ℝ
  trace : List (ℕ × ℤ)
  offsets : List ℤ

/-- `Math.floor(model.samplerate * model.segment)` (src/apply.ts line 288). -/
def segmentOf (model : DemucsModel) : ℤ :=
  ⌊(model.samplerate : ℚ) * model.segment⌋

/-- `Math.floor((1 - overlap) * segment)` (src/apply.ts line 289). -/
def strideOf (model : DemucsModel) (overlap : ℚ) : ℤ :=
  ⌊(1 - overlap) * (segmentOf model : ℚ)⌋

/-- `Math.ceil(length / stride)` (src/apply.ts line 304). -/
def totalOf (model : DemucsModel) (overlap : ℚ) (length : ℕ) : ℤ :=
  ⌈(length : ℚ) / (strideOf model overlap : ℚ)⌉

/-- The `while (offset < length)` loop of applySplits (src/apply.ts lines
308–337), one constructor application per iteration, with explicit fuel
(the JS loop does not terminate when stride <= 0; running out of fuel is
the fuelError).  The weighted-accumulation loop nest of one iteration is
rendered as a pointwise sum over the (b, s, c, t) tuples that hit the
cell, and the weight accumulation pointwise on the time index; writes the
JS engine would drop beyond the underlying array sizes are guarded out. -/
noncomputable def applySplitsLoop (model : DemucsModel) (mix : Tensor)
    (batch sources channels length : ℕ) (segmentN stride : ℤ) (weight : ℕ → ℝ)
    (total : ℤ) : ℕ → ℤ → ℕ → SplitAcc → Except Err SplitAcc
  | 0, offset, _, acc =>
      if offset < (length : ℤ) then .error .fuelError else .ok acc
  | fuel + 1, offset, chunkIndex, acc =>
      if offset < (length : ℤ) then do
        let chunk ← TensorChunk.make mix offset (some segmentN)
        let chunkOut ← applyInference model chunk
        let chunkLength := lastDim chunkOut
        let off := offset.toNat
        let outData1 : ℕ → ℝ := fun idx =>
          acc.outData idx +
            ∑ p ∈ Finset.filter
                (fun p : ℕ × ℕ × ℕ × ℕ =>
                  p.1 * sources * channels * length + p.2.1 * channels * length +
                    p.2.2.1 * length + off + p.2.2.2 = idx ∧
                  idx < batch * sources * channels * length)
                (Finset.range batch ×ˢ Finset.range sources ×ˢ Finset.range channels ×ˢ
                  Finset.range chunkLength),
              weight p.2.2.2 *
                chunkOut.data (p.1 * sources * channels * chunkLength +
                  p.2.1 * channels * chunkLength + p.2.2.1 * chunkLength + p.2.2.2)
        let sumWeight1 : ℕ → ℝ := fun u =>
          acc.sumWeight u +
            if off ≤ u ∧ u < off + chunkLength ∧ u < length then weight (u - off) else 0
        applySplitsLoop model mix batch sources channels length segmentN stride weight
          total fuel (offset + stride) (chunkIndex + 1)
          ⟨outData1, sumWeight1, acc.trace ++ [(chunkIndex + 1, total)],
           acc.offsets ++ [offset]⟩
      else .ok acc

/-- `applySplits` up to (and including) the chunk loop (src/apply.ts lines
280–337): shape destructuring, weight construction, the initial progress
call `(0, total)`, and the loop with fuel `length`. -/
noncomputable def applySplitsState (model : DemucsModel) (mix : Tensor) (overlap : ℚ) :
    Except Err SplitAcc :=
  let batch := mix.shape.getD 0 0
  let channels := mix.shape.getD 1 0
  let length := mix.shape.getD 2 0
  let sources := model.sources.length
  let segmentN := segmentOf model
  let stride := strideOf model overlap
  let weight := splitWeight segmentN.toNat
  let total := totalOf model overlap length
  applySplitsLoop model mix batch sources channels length segmentN stride weight total
    length 0 0 ⟨zeros, zeros, [(0, total)], []⟩

/-- `applySplits` (src/apply.ts lines 280–349): the loop state followed by
the final per-cell normalisation `outData[i] /= sumWeight[i % length]`. -/
noncomputable def applySplits (model : DemucsModel) (mix : Tensor) (overlap : ℚ) :
    Except Err Tensor := do
  let st ← applySplitsState model mix overlap
  let batch := mix.shape.getD 0 0
  let channels := mix.shape.getD 1 0
  let length := mix.shape.getD 2 0
  let sources := model.sources.length
  return ⟨fun i =>
      if i < batch * sources * channels * length then
        st.outData i / st.sumWeight (i % length)
      else st.outData i,
    [batch, sources, channels, length]⟩

/-- `applyModel` (src/apply.ts lines 351–354): random shifts are not
implemented; delegates to applySplits. -/
noncomputable def applyModel (model : DemucsModel) (mix : Tensor) (overlap : ℚ) :
    Except Err Tensor :=
  applySplits model mix overlap

/-- A JS Float32Array with its length (needed where the code consults
`.length` of audio buffers). -/
structure F32 where
  data : ℕ → ℝ
  size : ℕ

/-- `RawAudio` (src/wav-utils.ts line 1). -/
structure RawAudio where
  channelData : List F32
  sampleRate : ℕ

/-- `planarize(channelData)` (src/wav-utils.ts lines 223–251): a single
channel is returned as-is; otherwise the channels are laid out
consecutively (the sequential-views fast path produces the same contents
as the concatenating slow path). -/
noncomputable def planarize (channelData : List F32) : ℕ → ℝ :=
  match channelData with
  | [] => zeros
  | [a] => a.data
  | a :: rest => fun idx =>
      if idx < (a :: rest).length * a.size then
        ((a :: rest).getD (idx / a.size) ⟨zeros, 0⟩).data (idx % a.size)
      else 0

/-- `separateTracks(model, rawAudio, progressCallback, overlap)`
(src/apply.ts lines 356–390): planarize to a [1, channels, samples] mix,
run applyModel, and cut per-source per-channel views of length
`result.shape[3]` starting at `s*channels*length + c*length`.  An empty
channel list would make the JS `channelData[0].length` read throw. -/
noncomputable def separateTracks (model : DemucsModel) (rawAudio : RawAudio)
    (overlap : ℚ) : Except Err (List (String × RawAudio)) :=
  match rawAudio.channelData with
  | [] => .error .otherError
  | c0 :: _ => do
      let channels := rawAudio.channelData.length
      let samples := c0.size
      let data := planarize rawAudio.channelData
      let mix : Tensor := ⟨data, [1, channels, samples]⟩
      let result ← applyModel model mix overlap
      let sources := result.shape.getD 1 0
      let length := result.shape.getD 3 0
      return (List.range sources).map (fun s =>
        (model.sources.getD s "",
         ⟨(List.range channels).map (fun c =>
            ⟨fun i => result.data (s * channels * length + c * length + i), length⟩),
          rawAudio.sampleRate⟩))

theorem exBind_eq_ok {α β : Type} {e : Except Err α} {f : α → Except Err β} {b : β}
    (h : e >>= f = .ok b) : ∃ a, e = .ok a ∧ f a = .ok b := by
  cases e with
  | ok a => exact ⟨a, rfl, h⟩
  | error err => exact absurd h (by simp [Bind.bind, Except.bind])

theorem range_succ_map_shift {α : Type} (f : ℕ → α) (n : ℕ) :
    (List.range (n + 1)).map f = f 0 :: (List.range n).map (fun j => f (j + 1)) := by
  rw [List.range_succ_eq_map, List.map_cons, List.map_map]
  rfl

/-- What a successful run of the chunk loop appends to the event history:
one progress record and one chunk offset per iteration, the offsets
advancing by the stride from the entry offset; the iteration count n is
pinned down by the loop guard on each side. -/
theorem applySplitsLoop_trace (model : DemucsModel) (mix : Tensor)
    (batch sources channels length : ℕ) (segmentN stride : ℤ) (weight : ℕ → ℝ)
    (total : ℤ) :
    ∀ (fuel : ℕ) (offset : ℤ) (chunkIndex : ℕ) (acc st : SplitAcc),
      applySplitsLoop model mix batch sources channels length segmentN stride weight
        total fuel offset chunkIndex acc = .ok st →
      ∃ n : ℕ,
        st.trace = acc.trace ++
          (List.range n).map (fun j => (chunkIndex + 1 + j, total)) ∧
        st.offsets = acc.offsets ++
          (List.range n).map (fun (j : ℕ) => offset + (j : ℤ) * stride) ∧
        (∀ j : ℕ, j < n → offset + (j : ℤ) * stride < (length : ℤ)) ∧
        (length : ℤ) ≤ offset + (n : ℤ) * stride := by
  intro fuel
  induction fuel with
  | zero =>
    intro offset chunkIndex acc st h
    unfold applySplitsLoop at h
    by_cases hlt : offset < (length : ℤ)
    · rw [if_pos hlt] at h
      exact absurd h (by simp)
    · rw [if_neg hlt] at h
      have hst : acc = st := by
        injection h
      cases hst
      refine ⟨0, by simp, by simp, fun j hj => absurd hj (by omega), ?_⟩
      simp only [Nat.cast_zero, zero_mul, add_zero]
      omega
  | succ fuel ih =>
    intro offset chunkIndex acc st h
    unfold applySplitsLoop at h
    by_cases hlt : offset < (length : ℤ)
    · rw [if_pos hlt] at h
      obtain ⟨chunk, hmk, h2⟩ := exBind_eq_ok h
      obtain ⟨chunkOut, hinf, h3⟩ := exBind_eq_ok h2
      obtain ⟨n, htr, hof, hbnd, hge⟩ := ih (offset + stride) (chunkIndex + 1) _ st h3
      dsimp only at htr hof
      refine ⟨n + 1, ?_, ?_, ?_, ?_⟩
      · rw [htr, List.append_assoc]
        congr 1
        rw [range_succ_map_shift (fun j => (chunkIndex + 1 + j, total)) n,
            List.singleton_append]
        congr 1
        refine (List.map_congr_left (fun a _ => ?_)).symm
        rw [Prod.mk.injEq]
        exact ⟨by omega, rfl⟩
      · rw [hof, List.append_assoc]
        congr 1
        rw [range_succ_map_shift (fun (j : ℕ) => offset + (j : ℤ) * stride) n,
            List.singleton_append]
        congr 1
        · push_cast
          ring
        · refine (List.map_congr_left (fun a _ => ?_)).symm
          push_cast
          ring
        
      · intro j hj
        match j with
        | 0 => simpa using hlt
        | k + 1 =>
          have hk := hbnd k (by omega)
          push_cast
          rw [show offset + ((k : ℤ) + 1) * stride = offset + stride + (k : ℤ) * stride
            from by ring]
          exact hk
      · push_cast
        rw [show offset + ((n : ℤ) + 1) * stride = offset + stride + (n : ℤ) * stride
          from by ring]
        exact hge
    · rw [if_neg hlt] at h
      have hst : acc = st := by
        injection h
      cases hst
      refine ⟨0, by simp, by simp, fun j hj => absurd hj (by omega), ?_⟩
      simp only [Nat.cast_zero, zero_mul, add_zero]
      omega

/-- Identify the ceiling `⌈length/stride⌉` from the two-sided loop-exit
bounds. -/
theorem ceil_div_ident (length n : ℕ) (stride : ℤ) (hs : 1 ≤ stride)
    (h1 : ((n : ℤ) - 1) * stride < (length : ℤ)) (h2 : (length : ℤ) ≤ (n : ℤ) * stride) :
    ⌈(length : ℚ) / (stride : ℚ)⌉ = (n : ℤ) := by
  have hspos : (0 : ℚ) < (stride : ℚ) := by exact_mod_cast hs
  rw [Int.ceil_eq_iff]
  constructor
  · rw [lt_div_iff₀ hspos]
    push_cast
    exact_mod_cast h1
  · rw [div_le_iff₀ hspos]
    exact_mod_cast h2

/-- C4: for a mix of shape [batch, channels, length] with length >= 1 and
positive stride, a successful applySplits run processes chunks at offsets
0, stride, 2*stride, ... while offset < length, and reports progress once
before the loop with (0, total) and once after the i-th chunk with
(i, total), where total = ceil(length/stride) equals the number of chunks
processed; the reported step sequence is monotonically non-decreasing. -/
theorem applySplits_progress (model : DemucsModel) (mix : Tensor) (overlap : ℚ)
    (batch channels length : ℕ) (st : SplitAcc)
    (hsh : mix.shape = [batch, channels, length]) (hL : 1 ≤ length)
    (hstride : 1 ≤ strideOf model overlap)
    (hok : applySplitsState model mix overlap = .ok st) :
    (st.offsets.length : ℤ) = totalOf model overlap length ∧
    st.trace = (List.range ((totalOf model overlap length).toNat + 1)).map
      (fun i => (i, totalOf model overlap length)) ∧
    st.offsets = (List.range (totalOf model overlap length).toNat).map
      (fun (i : ℕ) => (i : ℤ) * strideOf model overlap) ∧
    List.Chain' (fun a b : ℕ × ℤ => a.1 ≤ b.1) st.trace := by
  unfold applySplitsState at hok
  dsimp only at hok
  rw [hsh] at hok
  rw [show ([batch, channels, length] : List ℕ).getD 0 0 = batch from rfl,
      show ([batch, channels, length] : List ℕ).getD 1 0 = channels from rfl,
      show ([batch, channels, length] : List ℕ).getD 2 0 = length from rfl] at hok
  obtain ⟨n, htr, hof, hbnd, hge⟩ := applySplitsLoop_trace _ _ _ _ _ _ _ _
    (splitWeight (segmentOf model).toNat) _ length 0 0 _ st hok
  dsimp only at htr hof
  simp only [zero_add, List.nil_append] at htr hof hbnd hge
  have hn1 : 1 ≤ n := by
    by_contra hcon
    have hn0 : n = 0 := by omega
    subst hn0
    simp only [Nat.cast_zero, zero_mul] at hge
    omega
  have hceil : totalOf model overlap length = (n : ℤ) := by
    unfold totalOf
    refine ceil_div_ident length n (strideOf model overlap) hstride ?_ ?_
    · have hb := hbnd (n - 1) (by omega)
      rw [Nat.cast_sub hn1, Nat.cast_one] at hb
      exact hb
    · exact hge
  have htoNat : (totalOf model overlap length).toNat = n := by
    rw [hceil]
    rfl
  have htrace2 : st.trace = (List.range (n + 1)).map
      (fun i => (i, totalOf model overlap length)) := by
    rw [htr, range_succ_map_shift (fun i => (i, totalOf model overlap length)) n]
    rw [show ((0 : ℕ), totalOf model overlap length) ::
        (List.range n).map (fun j => (j + 1, totalOf model overlap length)) =
        [((0 : ℕ), totalOf model overlap length)] ++
        (List.range n).map (fun j => (j + 1, totalOf model overlap length)) from rfl]
    congr 1
    refine List.map_congr_left (fun a _ => ?_)
    rw [Prod.mk.injEq]
    exact ⟨by omega, rfl⟩
  refine ⟨?_, ?_, ?_, ?_⟩
  · rw [hof, List.length_map, List.length_range, hceil]
  · rw [htoNat]
    exact htrace2
  · rw [htoNat, hof]
  · rw [htrace2, List.chain'_map, List.chain'_range_succ]
    intro m _
    exact Nat.le_succ m

/-- A stub network forward pass returning all-zero tensors of the shapes
the toy pipeline produces and consumes. -/
noncomputable def toyForward : Tensor → Tensor → Tensor × Tensor :=
  fun _ _ => (⟨zeros, [1, 1, 2, 2048, 1]⟩, ⟨zeros, [1, 1, 1, 2]⟩)

/-- A toy model: one source, samplerate 1, segment 2 (training length 2,
stride 2 at overlap 0). -/
noncomputable def toyModel : DemucsModel := ⟨["a"], 1, 2, toyForward⟩

/-- A toy mix of shape [1, 1, 2]. -/
noncomputable def toyMix : Tensor := ⟨zeros, [1, 1, 2]⟩

/-- The state the toy run produces. -/
noncomputable def toyState : SplitAcc :=
  (applySplitsState toyModel toyMix 0).toOption.getD ⟨zeros, zeros, [], []⟩

theorem toyState_ok : applySplitsState toyModel toyMix 0 = .ok toyState := by
  with_unfolding_all rfl

/-- C4 witness: the progress theorem instantiated at the toy model
(training length 2, stride 2 at overlap 0) on the [1, 1, 2] mix: one
chunk, trace [(0, 1), (1, 1)], offsets [0]. -/
theorem applySplits_progress_witness :
    toyMix.shape = [1, 1, 2] ∧ 1 ≤ 2 ∧ 1 ≤ strideOf toyModel 0 ∧
    (((toyState.offsets.length : ℤ) = totalOf toyModel 0 2) ∧
     toyState.trace = (List.range ((totalOf toyModel 0 2).toNat + 1)).map
       (fun i => (i, totalOf toyModel 0 2)) ∧
     toyState.offsets = (List.range (totalOf toyModel 0 2).toNat).map
       (fun (i : ℕ) => (i : ℤ) * strideOf toyModel 0) ∧
     List.Chain' (fun a b : ℕ × ℤ => a.1 ≤ b.1) toyState.trace) :=
  ⟨rfl, by decide, by with_unfolding_all decide,
   applySplits_progress toyModel toyMix 0 1 1 2 toyState rfl (by decide)
     (by with_unfolding_all decide) toyState_ok⟩

theorem lastDim_setLast (d : ℕ → ℝ) (a : ℕ) (t : List ℕ) (v : ℕ) :
    lastDim ⟨d, setLast (a :: t) v⟩ = v := by
  rw [show setLast (a :: t) v = (a :: t).dropLast ++ [v] from rfl]
  exact lastDim_mk d (a :: t).dropLast v

/-- A successful centerTrim has trailing dimension exactly the reference
(the symmetric trim start/end arithmetic cancels to the reference). -/
theorem centerTrim_ok_lastDim (tensor : Tensor) (reference : ℤ) (out : Tensor)
    (h : centerTrim tensor reference = .ok out) :
    lastDim out = reference.toNat := by
  unfold centerTrim at h
  dsimp only at h
  by_cases h1 : (lastDim tensor : ℤ) - reference < 0
  · rw [if_pos h1] at h
    exact absurd h (by simp)
  rw [if_neg h1] at h
  by_cases h2 : (lastDim tensor : ℤ) - reference = 0
  · rw [if_pos h2] at h
    have hte : tensor = out := Except.ok.inj h
    subst hte
    omega
  rw [if_neg h2] at h
  · have hlen : (lastDim tensor : ℤ) -
        ((lastDim tensor : ℤ) - reference - Int.fdiv ((lastDim tensor : ℤ) - reference) 2) -
        Int.fdiv ((lastDim tensor : ℤ) - reference) 2 = reference := by ring
    rw [hlen] at h
    have hte : out = ⟨_, setLast tensor.shape reference.toNat⟩ := (Except.ok.inj h).symm
    subst hte
    rcases hsh : tensor.shape with _ | ⟨a, t⟩
    · have hl0 : lastDim tensor = 0 := by
        unfold lastDim
        rw [hsh]
        rfl
      have hz : lastDim (⟨fun idx =>
          if idx < (setLast ([] : List ℕ) reference.toNat).prod then
            tensor.data (idx / reference.toNat * lastDim tensor +
              (Int.fdiv ((lastDim tensor : ℤ) - reference) 2).toNat + idx % reference.toNat)
          else 0, setLast ([] : List ℕ) reference.toNat⟩ : Tensor) = 0 := rfl
      rw [hz]
      omega
    · exact lastDim_setLast _ a t _

/-- A successful applyInference returns a tensor whose trailing dimension
is the chunk's length (the final centerTrim pins it down). -/
theorem applyInference_ok_lastDim (model : DemucsModel) (c : TensorChunk) (out : Tensor)
    (h : applyInference model c = .ok out) : lastDim out = c.length.toNat := by
  unfold applyInference at h
  obtain ⟨vl, h1, h⟩ := exBind_eq_ok h
  try dsimp only at h
  obtain ⟨pm, h2, h⟩ := exBind_eq_ok h
  try dsimp only at h
  obtain ⟨z, h3, h⟩ := exBind_eq_ok h
  try dsimp only at h
  obtain ⟨ts, h4, h⟩ := exBind_eq_ok h
  try dsimp only at h
  obtain ⟨sb, h5, h⟩ := exBind_eq_ok h
  try dsimp only at h
  exact centerTrim_ok_lastDim _ _ _ h

theorem splitWeightRaw_nonneg (s i : ℕ) : 0 ≤ splitWeightRaw s i := by
  unfold splitWeightRaw
  split_ifs <;> positivity

theorem splitWeightRaw_pos (s i : ℕ) (h : i < s) : 0 < splitWeightRaw s i := by
  unfold splitWeightRaw
  rw [if_pos h]
  split_ifs with h2
  · positivity
  · have hge : 1 ≤ s - i := by omega
    exact_mod_cast Nat.lt_of_lt_of_le Nat.zero_lt_one hge

theorem foldl_max_le_init (l : List ℝ) (init : ℝ) : init ≤ l.foldl max init := by
  induction l generalizing init with
  | nil => exact le_refl _
  | cons a t ih => exact le_trans (le_max_left init a) (ih (max init a))

theorem foldl_max_mem : ∀ (l : List ℝ) (init x : ℝ), x ∈ l → x ≤ l.foldl max init := by
  intro l
  induction l with
  | nil =>
    intro init x h
    cases h
  | cons a t ih =>
    intro init x h
    rcases List.mem_cons.mp h with h1 | h2
    · cases h1
      exact le_trans (le_max_right init a) (foldl_max_le_init t (max init a))
    · exact ih (max init a) x h2

theorem splitMaxWeight_pos (s : ℕ) (hs : 1 ≤ s) : 0 < splitMaxWeight s := by
  unfold splitMaxWeight
  have h0 : splitWeightRaw s 0 ∈ (List.range s).map (splitWeightRaw s) :=
    List.mem_map_of_mem _ (List.mem_range.mpr (by omega))
  have hle := foldl_max_mem _ (-1) _ h0
  have hp := splitWeightRaw_pos s 0 (by omega)
  linarith

theorem splitWeight_nonneg (s i : ℕ) : 0 ≤ splitWeight s i := by
  unfold splitWeight
  split_ifs with h
  · exact div_nonneg (splitWeightRaw_nonneg s i)
      (le_of_lt (splitMaxWeight_pos s (by omega)))
  · exact le_refl 0

theorem splitWeight_pos (s i : ℕ) (h : i < s) : 0 < splitWeight s i := by
  unfold splitWeight
  rw [if_pos h]
  exact div_pos (splitWeightRaw_pos s i h) (splitMaxWeight_pos s (by omega))

/-- The per-time-sample weight sums only grow over the rest of a
successful loop run (nonnegative weights are only ever added). -/
theorem applySplitsLoop_sumWeight_mono (model : DemucsModel) (mix : Tensor)
    (batch sources channels length : ℕ) (segmentN stride : ℤ) (weight : ℕ → ℝ)
    (total : ℤ) (hw : ∀ t, 0 ≤ weight t) :
    ∀ (fuel : ℕ) (offset : ℤ) (chunkIndex : ℕ) (acc st : SplitAcc),
      applySplitsLoop model mix batch sources channels length segmentN stride weight
        total fuel offset chunkIndex acc = .ok st →
      ∀ u, acc.sumWeight u ≤ st.sumWeight u := by
  intro fuel
  induction fuel with
  | zero =>
    intro offset chunkIndex acc st h u
    unfold applySplitsLoop at h
    by_cases hlt : offset < (length : ℤ)
    · rw [if_pos hlt] at h
      exact absurd h (by simp)
    · rw [if_neg hlt] at h
      have hte : acc = st := Except.ok.inj h
      subst hte
      exact le_refl _
  | succ fuel ih =>
    intro offset chunkIndex acc st h u
    unfold applySplitsLoop at h
    by_cases hlt : offset < (length : ℤ)
    · rw [if_pos hlt] at h
      obtain ⟨chunk, hmk, h2⟩ := exBind_eq_ok h
      obtain ⟨chunkOut, hinf, h3⟩ := exBind_eq_ok h2
      have hm := ih _ _ _ _ h3 u
      dsimp only at hm
      refine le_trans ?_ hm
      have hnn : (0 : ℝ) ≤
          if offset.toNat ≤ u ∧ u < offset.toNat + lastDim chunkOut ∧ u < length then
            weight (u - offset.toNat)
          else 0 := by
        split_ifs
        · exact hw _
        · exact le_refl 0
      linarith
    · rw [if_neg hlt] at h
      have hte : acc = st := Except.ok.inj h
      subst hte
      exact le_refl _

/-- Coverage: on a successful loop run with positive stride at most the
segment length, every time index from the entry offset to the end of the
signal receives a positive weight contribution from some chunk. -/
theorem applySplitsLoop_coverage (model : DemucsModel) (mix : Tensor)
    (batch sources channels length : ℕ) (segmentN stride : ℤ) (weight : ℕ → ℝ)
    (total : ℤ) (hmix : lastDim mix = length)
    (hstride : 1 ≤ stride) (hseg : stride ≤ segmentN)
    (hw0 : ∀ t, 0 ≤ weight t)
    (hwpos : ∀ t : ℕ, (t : ℤ) < segmentN → 0 < weight t) :
    ∀ (fuel : ℕ) (offset : ℤ) (chunkIndex : ℕ) (acc st : SplitAcc),
      applySplitsLoop model mix batch sources channels length segmentN stride weight
        total fuel offset chunkIndex acc = .ok st →
      ∀ u : ℕ, u < length → offset ≤ (u : ℤ) → 0 ≤ acc.sumWeight u →
        0 < st.sumWeight u := by
  intro fuel
  induction fuel with
  | zero =>
    intro offset chunkIndex acc st h u hu hou hge
    unfold applySplitsLoop at h
    rw [if_pos (by omega : offset < (length : ℤ))] at h
    exact absurd h (by simp)
  | succ fuel ih =>
    intro offset chunkIndex acc st h u hu hou hge
    unfold applySplitsLoop at h
    rw [if_pos (by omega : offset < (length : ℤ))] at h
    obtain ⟨chunk, hmk, h2⟩ := exBind_eq_ok h
    obtain ⟨chunkOut, hinf, h3⟩ := exBind_eq_ok h2
    have hchunk : chunk = ⟨mix, offset, min ((length : ℤ) - offset) segmentN⟩ ∧
        0 ≤ offset := by
      unfold TensorChunk.make at hmk
      dsimp only at hmk
      rw [hmix] at hmk
      by_cases ha : offset < 0
      · rw [if_pos ha] at hmk
        exact absurd hmk (by simp)
      · rw [if_neg ha] at hmk
        by_cases hb : (length : ℤ) ≤ offset
        · rw [if_pos hb] at hmk
          exact absurd hmk (by simp)
        · rw [if_neg hb] at hmk
          exact ⟨(Except.ok.inj hmk).symm, by omega⟩
    have hchl : lastDim chunkOut = chunk.length.toNat :=
      applyInference_ok_lastDim _ _ _ hinf
    by_cases hcase : (u : ℤ) < offset + stride
    · have hmono := applySplitsLoop_sumWeight_mono model mix batch sources channels
        length segmentN stride weight total hw0 fuel _ _ _ _ h3 u
      dsimp only at hmono
      have hminlt : (u : ℤ) - offset < min ((length : ℤ) - offset) segmentN :=
        lt_min (by omega) (by omega)
      have hclen : chunk.length = min ((length : ℤ) - offset) segmentN := by
        rw [hchunk.1]
      have hcond : offset.toNat ≤ u ∧ u < offset.toNat + lastDim chunkOut ∧
          u < length := by
        refine ⟨by omega, ?_, hu⟩
        rw [hchl, hclen]
        omega
      rw [if_pos hcond] at hmono
      have hwp : 0 < weight (u - offset.toNat) := by
        refine hwpos _ ?_
        omega
      linarith
    · refine ih (offset + stride) (chunkIndex + 1) _ st h3 u hu (by omega) ?_
      dsimp only
      have hnn : (0 : ℝ) ≤
          if offset.toNat ≤ u ∧ u < offset.toNat + lastDim chunkOut ∧ u < length then
            weight (u - offset.toNat)
          else 0 := by
        split_ifs
        · exact hw0 _
        · exact le_refl 0
      linarith

/-- C10 (implicit): for a mix of shape [batch, channels, length] with
length >= 1, overlap in [0, 1) and resulting stride >= 1, after a
successful chunk loop the per-time-sample weight-sum buffer is strictly
positive at every index below length — every time index is covered by at
least one chunk and every triangle-weight entry used is positive — so the
final elementwise normalisation never divides by zero. -/
theorem applySplits_weight_sum_positive (model : DemucsModel) (mix : Tensor)
    (overlap : ℚ) (batch channels length : ℕ) (st : SplitAcc)
    (hsh : mix.shape = [batch, channels, length]) (hL : 1 ≤ length)
    (hov0 : 0 ≤ overlap) (hov1 : overlap < 1)
    (hstride : 1 ≤ strideOf model overlap)
    (hok : applySplitsState model mix overlap = .ok st) :
    ∀ u : ℕ, u < length → 0 < st.sumWeight u := by
  have hx : (1 : ℚ) ≤ (1 - overlap) * (segmentOf model : ℚ) := by
    have := hstride
    unfold strideOf at this
    exact_mod_cast Int.le_floor.mp this
  have hovpos : (0 : ℚ) < 1 - overlap := by linarith
  have hsegpos : (0 : ℚ) < (segmentOf model : ℚ) := by
    by_contra hcon
    push_neg at hcon
    nlinarith
  have hseg1 : (1 : ℤ) ≤ segmentOf model := by
    exact_mod_cast hsegpos
  have hseg : strideOf model overlap ≤ segmentOf model := by
    have hmul : (1 - overlap) * (segmentOf model : ℚ) ≤ (segmentOf model : ℚ) := by
      nlinarith
    calc strideOf model overlap ≤ ⌊(segmentOf model : ℚ)⌋ := Int.floor_mono hmul
      _ = segmentOf model := Int.floor_intCast _
  have hmix : lastDim mix = length := by
    unfold lastDim
    rw [hsh]
    rfl
  unfold applySplitsState at hok
  dsimp only at hok
  rw [hsh] at hok
  rw [show ([batch, channels, length] : List ℕ).getD 0 0 = batch from rfl,
      show ([batch, channels, length] : List ℕ).getD 1 0 = channels from rfl,
      show ([batch, channels, length] : List ℕ).getD 2 0 = length from rfl] at hok
  intro u hu
  refine applySplitsLoop_coverage model mix batch model.sources.length channels length
    (segmentOf model) (strideOf model overlap) (splitWeight (segmentOf model).toNat)
    (totalOf model overlap length) hmix hstride hseg
    (fun t => splitWeight_nonneg _ t) (fun t ht => splitWeight_pos _ t (by omega))
    length 0 0 _ st hok u hu (by omega) (le_refl 0)

/-- C10 witness: at the toy model (stride 2, segment 2) on the [1, 1, 2]
mix, the post-loop weight sum at index 0 is positive. -/
theorem applySplits_weight_sum_positive_witness :
    toyMix.shape = [1, 1, 2] ∧ (0 : ℚ) ≤ 0 ∧ (0 : ℚ) < 1 ∧
    1 ≤ strideOf toyModel 0 ∧ 0 < 2 ∧ 0 < toyState.sumWeight 0 :=
  ⟨rfl, le_refl 0, by norm_num, by with_unfolding_all decide, by decide,
   applySplits_weight_sum_positive toyModel toyMix 0 1 1 2 toyState rfl (by decide)
     (le_refl 0) (by norm_num) (by with_unfolding_all decide) toyState_ok 0 (by decide)⟩

theorem padComplex_shapes (z : ComplexTensor) (fr : List ℕ)
    (a b pfL pfR ptL ptR : ℕ) (hz : z.real.shape = fr ++ [a, b]) :
    (padComplex z pfL pfR ptL ptR).real.shape = fr ++ [a + pfL + pfR, b + ptL + ptR] ∧
    (padComplex z pfL pfR ptL ptR).imag.shape = fr ++ [a + pfL + pfR, b + ptL + ptR] := by
  unfold padComplex
  dsimp only
  rw [hz, getD_penult_append, getD_last_append2, dropLast2_append]
  exact ⟨rfl, rfl⟩

theorem istft_4096_some_ok (z : ComplexTensor) (N F hop le : ℕ)
    (hz : z.real.shape = [N, 2049, F]) (hle : 4096 ≤ le) :
    istft z 4096 hop (hannWindow 4096) true (some le) true =
      .ok (istftOut z 4096 hop (hannWindow 4096) true (some le) true) ∧
    (istftOut z 4096 hop (hannWindow 4096) true (some le) true).shape =
      [N, le - 4096] := by
  constructor
  · unfold istft
    rw [hz]
    rw [show ([N, 2049, F] : List ℕ).getD 1 0 = 2049 from rfl,
        show ([N, 2049, F] : List ℕ).getD 0 0 = N from rfl,
        show ([N, 2049, F] : List ℕ).getD 2 0 = F from rfl]
    rw [if_neg (by decide)]
    rw [show istftOutputLength 4096 hop F (some le) true = (le : ℤ) - 4096 from rfl]
    rw [if_neg (not_lt.mpr (mul_nonneg (Int.natCast_nonneg N) (by omega)))]
    rw [if_neg (fun hc => hc.2 (by decide))]
  · unfold istftOut
    dsimp only
    rw [hz]
    rfl

theorem ispectro_ok_shape (z : ComplexTensor) (fr : List ℕ) (F le : ℕ)
    (hz : z.real.shape = fr ++ [2049, F]) (hF : 1 ≤ F) (hle : 4096 ≤ le) :
    ispectro z (some 1024) (some le) =
      .ok ⟨(istftOut ⟨⟨z.real.data, [fr.prod, 2049, F]⟩,
              ⟨z.imag.data, [fr.prod, 2049, F]⟩⟩ 4096 1024 (hannWindow 4096) true
              (some le) true).data, fr ++ [le - 4096]⟩ := by
  have hpen : (fr ++ [2049, F]).getD ((fr ++ [2049, F]).length - 2) 0 = 2049 :=
    getD_penult_append fr 2049 F
  have hlast : (fr ++ [2049, F]).getD ((fr ++ [2049, F]).length - 1) 0 = F :=
    getD_last_append2 fr 2049 F
  have hprod : (fr ++ [2049, F]).prod / (2049 * F) = fr.prod := by
    rw [prod_append_two]
    exact Nat.mul_div_cancel _ (by positivity)
  unfold ispectro
  rw [hz]
  dsimp only
  rw [hpen, hlast, hprod, Option.getD_some]
  rw [show (2 * 2049 - 2 : ℕ) = 4096 from rfl]
  rw [(istft_4096_some_ok ⟨⟨z.real.data, [fr.prod, 2049, F]⟩,
        ⟨z.imag.data, [fr.prod, 2049, F]⟩⟩ fr.prod F 1024 le rfl hle).1, exBind_ok]
  rw [(istft_4096_some_ok ⟨⟨z.real.data, [fr.prod, 2049, F]⟩,
        ⟨z.imag.data, [fr.prod, 2049, F]⟩⟩ fr.prod F 1024 le rfl hle).2]
  rw [show ([fr.prod, le - 4096] : List ℕ).getD 1 0 = le - 4096 from rfl]
  rw [dropLast2_append]
  rfl

theorem magnitude_shape (z : ComplexTensor) (B C Fr T : ℕ)
    (hz : z.real.shape = [B, C, Fr, T]) :
    (magnitude z).shape = [B, C * 2, Fr, T] := by
  unfold magnitude
  dsimp only
  rw [hz]
  rfl

theorem mask_shapes (m : Tensor) (B S C Fr T : ℕ) (hm : m.shape = [B, S, C, Fr, T]) :
    (mask m).real.shape = [B, S, C / 2, Fr, T] ∧
    (mask m).imag.shape = [B, S, C / 2, Fr, T] := by
  unfold mask
  dsimp only
  rw [hm]
  exact ⟨rfl, rfl⟩

theorem tensorChunk_padded_ok (c : TensorChunk) (target : ℕ)
    (h : c.length ≤ (target : ℤ)) :
    ∃ p, c.padded target = .ok p ∧ p.shape = setLast c.tensor.shape target := by
  unfold TensorChunk.padded
  rw [if_neg (by omega)]
  exact ⟨_, rfl, rfl⟩

theorem tensorChunk_make_some_ok (mix : Tensor) (off l : ℤ) (L : ℕ)
    (hmix : lastDim mix = L) (h0 : 0 ≤ off) (hlt : off < (L : ℤ)) :
    TensorChunk.make mix off (some l) = .ok ⟨mix, off, min ((L : ℤ) - off) l⟩ := by
  unfold TensorChunk.make
  dsimp only
  rw [hmix, if_neg (by omega), if_neg (by omega)]

theorem padToTrainingLength_noop (mix : Tensor) (t : ℕ) (h : t ≤ lastDim mix) :
    padToTrainingLength mix t = mix := by
  unfold padToTrainingLength
  rw [if_pos h]

theorem cropToValidLength_noop (x : Tensor) (v : ℕ) (h : lastDim x ≤ v) :
    cropToValidLength x v = x := by
  unfold cropToValidLength
  rw [if_pos h]

theorem addTensors_ok (a b : Tensor) (h : a.shape = b.shape) :
    addTensors a b =
      .ok ⟨fun i => if i < a.shape.prod then a.data i + b.data i else 0, a.shape⟩ := by
  unfold addTensors
  rw [if_neg (fun hne => hne h)]

theorem centerTrim_ok_shape (tensor : Tensor) (fr : List ℕ) (L : ℕ) (reference : ℤ)
    (hsh : tensor.shape = fr ++ [L]) (h1 : reference ≤ (L : ℤ)) (h2 : 0 ≤ reference) :
    ∃ out, centerTrim tensor reference = .ok out ∧
      out.shape = fr ++ [reference.toNat] := by
  have hlast : lastDim tensor = L := by
    unfold lastDim
    rw [hsh]
    exact getD_last_append fr L
  unfold centerTrim
  dsimp only
  by_cases hd0 : (lastDim tensor : ℤ) - reference = 0
  · rw [if_neg (show ¬((lastDim tensor : ℤ) - reference < 0) from by omega), if_pos hd0]
    refine ⟨tensor, rfl, ?_⟩
    rw [hsh]
    have hLr : L = reference.toNat := by omega
    rw [hLr]
  · rw [if_neg (show ¬((lastDim tensor : ℤ) - reference < 0) from by omega), if_neg hd0]
    have hbig : (lastDim tensor : ℤ) -
        ((lastDim tensor : ℤ) - reference - Int.fdiv ((lastDim tensor : ℤ) - reference) 2) -
        Int.fdiv ((lastDim tensor : ℤ) - reference) 2 = reference := by ring
    refine ⟨_, rfl, ?_⟩
    dsimp only
    rw [hbig, hsh, setLast_append]

theorem ispec_ok_shape (z : ComplexTensor) (fr : List ℕ)
    (hz : z.real.shape = fr ++ [2048, 336]) :
    ∃ x, ispec z 343980 = .ok x ∧ x.shape = fr ++ [343980] := by
  have hpc1 := (padComplex_shapes z fr 2048 336 0 1 0 0 hz).1
  have hpc2' : (padComplex z 0 1 0 0).real.shape = fr ++ [2049, 336] := by
    rw [hpc1]
  have hpc2 := (padComplex_shapes (padComplex z 0 1 0 0) fr 2049 336 0 0 2 2 hpc2').1
  have hpc3 : (padComplex (padComplex z 0 1 0 0) 0 0 2 2).real.shape =
      fr ++ [2049, 340] := by
    rw [hpc2]
  unfold ispec
  dsimp only
  rw [show (1024 * ((343980 + 1024 - 1) / 1024) + 2 * (1024 / 2 * 3) : ℕ) = 347136
    from by norm_num]
  rw [ispectro_ok_shape (padComplex (padComplex z 0 1 0 0) 0 0 2 2) fr 340 347136
    hpc3 (by norm_num) (by norm_num), exBind_ok]
  refine ⟨_, rfl, ?_⟩
  dsimp only
  rw [setLast_append]

/-- The constants of ONNXHTDemucs (src/onnx-htdemucs.ts lines 8–13) around
an opaque network forward pass; `segment = 7.8` is the rational 39/5, and
`Math.floor(7.8 * 44100)` agrees with `⌊39/5 * 44100⌋ = 343980` (the
product is exact). -/
noncomputable def htdemucsModel (forward : Tensor → Tensor → Tensor × Tensor) :
    DemucsModel :=
  ⟨["drums", "bass", "other", "vocals"], 44100, 39 / 5, forward⟩

theorem htdemucs_floorA (f : Tensor → Tensor → Tensor × Tensor) :
    ⌊(htdemucsModel f).segment * ((htdemucsModel f).samplerate : ℚ)⌋ = 343980 := by
  rw [show ((htdemucsModel f).segment * ((htdemucsModel f).samplerate : ℚ) : ℚ) =
      ((343980 : ℤ) : ℚ) from by norm_num [htdemucsModel]]
  exact Int.floor_intCast _

theorem htdemucs_validLength (f : Tensor → Tensor → Tensor × Tensor) (l : ℤ)
    (hl : l ≤ 343980) :
    (htdemucsModel f).validLength l = .ok 343980 := by
  unfold DemucsModel.validLength
  dsimp only
  rw [htdemucs_floorA f, if_neg (by omega)]

theorem spec_ok_exists (d : ℕ → ℝ) (fr : List ℕ) (L : ℕ) (hL : 1 ≤ L) :
    ∃ z, spec ⟨d, fr ++ [L]⟩ = .ok z :=
  ⟨_, spec_ok d fr L hL⟩

theorem applyInference_concrete (f : Tensor → Tensor → Tensor × Tensor)
    (hfw : ∀ a b, (f a b).1.shape = [1, 4, 2, 2048, 336] ∧
                  (f a b).2.shape = [1, 4, 1, 343980])
    (c : TensorChunk) (hshape : c.tensor.shape = [1, 1, 44100])
    (hlen1 : 1 ≤ c.length) (hlen2 : c.length ≤ 343980) :
    ∃ out, applyInference (htdemucsModel f) c = .ok out ∧
      out.shape = [1, 4, 1, c.length.toNat] := by
  unfold applyInference
  dsimp only
  rw [show (htdemucsModel f).forward = f from rfl]
  rw [htdemucs_validLength f c.length hlen2, exBind_ok]
  rw [show ((343980 : ℤ)).toNat = 343980 from rfl]
  obtain ⟨⟨pd, psh⟩, hp, hpsh⟩ := tensorChunk_padded_ok c 343980 (by omega)
  rw [hp, exBind_ok]
  dsimp only at hpsh
  rw [hshape] at hpsh
  rw [show setLast [1, 1, 44100] 343980 = [1, 1, 343980] from rfl] at hpsh
  subst hpsh
  rw [htdemucs_floorA f]
  rw [show ((343980 : ℤ)).toNat = 343980 from rfl]
  rw [padToTrainingLength_noop ⟨pd, [1, 1, 343980]⟩ 343980 (le_refl 343980)]
  rw [show (⟨pd, [1, 1, 343980]⟩ : Tensor) = ⟨pd, [1, 1] ++ [343980]⟩ from rfl]
  obtain ⟨zz, hzz⟩ := spec_ok_exists pd [1, 1] 343980 (by norm_num)
  rw [hzz, exBind_ok]
  have hmsk := (mask_shapes (f ⟨pd, [1, 1] ++ [343980]⟩ (magnitude zz)).1 1 4 2 2048 336
    (hfw ⟨pd, [1, 1] ++ [343980]⟩ (magnitude zz)).1).1
  rw [show (2 / 2 : ℕ) = 1 from rfl] at hmsk
  obtain ⟨ts, hts, htssh⟩ := ispec_ok_shape _ [1, 4, 1] hmsk
  rw [hts, exBind_ok]
  rw [addTensors_ok _ ts (by
    rw [(hfw ⟨pd, [1, 1] ++ [343980]⟩ (magnitude zz)).2, htssh]
    rfl)]
  rw [exBind_ok]
  rw [cropToValidLength_noop _ 343980 (by
    unfold lastDim
    dsimp only
    rw [(hfw ⟨pd, [1, 1] ++ [343980]⟩ (magnitude zz)).2]
    exact le_refl 343980)]
  obtain ⟨res, hres, hressh⟩ := centerTrim_ok_shape
    ⟨fun i => if i < ((f ⟨pd, [1, 1] ++ [343980]⟩ (magnitude zz)).2).shape.prod then
        ((f ⟨pd, [1, 1] ++ [343980]⟩ (magnitude zz)).2).data i + ts.data i else 0,
     ((f ⟨pd, [1, 1] ++ [343980]⟩ (magnitude zz)).2).shape⟩
    [1, 4, 1] 343980 c.length (by
      dsimp only
      rw [(hfw ⟨pd, [1, 1] ++ [343980]⟩ (magnitude zz)).2]
      rfl) hlen2 (by omega)
  rw [hres]
  exact ⟨res, rfl, by rw [hressh]; rfl⟩

theorem applySplitsLoop_succeeds (model : DemucsModel) (mix : Tensor)
    (batch sources channels length : ℕ) (segmentN stride : ℤ) (weight : ℕ → ℝ)
    (total : ℤ) (hmix : lastDim mix = length) (hstride : 1 ≤ stride)
    (hinf : ∀ off : ℤ, 0 ≤ off → off < (length : ℤ) →
      ∃ o, applyInference model ⟨mix, off, min ((length : ℤ) - off) segmentN⟩ = .ok o) :
    ∀ (fuel : ℕ) (offset : ℤ) (chunkIndex : ℕ) (acc : SplitAcc), 0 ≤ offset →
      (length : ℤ) ≤ offset + (fuel : ℤ) * stride →
      ∃ st, applySplitsLoop model mix batch sources channels length segmentN stride
        weight total fuel offset chunkIndex acc = .ok st := by
  intro fuel
  induction fuel with
  | zero =>
    intro offset chunkIndex acc h0 hge
    unfold applySplitsLoop
    simp only [Nat.cast_zero, zero_mul, add_zero] at hge
    rw [if_neg (by omega)]
    exact ⟨acc, rfl⟩
  | succ fuel ih =>
    intro offset chunkIndex acc h0 hge
    unfold applySplitsLoop
    by_cases hlt : offset < (length : ℤ)
    · rw [if_pos hlt]
      rw [tensorChunk_make_some_ok mix offset segmentN length hmix h0 hlt, exBind_ok]
      obtain ⟨o, ho⟩ := hinf offset h0 hlt
      rw [ho, exBind_ok]
      refine ih (offset + stride) (chunkIndex + 1) _ (by omega) ?_
      push_cast at hge ⊢
      rw [show offset + stride + (fuel : ℤ) * stride = offset + ((fuel : ℤ) + 1) * stride
        from by ring]
      exact hge
    · rw [if_neg hlt]
      exact ⟨acc, rfl⟩

theorem htdemucs_floorB (f : Tensor → Tensor → Tensor × Tensor) :
    segmentOf (htdemucsModel f) = 343980 := by
  unfold segmentOf
  rw [show (((htdemucsModel f).samplerate : ℚ) * (htdemucsModel f).segment : ℚ) =
      ((343980 : ℤ) : ℚ) from by norm_num [htdemucsModel]]
  exact Int.floor_intCast _

theorem htdemucs_stride (f : Tensor → Tensor → Tensor × Tensor) :
    strideOf (htdemucsModel f) (1 / 4) = 257985 := by
  unfold strideOf
  rw [htdemucs_floorB]
  rw [show ((1 - (1 / 4 : ℚ)) * ((343980 : ℤ) : ℚ)) = ((257985 : ℤ) : ℚ) from by
    norm_num]
  exact Int.floor_intCast _

theorem htdemucs_total (f : Tensor → Tensor → Tensor × Tensor) :
    totalOf (htdemucsModel f) (1 / 4) 44100 = 1 := by
  unfold totalOf
  rw [htdemucs_stride]
  rw [Int.ceil_eq_iff]
  constructor
  · norm_num
  · rw [div_le_iff₀ (by norm_num)]
    norm_num

/-- C5: for a mono input of 44100 samples at 44100 Hz, overlap 0.25, and
the htdemucs model (training segment 7.8 s = 343980 samples, so the
stride 257985 exceeds the signal length; 4 named sources) with any
network forward pass producing the htdemucs output shapes: the chunk loop
processes exactly one chunk (offsets [0]) with total = 1, reporting
(0, 1) before the loop and (1, 1) after the single chunk, and
separateTracks returns the four named sources in order, each holding
exactly 1 channel of exactly 44100 samples at the input sample rate. -/
theorem separateTracks_concrete (f : Tensor → Tensor → Tensor × Tensor)
    (hfw : ∀ a b, (f a b).1.shape = [1, 4, 2, 2048, 336] ∧
                  (f a b).2.shape = [1, 4, 1, 343980])
    (audio : RawAudio) (c0 : F32) (hch : audio.channelData = [c0])
    (hsz : c0.size = 44100) (hsr : audio.sampleRate = 44100) :
    (∃ st, applySplitsState (htdemucsModel f) ⟨c0.data, [1, 1, 44100]⟩ (1 / 4) = .ok st ∧
       st.trace = [(0, 1), (1, 1)] ∧ st.offsets = [0]) ∧
    (∃ tracks, separateTracks (htdemucsModel f) audio (1 / 4) = .ok tracks ∧
       tracks.map Prod.fst = ["drums", "bass", "other", "vocals"] ∧
       ∀ tr ∈ tracks, tr.2.sampleRate = 44100 ∧ tr.2.channelData.length = 1 ∧
         ∀ ch ∈ tr.2.channelData, ch.size = 44100) := by
  have hinf : ∀ off : ℤ, 0 ≤ off → off < ((44100 : ℕ) : ℤ) →
      ∃ o, applyInference (htdemucsModel f)
        ⟨⟨c0.data, [1, 1, 44100]⟩, off, min (((44100 : ℕ) : ℤ) - off) 343980⟩ = .ok o := by
    intro off h0 hlt
    obtain ⟨o, ho, _⟩ := applyInference_concrete f hfw
      ⟨⟨c0.data, [1, 1, 44100]⟩, off, min (((44100 : ℕ) : ℤ) - off) 343980⟩ rfl
      (le_min (by omega) (by omega)) (min_le_right _ _)
    exact ⟨o, ho⟩
  have happ : applySplitsState (htdemucsModel f) ⟨c0.data, [1, 1, 44100]⟩ (1 / 4) =
      applySplitsLoop (htdemucsModel f) ⟨c0.data, [1, 1, 44100]⟩ 1 4 1 44100 343980
        257985 (splitWeight ((343980 : ℤ)).toNat) 1 44100 0 0
        ⟨zeros, zeros, [(0, 1)], []⟩ := by
    unfold applySplitsState
    dsimp only
    rw [show ((⟨c0.data, [1, 1, 44100]⟩ : Tensor)).shape.getD 0 0 = 1 from rfl,
        show ((⟨c0.data, [1, 1, 44100]⟩ : Tensor)).shape.getD 1 0 = 1 from rfl,
        show ((⟨c0.data, [1, 1, 44100]⟩ : Tensor)).shape.getD 2 0 = 44100 from rfl,
        htdemucs_floorB, htdemucs_stride, htdemucs_total]
    rfl
  obtain ⟨st, hst⟩ := applySplitsLoop_succeeds (htdemucsModel f)
    ⟨c0.data, [1, 1, 44100]⟩ 1 4 1 44100 343980 257985
    (splitWeight ((343980 : ℤ)).toNat) 1 rfl (by norm_num) hinf
    44100 0 0 ⟨zeros, zeros, [(0, 1)], []⟩ (le_refl 0) (by norm_num)
  obtain ⟨n, htr, hof, hbnd, hge2⟩ := applySplitsLoop_trace (htdemucsModel f)
    ⟨c0.data, [1, 1, 44100]⟩ 1 4 1 44100 343980 257985
    (splitWeight ((343980 : ℤ)).toNat) 1 44100 0 0 _ st hst
  have hn : n = 1 := by
    have hn1 : 1 ≤ n := by
      rcases Nat.eq_zero_or_pos n with h | h
      · subst h
        simp only [Nat.cast_zero, zero_mul, add_zero] at hge2
        omega
      · exact h
    have hn2 : n < 2 := by
      by_contra hcon
      push_neg at hcon
      have hb := hbnd 1 (by omega)
      norm_num at hb
    omega
  subst hn
  dsimp only at htr hof
  constructor
  · refine ⟨st, by rw [happ]; exact hst, ?_, ?_⟩
    · rw [htr]
      rfl
    · rw [hof]
      rfl
  · unfold separateTracks
    rw [hch]
    dsimp only
    rw [hsz]
    rw [show planarize [c0] = c0.data from rfl]
    unfold applyModel applySplits
    rw [show ([c0] : List F32).length = 1 from rfl]
    rw [happ, hst, exBind_ok]
    dsimp only
    refine ⟨_, rfl, ?_, ?_⟩
    · rfl
    · intro tr htr2
      simp only [List.mem_map] at htr2
      obtain ⟨s, hs, rfl⟩ := htr2
      refine ⟨hsr, rfl, ?_⟩
      intro ch hch2
      simp only [List.mem_map] at hch2
      obtain ⟨cc, hcc, rfl⟩ := hch2
      rfl

/-- A stub htdemucs forward pass producing all-zero tensors with the
network's output shapes. -/
noncomputable def oracleForward : Tensor → Tensor → Tensor × Tensor :=
  fun _ _ => (⟨zeros, [1, 4, 2, 2048, 336]⟩, ⟨zeros, [1, 4, 1, 343980]⟩)

/-- A mono 44100-sample raw audio input at 44100 Hz. -/
noncomputable def monoAudio : RawAudio := ⟨[⟨zeros, 44100⟩], 44100⟩

/-- C5 witness: the concrete-scenario theorem instantiated at the stub
forward pass and the mono 44100-sample input. -/
theorem separateTracks_concrete_witness :
    monoAudio.channelData = [⟨zeros, 44100⟩] ∧
    (⟨zeros, 44100⟩ : F32).size = 44100 ∧ monoAudio.sampleRate = 44100 ∧
    ((∃ st, applySplitsState (htdemucsModel oracleForward)
        ⟨(⟨zeros, 44100⟩ : F32).data, [1, 1, 44100]⟩ (1 / 4) = .ok st ∧
        st.trace = [(0, 1), (1, 1)] ∧ st.offsets = [0]) ∧
     (∃ tracks, separateTracks (htdemucsModel oracleForward) monoAudio (1 / 4) =
          .ok tracks ∧
        tracks.map Prod.fst = ["drums", "bass", "other", "vocals"] ∧
        ∀ tr ∈ tracks, tr.2.sampleRate = 44100 ∧ tr.2.channelData.length = 1 ∧
          ∀ ch ∈ tr.2.channelData, ch.size = 44100)) :=
  ⟨rfl, rfl, rfl, separateTracks_concrete oracleForward (fun _ _ => ⟨rfl, rfl⟩)
    monoAudio ⟨zeros, 44100⟩ rfl rfl rfl⟩

/-!
### C2: the FFT/IFFT round trip.

Plan: identify the Gold-Rader counter with the bit-reversal permutation
`rev`, characterise the butterfly stages as the decimation-in-time
recurrence over the complexified arrays, conclude that fft computes the
DFT with root `exp(-2*pi*I/n)`, and invert it with the geometric-sum
orthogonality relation.
-/

/-- Bit reversal of the lowest `m` bits (LSB recursion). -/
def rev : ℕ → ℕ → ℕ
  | 0, _ => 0
  | m + 1, i => i % 2 * 2 ^ m + rev m (i / 2)

theorem rev_lt (m : ℕ) : ∀ i, rev m i < 2 ^ m := by
  induction m with
  | zero =>
    intro i
    rw [rev]
    norm_num
  | succ m ih =>
    intro i
    rw [rev]
    have h1 := ih (i / 2)
    have h2 : i % 2 < 2 := Nat.mod_lt _ (by norm_num)
    have h3 : (2 : ℕ) ^ (m + 1) = 2 ^ m + 2 ^ m := by
      rw [pow_succ]
      ring
    rcases Nat.mod_two_eq_zero_or_one i with h | h <;> rw [h] <;> omega

/-- MSB form of the bit reversal. -/
theorem rev_msb (m : ℕ) : ∀ i, i < 2 ^ (m + 1) →
    rev (m + 1) i = rev m (i % 2 ^ m) * 2 + i / 2 ^ m := by
  induction m with
  | zero =>
    intro i hi
    rw [rev, rev, rev]
    norm_num
    omega
  | succ m ih =>
    intro i hi
    rw [rev, ih (i / 2) (by rw [pow_succ] at hi; omega), rev]
    have e1 : i % 2 ^ (m + 1) % 2 = i % 2 := by
      have : (2 : ℕ) ∣ 2 ^ (m + 1) := dvd_pow_self 2 (by omega)
      exact Nat.mod_mod_of_dvd i this
    have e2 : i % 2 ^ (m + 1) / 2 = i / 2 % 2 ^ m := by
      rw [show (2 : ℕ) ^ (m + 1) = 2 * 2 ^ m from by rw [pow_succ]; ring]
      rw [Nat.mod_mul_right_div_self]
    have e3 : i / 2 / 2 ^ m = i / 2 ^ (m + 1) := by
      rw [Nat.div_div_eq_div_mul]
      congr 1
      rw [pow_succ]
      ring
    rw [e1, e2, e3]
    ring

theorem rev_rev (m : ℕ) : ∀ i, i < 2 ^ m → rev m (rev m i) = i := by
  induction m with
  | zero =>
    intro i hi
    rw [rev]
    omega
  | succ m ih =>
    intro i hi
    rw [show rev (m + 1) i = i % 2 * 2 ^ m + rev m (i / 2) from by rw [rev]]
    rw [rev_msb m _ (by
      have h1 := rev_lt m (i / 2)
      have h2 : i % 2 < 2 := Nat.mod_lt _ (by norm_num)
      have h3 : (2 : ℕ) ^ (m + 1) = 2 ^ m + 2 ^ m := by rw [pow_succ]; ring
      rcases Nat.mod_two_eq_zero_or_one i with h | h <;> rw [h] <;> omega)]
    have h1 := rev_lt m (i / 2)
    rw [encdec_mod (i % 2) (rev m (i / 2)) (2 ^ m) h1,
        encdec_div (i % 2) (rev m (i / 2)) (2 ^ m) h1]
    rw [ih (i / 2) (by
      have h3 : (2 : ℕ) ^ (m + 1) = 2 ^ m + 2 ^ m := by rw [pow_succ]; ring
      omega)]
    omega

theorem grStep_gt (j k : ℕ) (hk : k ≠ 0) (h : ¬ k ≤ j) : grStep j k = j + k := by
  rw [grStep]
  rw [dif_neg hk, if_neg h]

theorem grStep_le (j k : ℕ) (hk : k ≠ 0) (h : k ≤ j) :
    grStep j k = grStep (j - k) (k / 2) := by
  conv_lhs => rw [grStep]
  rw [dif_neg hk, if_pos h]

/-- The Gold-Rader inner loop is exactly the successor on bit-reversed
counters: from `rev (m+1) i` with initial mask `2^m` it steps to
`rev (m+1) (i+1)`. -/
theorem grStep_rev : ∀ (m i : ℕ), i + 1 < 2 ^ (m + 1) →
    grStep (rev (m + 1) i) (2 ^ m) = rev (m + 1) (i + 1) := by
  intro m
  induction m with
  | zero =>
    intro i h
    have hi : i = 0 := by omega
    subst hi
    rw [show rev 1 0 = 0 from by rw [rev, rev]; norm_num,
        show rev 1 1 = 1 from by rw [rev, rev]; norm_num,
        show (2 : ℕ) ^ 0 = 1 from rfl]
    rw [grStep_gt 0 1 (by omega) (by omega)]
  | succ m ih =>
    intro i h
    have hpow : (0 : ℕ) < 2 ^ (m + 1) := Nat.pos_pow_of_pos _ (by norm_num)
    have hrlt := rev_lt (m + 1) (i / 2)
    rcases Nat.mod_two_eq_zero_or_one i with he | ho
    · have hrev : rev (m + 2) i = rev (m + 1) (i / 2) := by
        rw [rev, he, zero_mul, zero_add]
      have hrev1 : rev (m + 2) (i + 1) = 2 ^ (m + 1) + rev (m + 1) (i / 2) := by
        rw [rev, show (i + 1) % 2 = 1 from by omega, one_mul,
            show (i + 1) / 2 = i / 2 from by omega]
      rw [hrev, hrev1, grStep_gt _ _ (by omega) (by omega)]
      omega
    · have hrev : rev (m + 2) i = 2 ^ (m + 1) + rev (m + 1) (i / 2) := by
        rw [rev, ho, one_mul]
      have hrev1 : rev (m + 2) (i + 1) = rev (m + 1) (i / 2 + 1) := by
        rw [rev, show (i + 1) % 2 = 0 from by omega, zero_mul, zero_add,
            show (i + 1) / 2 = i / 2 + 1 from by omega]
      rw [hrev, hrev1, grStep_le _ _ (by omega) (by omega)]
      rw [show 2 ^ (m + 1) + rev (m + 1) (i / 2) - 2 ^ (m + 1) = rev (m + 1) (i / 2)
        from by omega]
      rw [show (2 : ℕ) ^ (m + 1) / 2 = 2 ^ m from by
        rw [pow_succ, Nat.mul_div_cancel _ (by norm_num)]]
      refine ih (i / 2) ?_
      rw [pow_succ] at h
      omega

theorem rev_zero (m : ℕ) : rev m 0 = 0 := by
  induction m with
  | zero => rw [rev]
  | succ m ih =>
    rw [rev]
    simp [ih]

theorem rev_all_ones (m : ℕ) : rev m (2 ^ m - 1) = 2 ^ m - 1 := by
  induction m with
  | zero =>
    rw [rev]
    norm_num
  | succ m ih =>
    have hp : (2 : ℕ) ^ (m + 1) = 2 ^ m + 2 ^ m := by rw [pow_succ]; ring
    have hpos : (0 : ℕ) < 2 ^ m := Nat.pos_pow_of_pos _ (by norm_num)
    rw [rev, show (2 ^ (m + 1) - 1) % 2 = 1 from by omega,
        show (2 ^ (m + 1) - 1) / 2 = 2 ^ m - 1 from by omega, ih]
    omega

/-- The prefix of the bit-reversal loop: state after `i` iterations. -/
def brFold (n : ℕ) (re im : ℕ → ℝ) (i : ℕ) : ((ℕ → ℝ) × (ℕ → ℝ)) × ℕ :=
  (List.range i).foldl
    (fun (s : ((ℕ → ℝ) × (ℕ → ℝ)) × ℕ) i =>
      let p := if i < s.2 then (swap2 s.1.1 i s.2, swap2 s.1.2 i s.2) else s.1
      (p, grStep s.2 (n / 2)))
    ((re, im), 0)

theorem bitrevPass_eq_brFold (n : ℕ) (re im : ℕ → ℝ) :
    bitrevPass n re im = (brFold n re im (n - 1)).1 := rfl

theorem brFold_succ (n : ℕ) (re im : ℕ → ℝ) (i : ℕ) :
    brFold n re im (i + 1) =
      ((if i < (brFold n re im i).2 then
          (swap2 (brFold n re im i).1.1 i (brFold n re im i).2,
           swap2 (brFold n re im i).1.2 i (brFold n re im i).2)
        else (brFold n re im i).1),
       grStep (brFold n re im i).2 (n / 2)) := by
  rw [brFold, List.range_succ, List.foldl_append, List.foldl_cons, List.foldl_nil]
  rfl

theorem brFold_invariant (m : ℕ) (re im : ℕ → ℝ) :
    ∀ i, i ≤ 2 ^ (m + 1) - 1 →
      (brFold (2 ^ (m + 1)) re im i).2 = rev (m + 1) i ∧
      ∀ t,
        (brFold (2 ^ (m + 1)) re im i).1.1 t =
          re (if t < 2 ^ (m + 1) ∧ min t (rev (m + 1) t) < i then rev (m + 1) t
              else t) ∧
        (brFold (2 ^ (m + 1)) re im i).1.2 t =
          im (if t < 2 ^ (m + 1) ∧ min t (rev (m + 1) t) < i then rev (m + 1) t
              else t) := by
  intro i
  induction i with
  | zero =>
    intro _
    refine ⟨by rw [brFold, List.range_zero, List.foldl_nil, rev_zero], fun t => ?_⟩
    rw [brFold, List.range_zero, List.foldl_nil]
    constructor <;> · dsimp only; rw [if_neg (by omega)]
  | succ i ih =>
    intro hle
    have hi : i ≤ 2 ^ (m + 1) - 1 := by omega
    obtain ⟨hj, harr⟩ := ih hi
    have hpos : (0 : ℕ) < 2 ^ (m + 1) := Nat.pos_pow_of_pos _ (by norm_num)
    have hRi := rev_lt (m + 1) i
    have hRR := rev_rev (m + 1) i (by omega)
    have hjstep : grStep (brFold (2 ^ (m + 1)) re im i).2 (2 ^ (m + 1) / 2) =
        rev (m + 1) (i + 1) := by
      rw [hj, show (2 : ℕ) ^ (m + 1) / 2 = 2 ^ m from by
        rw [pow_succ, Nat.mul_div_cancel _ (by norm_num)]]
      exact grStep_rev m i (by omega)
    rw [brFold_succ]
    refine ⟨hjstep, fun t => ?_⟩
    rw [hj]
    by_cases hswap : i < rev (m + 1) i
    · rw [if_pos hswap]
      dsimp only
      by_cases htn : t < 2 ^ (m + 1)
      · by_cases hti : t = i
        · subst hti
          rw [swap2, swap2, if_pos rfl, if_pos rfl]
          have h1 := (harr (rev (m + 1) t)).1
          have h2 := (harr (rev (m + 1) t)).2
          have hcond : ¬(rev (m + 1) t < 2 ^ (m + 1) ∧
              min (rev (m + 1) t) (rev (m + 1) (rev (m + 1) t)) < t) := by
            rw [hRR, min_eq_right (le_of_lt hswap)]
            omega
          rw [if_neg hcond] at h1 h2
          rw [h1, h2,
            if_pos ⟨htn, by rw [min_eq_left (le_of_lt hswap)]; omega⟩]
          exact ⟨rfl, rfl⟩
        · by_cases htr : t = rev (m + 1) i
          · subst htr
            rw [swap2, swap2, if_neg hti, if_pos rfl, if_neg hti, if_pos rfl]
            have h1 := (harr i).1
            have h2 := (harr i).2
            have hcnd : ¬(i < 2 ^ (m + 1) ∧ min i (rev (m + 1) i) < i) := by
              rw [min_eq_left (le_of_lt hswap)]
              omega
            rw [if_neg hcnd] at h1 h2
            rw [h1, h2]
            have hcnd2 : rev (m + 1) i < 2 ^ (m + 1) ∧
                min (rev (m + 1) i) (rev (m + 1) (rev (m + 1) i)) < i + 1 := by
              refine ⟨hRi, ?_⟩
              rw [hRR]
              exact lt_of_le_of_lt (min_le_right _ _) (by omega)
            rw [if_pos hcnd2, hRR]
            exact ⟨rfl, rfl⟩
          · rw [swap2, swap2, if_neg hti, if_neg htr, if_neg hti, if_neg htr]
            have h1 := (harr t).1
            have h2 := (harr t).2
            have hne : min t (rev (m + 1) t) ≠ i := by
              rcases min_choice t (rev (m + 1) t) with hc | hc <;> rw [hc]
              · omega
              · intro hri
                exact htr (by rw [← hri, rev_rev (m + 1) t htn])
            rw [h1, h2]
            by_cases hmin : min t (rev (m + 1) t) < i
            · rw [if_pos ⟨htn, hmin⟩, if_pos ⟨htn, by omega⟩]
              exact ⟨rfl, rfl⟩
            · rw [if_neg (by omega), if_neg (by omega)]
              exact ⟨rfl, rfl⟩
      · have hine : t ≠ i := by omega
        have hrne : t ≠ rev (m + 1) i := by omega
        rw [swap2, swap2, if_neg hine, if_neg hrne, if_neg hine, if_neg hrne]
        have h1 := (harr t).1
        have h2 := (harr t).2
        rw [if_neg (by omega)] at h1 h2
        rw [h1, h2, if_neg (by omega)]
        exact ⟨rfl, rfl⟩
    · rw [if_neg hswap]
      have hsig : ∀ u,
          (if u < 2 ^ (m + 1) ∧ min u (rev (m + 1) u) < i then rev (m + 1) u
           else u) =
          (if u < 2 ^ (m + 1) ∧ min u (rev (m + 1) u) < i + 1 then rev (m + 1) u
           else u) := by
        intro u
        by_cases hun : u < 2 ^ (m + 1)
        · by_cases hmin : min u (rev (m + 1) u) < i
          · rw [if_pos ⟨hun, hmin⟩, if_pos ⟨hun, by omega⟩]
          · by_cases hmine : min u (rev (m + 1) u) = i
            · have h1 := min_le_left u (rev (m + 1) u)
              have h2 := min_le_right u (rev (m + 1) u)
              rw [hmine] at h1 h2
              have hru : rev (m + 1) u = u := by
                rcases min_choice u (rev (m + 1) u) with hc | hc <;>
                  rw [hmine] at hc
                · have hswap2 := not_lt.mp hswap
                  subst hc
                  omega
                · have hri : rev (m + 1) i = u := by
                    rw [hc, rev_rev (m + 1) u hun]
                  have hswap2 := not_lt.mp hswap
                  omega
              rw [if_neg (by omega), if_pos ⟨hun, by omega⟩, hru]
            · rw [if_neg (by omega), if_neg (by omega)]
        · rw [if_neg (by omega), if_neg (by omega)]
      rw [(harr t).1, (harr t).2, hsig t]
      exact ⟨rfl, rfl⟩

/-- The bit-reversal pass on a power-of-two length permutes both buffers
by `rev m` at every in-range index. -/
theorem bitrevPass_pow (m : ℕ) (re im : ℕ → ℝ) (t : ℕ) (ht : t < 2 ^ m) :
    (bitrevPass (2 ^ m) re im).1 t = re (rev m t) ∧
    (bitrevPass (2 ^ m) re im).2 t = im (rev m t) := by
  cases m with
  | zero =>
    have ht0 : t = 0 := by omega
    subst ht0
    rw [rev]
    exact ⟨rfl, rfl⟩
  | succ m =>
    obtain ⟨-, harr⟩ := brFold_invariant m re im (2 ^ (m + 1) - 1) (le_refl _)
    rw [bitrevPass_eq_brFold]
    obtain ⟨h1, h2⟩ := harr t
    by_cases hmin : min t (rev (m + 1) t) < 2 ^ (m + 1) - 1
    · rw [h1, h2, if_pos ⟨ht, hmin⟩]
      exact ⟨rfl, rfl⟩
    · have hl := min_le_left t (rev (m + 1) t)
      have hteq : t = 2 ^ (m + 1) - 1 := by omega
      subst hteq
      rw [h1, h2, if_neg (by omega), rev_all_ones]
      exact ⟨rfl, rfl⟩

/-!
### Complex-number view of the butterfly passes
-/

/-- The complex value held at slot `t` of a (real, imag) buffer pair. -/
def cval (st : (ℕ → ℝ) × (ℕ → ℝ)) (t : ℕ) : ℂ := ⟨st.1 t, st.2 t⟩

theorem cval_re (st : (ℕ → ℝ) × (ℕ → ℝ)) (t : ℕ) : (cval st t).re = st.1 t := rfl

theorem cval_im (st : (ℕ → ℝ) × (ℕ → ℝ)) (t : ℕ) : (cval st t).im = st.2 t := rfl

/-- The unit-circle point at angle `θ`. -/
noncomputable def wexp (θ : ℝ) : ℂ := Complex.exp ((θ : ℂ) * Complex.I)

theorem wexp_re (θ : ℝ) : (wexp θ).re = Real.cos θ := Complex.exp_ofReal_mul_I_re θ

theorem wexp_im (θ : ℝ) : (wexp θ).im = Real.sin θ := Complex.exp_ofReal_mul_I_im θ

theorem wexp_pow (θ : ℝ) (k : ℕ) : wexp θ ^ k = wexp (k * θ) := by
  rw [wexp, wexp, ← Complex.exp_nat_mul]
  push_cast
  ring_nf

theorem wexp_add (a b : ℝ) : wexp (a + b) = wexp a * wexp b := by
  rw [wexp, wexp, wexp, ← Complex.exp_add]
  push_cast
  ring_nf

theorem wexp_zero : wexp 0 = 1 := by
  rw [wexp]
  push_cast
  rw [zero_mul, Complex.exp_zero]

theorem wexp_conj (θ : ℝ) : (starRingEnd ℂ) (wexp θ) = wexp (-θ) := by
  rw [wexp, wexp, ← Complex.exp_conj]
  congr 1
  push_cast
  rw [map_mul, Complex.conj_ofReal, Complex.conj_I]
  ring

theorem wexp_neg_pi : wexp (-Real.pi) = -1 := by
  apply Complex.ext
  · rw [wexp_re, Real.cos_neg, Real.cos_pi]
    simp
  · rw [wexp_im, Real.sin_neg, Real.sin_pi]
    simp

theorem wexp_neg_two_pi : wexp (-(2 * Real.pi)) = 1 := by
  apply Complex.ext
  · rw [wexp_re, Real.cos_neg, Real.cos_two_pi]
    simp
  · rw [wexp_im, Real.sin_neg, Real.sin_two_pi]
    simp

theorem sum_range_even_odd (f : ℕ → ℂ) (k : ℕ) :
    ∑ v ∈ Finset.range (2 * k), f v =
      ∑ u ∈ Finset.range k, f (2 * u) + ∑ u ∈ Finset.range k, f (2 * u + 1) := by
  induction k with
  | zero => simp
  | succ k ih =>
    have h2 : 2 * (k + 1) = 2 * k + 1 + 1 := by ring
    rw [h2, Finset.sum_range_succ, Finset.sum_range_succ, ih,
        Finset.sum_range_succ, Finset.sum_range_succ]
    abel

/-- Prefix of the inner butterfly loop: state after `p` of the `halfLen`
iterations. -/
noncomputable def bfFold (cosA sinA : ℝ) (halfLen i : ℕ)
    (st : (ℕ → ℝ) × (ℕ → ℝ)) (p : ℕ) : ((ℕ → ℝ) × (ℕ → ℝ)) × ℝ × ℝ :=
  (List.range p).foldl
    (fun (s : ((ℕ → ℝ) × (ℕ → ℝ)) × ℝ × ℝ) j =>
      let re := s.1.1
      let im := s.1.2
      let wr := s.2.1
      let wi := s.2.2
      let k := i + j
      let l := k + halfLen
      let tr := wr * re l - wi * im l
      let ti := wr * im l + wi * re l
      let re1 := upd (upd re l (re k - tr)) k (re k + tr)
      let im1 := upd (upd im l (im k - ti)) k (im k + ti)
      ((re1, im1), (wr * cosA - wi * sinA, wr * sinA + wi * cosA)))
    (st, 1, 0)

theorem butterflyInner_eq_bfFold (cosA sinA : ℝ) (halfLen i : ℕ)
    (st : (ℕ → ℝ) × (ℕ → ℝ)) :
    butterflyInner cosA sinA halfLen i st =
      (bfFold cosA sinA halfLen i st halfLen).1 := rfl

theorem bfFold_succ (cosA sinA : ℝ) (halfLen i : ℕ)
    (st : (ℕ → ℝ) × (ℕ → ℝ)) (p : ℕ) :
    bfFold cosA sinA halfLen i st (p + 1) =
      ((upd (upd (bfFold cosA sinA halfLen i st p).1.1 (i + p + halfLen)
              ((bfFold cosA sinA halfLen i st p).1.1 (i + p) -
                ((bfFold cosA sinA halfLen i st p).2.1 *
                   (bfFold cosA sinA halfLen i st p).1.1 (i + p + halfLen) -
                 (bfFold cosA sinA halfLen i st p).2.2 *
                   (bfFold cosA sinA halfLen i st p).1.2 (i + p + halfLen))))
            (i + p)
            ((bfFold cosA sinA halfLen i st p).1.1 (i + p) +
              ((bfFold cosA sinA halfLen i st p).2.1 *
                 (bfFold cosA sinA halfLen i st p).1.1 (i + p + halfLen) -
               (bfFold cosA sinA halfLen i st p).2.2 *
                 (bfFold cosA sinA halfLen i st p).1.2 (i + p + halfLen))),
        upd (upd (bfFold cosA sinA halfLen i st p).1.2 (i + p + halfLen)
              ((bfFold cosA sinA halfLen i st p).1.2 (i + p) -
                ((bfFold cosA sinA halfLen i st p).2.1 *
                   (bfFold cosA sinA halfLen i st p).1.2 (i + p + halfLen) +
                 (bfFold cosA sinA halfLen i st p).2.2 *
                   (bfFold cosA sinA halfLen i st p).1.1 (i + p + halfLen))))
            (i + p)
            ((bfFold cosA sinA halfLen i st p).1.2 (i + p) +
              ((bfFold cosA sinA halfLen i st p).2.1 *
                 (bfFold cosA sinA halfLen i st p).1.2 (i + p + halfLen) +
               (bfFold cosA sinA halfLen i st p).2.2 *
                 (bfFold cosA sinA halfLen i st p).1.1 (i + p + halfLen)))),
       ((bfFold cosA sinA halfLen i st p).2.1 * cosA -
          (bfFold cosA sinA halfLen i st p).2.2 * sinA,
        (bfFold cosA sinA halfLen i st p).2.1 * sinA +
          (bfFold cosA sinA halfLen i st p).2.2 * cosA)) := by
  rw [bfFold, List.range_succ, List.foldl_append, List.foldl_cons, List.foldl_nil]
  rfl

/-- One butterfly write, viewed on the complex values: the pair of
buffer updates at `k` and `l` is `c k ± w * c l`. -/
theorem butterfly_write_cval (q : (ℕ → ℝ) × (ℕ → ℝ)) (k l : ℕ) (hkl : k ≠ l)
    (wr wi : ℝ) (t : ℕ) :
    cval (upd (upd q.1 l (q.1 k - (wr * q.1 l - wi * q.2 l))) k
            (q.1 k + (wr * q.1 l - wi * q.2 l)),
          upd (upd q.2 l (q.2 k - (wr * q.2 l + wi * q.1 l))) k
            (q.2 k + (wr * q.2 l + wi * q.1 l))) t =
      (if t = k then cval q k + (⟨wr, wi⟩ : ℂ) * cval q l
       else if t = l then cval q k - (⟨wr, wi⟩ : ℂ) * cval q l
       else cval q t) := by
  have hre : ((⟨wr, wi⟩ : ℂ) * cval q l).re = wr * q.1 l - wi * q.2 l := by
    rw [Complex.mul_re, cval_re, cval_im]
  have him : ((⟨wr, wi⟩ : ℂ) * cval q l).im = wr * q.2 l + wi * q.1 l := by
    rw [Complex.mul_im, cval_re, cval_im]
  by_cases htk : t = k
  · subst htk
    rw [if_pos rfl]
    apply Complex.ext
    · rw [cval_re, Complex.add_re, cval_re, hre]
      dsimp only
      rw [upd_same]
    · rw [cval_im, Complex.add_im, cval_im, him]
      dsimp only
      rw [upd_same]
  · by_cases htl : t = l
    · subst htl
      rw [if_neg htk, if_pos rfl]
      apply Complex.ext
      · rw [cval_re, Complex.sub_re, cval_re, hre]
        dsimp only
        rw [upd_other _ _ _ _ htk, upd_same]
      · rw [cval_im, Complex.sub_im, cval_im, him]
        dsimp only
        rw [upd_other _ _ _ _ htk, upd_same]
    · rw [if_neg htk, if_neg htl]
      apply Complex.ext
      · rw [cval_re, cval_re]
        dsimp only
        rw [upd_other _ _ _ _ htk, upd_other _ _ _ _ htl]
      · rw [cval_im, cval_im]
        dsimp only
        rw [upd_other _ _ _ _ htk, upd_other _ _ _ _ htl]

/-- Invariant of the inner butterfly loop: after `p ≤ halfLen` steps the
twiddle is `wexp θ ^ p` and the first `p` butterflies of the block at `i`
have been applied, each one reading only original values. -/
theorem bfFold_invariant (θ : ℝ) (halfLen i : ℕ) (st : (ℕ → ℝ) × (ℕ → ℝ)) :
    ∀ p, p ≤ halfLen →
      (bfFold (Real.cos θ) (Real.sin θ) halfLen i st p).2.1 = (wexp θ ^ p).re ∧
      (bfFold (Real.cos θ) (Real.sin θ) halfLen i st p).2.2 = (wexp θ ^ p).im ∧
      ∀ t, cval (bfFold (Real.cos θ) (Real.sin θ) halfLen i st p).1 t =
        (if i ≤ t ∧ t < i + p then
          cval st t + wexp θ ^ (t - i) * cval st (t + halfLen)
        else if i + halfLen ≤ t ∧ t < i + halfLen + p then
          cval st (t - halfLen) - wexp θ ^ (t - (i + halfLen)) * cval st t
        else cval st t) := by
  intro p
  induction p with
  | zero =>
    intro _
    rw [bfFold, List.range_zero, List.foldl_nil]
    refine ⟨by rw [pow_zero, Complex.one_re], by rw [pow_zero, Complex.one_im],
      fun t => ?_⟩
    rw [if_neg (by omega), if_neg (by omega)]
  | succ p ih =>
    intro hp1
    have hp : p ≤ halfLen := by omega
    have hplt : p < halfLen := by omega
    obtain ⟨hwr, hwi, hvals⟩ := ih hp
    rw [bfFold_succ]
    set S := bfFold (Real.cos θ) (Real.sin θ) halfLen i st p with hS
    have hk := hvals (i + p)
    have hl := hvals (i + p + halfLen)
    rw [if_neg (by omega), if_neg (by omega)] at hk
    rw [if_neg (by omega), if_neg (by omega)] at hl
    have hw : (⟨S.2.1, S.2.2⟩ : ℂ) = wexp θ ^ p := Complex.ext hwr hwi
    refine ⟨?_, ?_, ?_⟩
    · rw [pow_succ, Complex.mul_re, wexp_re, wexp_im, hwr, hwi]
    · rw [pow_succ, Complex.mul_im, wexp_re, wexp_im, hwr, hwi]
    · intro t
      rw [butterfly_write_cval S.1 (i + p) (i + p + halfLen) (by omega)
            S.2.1 S.2.2 t]
      by_cases htk : t = i + p
      · subst htk
        rw [if_pos rfl, hw, hk, hl, if_pos ⟨by omega, by omega⟩,
          Nat.add_sub_cancel_left]
      · by_cases htl : t = i + p + halfLen
        · subst htl
          rw [if_neg htk, if_pos rfl, hw, hk, hl, if_neg (by omega),
            if_pos ⟨by omega, by omega⟩,
            show i + p + halfLen - (i + halfLen) = p from by omega,
            show i + p + halfLen - halfLen = i + p from by omega]
        · rw [if_neg htk, if_neg htl, hvals t]
          by_cases hc1 : i ≤ t ∧ t < i + p
          · rw [if_pos hc1, if_pos ⟨hc1.1, by omega⟩]
          · by_cases hc2 : i + halfLen ≤ t ∧ t < i + halfLen + p
            · rw [if_neg hc1, if_pos hc2, if_neg (by omega),
                if_pos ⟨hc2.1, by omega⟩]
            · rw [if_neg hc1, if_neg hc2, if_neg (by omega), if_neg (by omega)]

/-- The whole inner butterfly loop, pointwise on the complex values. -/
theorem butterflyInner_spec (θ : ℝ) (halfLen i : ℕ)
    (st : (ℕ → ℝ) × (ℕ → ℝ)) (t : ℕ) :
    cval (butterflyInner (Real.cos θ) (Real.sin θ) halfLen i st) t =
      (if i ≤ t ∧ t < i + halfLen then
        cval st t + wexp θ ^ (t - i) * cval st (t + halfLen)
      else if i + halfLen ≤ t ∧ t < i + halfLen + halfLen then
        cval st (t - halfLen) - wexp θ ^ (t - (i + halfLen)) * cval st t
      else cval st t) := by
  rw [butterflyInner_eq_bfFold]
  exact (bfFold_invariant θ halfLen i st halfLen (le_refl _)).2.2 t

theorem mod_of_block (len q t : ℕ) (h1 : q * len ≤ t) (h2 : t < q * len + len) :
    t % len = t - q * len := by
  conv_lhs => rw [show t = t - q * len + q * len from by omega]
  rw [Nat.add_mul_mod_self_right, Nat.mod_eq_of_lt (by omega)]

/-- Prefix of the block loop of one stage: state after `q` blocks. -/
noncomputable def spFold (n len : ℕ) (st : (ℕ → ℝ) × (ℕ → ℝ)) (q : ℕ) :
    (ℕ → ℝ) × (ℕ → ℝ) :=
  (List.range q).foldl
    (fun s bi =>
      butterflyInner (Real.cos (-2 * Real.pi / (len : ℝ)))
        (Real.sin (-2 * Real.pi / (len : ℝ))) (len / 2) (bi * len) s) st

theorem stagePass_eq_spFold (n len : ℕ) (st : (ℕ → ℝ) × (ℕ → ℝ)) :
    stagePass n len st = spFold n len st ((n + len - 1) / len) := rfl

theorem spFold_succ (n len : ℕ) (st : (ℕ → ℝ) × (ℕ → ℝ)) (q : ℕ) :
    spFold n len st (q + 1) =
      butterflyInner (Real.cos (-2 * Real.pi / (len : ℝ)))
        (Real.sin (-2 * Real.pi / (len : ℝ))) (len / 2) (q * len)
        (spFold n len st q) := by
  rw [spFold, List.range_succ, List.foldl_append, List.foldl_cons, List.foldl_nil]
  rfl

/-- Invariant of the block loop: after `q` blocks, every index below
`q * len` holds its butterfly combination and everything else is
untouched (`len = 2 * half`). -/
theorem spFold_invariant (n half : ℕ) (hh : 0 < half)
    (st : (ℕ → ℝ) × (ℕ → ℝ)) :
    ∀ q t, cval (spFold n (2 * half) st q) t =
      (if t < q * (2 * half) then
        (if t % (2 * half) < half then
          cval st t +
            wexp (-2 * Real.pi / ((2 * half : ℕ) : ℝ)) ^ (t % (2 * half)) *
              cval st (t + half)
        else
          cval st (t - half) -
            wexp (-2 * Real.pi / ((2 * half : ℕ) : ℝ)) ^ (t % (2 * half) - half) *
              cval st t)
      else cval st t) := by
  intro q
  induction q with
  | zero =>
    intro t
    rw [spFold, List.range_zero, List.foldl_nil, if_neg (by omega)]
  | succ q ih =>
    intro t
    have hql : (q + 1) * (2 * half) = q * (2 * half) + 2 * half := by ring
    rw [spFold_succ, show 2 * half / 2 = half from by omega,
        butterflyInner_spec (-2 * Real.pi / ((2 * half : ℕ) : ℝ)) half
          (q * (2 * half)) (spFold n (2 * half) st q) t]
    by_cases hA : q * (2 * half) ≤ t ∧ t < q * (2 * half) + half
    · have hmod : t % (2 * half) = t - q * (2 * half) :=
        mod_of_block (2 * half) q t (by omega) (by omega)
      rw [if_pos hA, ih t, ih (t + half), if_neg (by omega), if_neg (by omega),
        hmod, if_pos (by omega), if_pos (by omega)]
    · by_cases hB : q * (2 * half) + half ≤ t ∧ t < q * (2 * half) + half + half
      · have hmod : t % (2 * half) = t - q * (2 * half) :=
          mod_of_block (2 * half) q t (by omega) (by omega)
        rw [if_neg hA, if_pos hB, ih (t - half), ih t, if_neg (by omega),
          if_neg (by omega), hmod, if_pos (by omega), if_neg (by omega),
          Nat.sub_sub]
      · rw [if_neg hA, if_neg hB, ih t]
        by_cases hin : t < q * (2 * half)
        · rw [if_pos hin, if_pos (show t < (q + 1) * (2 * half) from by omega)]
        · rw [if_neg hin,
            if_neg (show ¬t < (q + 1) * (2 * half) from by omega)]

theorem div_of_block (len q t : ℕ) (h1 : q * len ≤ t) (h2 : t < q * len + len) :
    t / len = q := by
  conv_lhs => rw [show t = t - q * len + q * len from by omega]
  rw [Nat.add_mul_div_right _ _ (show 0 < len from by omega),
    Nat.div_eq_of_lt (by omega), zero_add]

/-- One full stage at `len = 2^(ℓ+1)` inside a length-`2^m` transform:
every in-range index gets its butterfly combination. -/
theorem stagePass_pow_spec (m ℓ : ℕ) (hlm : ℓ + 1 ≤ m)
    (st : (ℕ → ℝ) × (ℕ → ℝ)) (t : ℕ) (ht : t < 2 ^ m) :
    cval (stagePass (2 ^ m) (2 ^ (ℓ + 1)) st) t =
      (if t % 2 ^ (ℓ + 1) < 2 ^ ℓ then
        cval st t +
          wexp (-2 * Real.pi / ((2 ^ (ℓ + 1) : ℕ) : ℝ)) ^ (t % 2 ^ (ℓ + 1)) *
            cval st (t + 2 ^ ℓ)
      else
        cval st (t - 2 ^ ℓ) -
          wexp (-2 * Real.pi / ((2 ^ (ℓ + 1) : ℕ) : ℝ)) ^ (t % 2 ^ (ℓ + 1) - 2 ^ ℓ) *
            cval st t) := by
  have h2 : (2 : ℕ) ^ (ℓ + 1) = 2 * 2 ^ ℓ := by rw [pow_succ]; ring
  have hlen : (0 : ℕ) < 2 ^ (ℓ + 1) := Nat.pos_pow_of_pos _ (by norm_num)
  have hc : 2 ^ (m - (ℓ + 1)) * 2 ^ (ℓ + 1) = 2 ^ m := by
    rw [← pow_add]
    congr 1
    omega
  have hnum : 2 ^ m + 2 ^ (ℓ + 1) - 1 =
      (2 ^ (ℓ + 1) - 1) + 2 ^ (ℓ + 1) * 2 ^ (m - (ℓ + 1)) := by
    have hcomm : 2 ^ (ℓ + 1) * 2 ^ (m - (ℓ + 1)) = 2 ^ (m - (ℓ + 1)) * 2 ^ (ℓ + 1) := by
      ring
    omega
  rw [stagePass_eq_spFold, hnum, Nat.add_mul_div_left _ _ hlen,
    Nat.div_eq_of_lt (by omega), zero_add, h2,
    spFold_invariant (2 ^ m) (2 ^ ℓ) (Nat.pos_pow_of_pos _ (by norm_num)) st
      (2 ^ (m - (ℓ + 1))) t,
    if_pos (show t < 2 ^ (m - (ℓ + 1)) * (2 * 2 ^ ℓ) from by
      rw [← h2, hc]
      exact ht)]

theorem wexp_pow_self (k : ℕ) (hk : 0 < k) :
    wexp (-2 * Real.pi / (k : ℝ)) ^ k = 1 := by
  rw [wexp_pow,
    show (k : ℝ) * (-2 * Real.pi / (k : ℝ)) = -(2 * Real.pi) from by
      have h0 : (k : ℝ) ≠ 0 := Nat.cast_ne_zero.mpr (by omega)
      field_simp
      ring]
  exact wexp_neg_two_pi

theorem wexp_pow_half (ℓ : ℕ) :
    wexp (-2 * Real.pi / ((2 ^ (ℓ + 1) : ℕ) : ℝ)) ^ 2 ^ ℓ = -1 := by
  rw [wexp_pow,
    show ((2 ^ ℓ : ℕ) : ℝ) * (-2 * Real.pi / ((2 ^ (ℓ + 1) : ℕ) : ℝ)) = -Real.pi
      from by
        have h0 : ((2 : ℝ)) ^ ℓ ≠ 0 := by positivity
        push_cast
        rw [pow_succ]
        field_simp
        ring]
  exact wexp_neg_pi

theorem wexp_two_pow_succ (ℓ : ℕ) :
    wexp (-2 * Real.pi / ((2 ^ (ℓ + 1) : ℕ) : ℝ)) ^ 2 =
      wexp (-2 * Real.pi / ((2 ^ ℓ : ℕ) : ℝ)) := by
  rw [wexp_pow]
  congr 1
  have h1 : ((2 : ℝ)) ^ (ℓ + 1) ≠ 0 := by positivity
  have h2 : ((2 : ℝ)) ^ ℓ ≠ 0 := by positivity
  push_cast
  rw [pow_succ]
  field_simp
  ring

/-- Prefix of the stage loop: state after `q` stages
(`len = 2, 4, ..., 2^q`). -/
noncomputable def stFold (n : ℕ) (st : (ℕ → ℝ) × (ℕ → ℝ)) (q : ℕ) :
    (ℕ → ℝ) × (ℕ → ℝ) :=
  (List.range q).foldl (fun s l => stagePass n (2 ^ (l + 1)) s) st

theorem fftStages_eq_stFold (n : ℕ) (st : (ℕ → ℝ) × (ℕ → ℝ)) :
    fftStages n st = stFold n st (Nat.log2 n) := rfl

theorem stFold_succ (n : ℕ) (st : (ℕ → ℝ) × (ℕ → ℝ)) (q : ℕ) :
    stFold n st (q + 1) = stagePass n (2 ^ (q + 1)) (stFold n st q) := by
  rw [stFold, List.range_succ, List.foldl_append, List.foldl_cons, List.foldl_nil]
  rfl

/-- The decimation-in-time invariant: after `ℓ` stages, each aligned block
of size `2^ℓ` holds the `2^ℓ`-point DFT of its bit-reversed sub-block of
the starting array. -/
theorem stFold_invariant (m : ℕ) (st : (ℕ → ℝ) × (ℕ → ℝ)) :
    ∀ ℓ, ℓ ≤ m → ∀ t, t < 2 ^ m →
      cval (stFold (2 ^ m) st ℓ) t =
        ∑ u ∈ Finset.range (2 ^ ℓ),
          wexp (-2 * Real.pi / ((2 ^ ℓ : ℕ) : ℝ)) ^ (t % 2 ^ ℓ * u) *
            cval st (t / 2 ^ ℓ * 2 ^ ℓ + rev ℓ u) := by
  intro ℓ
  induction ℓ with
  | zero =>
    intro _ t _
    rw [stFold, List.range_zero, List.foldl_nil,
      show (2 : ℕ) ^ 0 = 1 from rfl, Finset.sum_range_one]
    simp [rev]
  | succ ℓ ih =>
    intro hl1 t ht
    have hl : ℓ ≤ m := by omega
    have hpl : (0 : ℕ) < 2 ^ ℓ := Nat.pos_pow_of_pos _ (by norm_num)
    have hp1 : (2 : ℕ) ^ (ℓ + 1) = 2 * 2 ^ ℓ := by rw [pow_succ]; ring
    have hps : (0 : ℕ) < 2 ^ (ℓ + 1) := Nat.pos_pow_of_pos _ (by norm_num)
    obtain ⟨b, s, hs, hts⟩ : ∃ b s, s < 2 ^ (ℓ + 1) ∧ t = b * 2 ^ (ℓ + 1) + s :=
      ⟨t / 2 ^ (ℓ + 1), t % 2 ^ (ℓ + 1), Nat.mod_lt _ hps, by
        rw [Nat.mul_comm (t / 2 ^ (ℓ + 1)) (2 ^ (ℓ + 1))]
        exact (Nat.div_add_mod t (2 ^ (ℓ + 1))).symm⟩
    have hbb : 2 * b * 2 ^ ℓ = b * 2 ^ (ℓ + 1) := by rw [pow_succ]; ring
    have hbb1 : (2 * b + 1) * 2 ^ ℓ = b * 2 ^ (ℓ + 1) + 2 ^ ℓ := by
      rw [pow_succ]; ring
    have hqt : t / 2 ^ (ℓ + 1) = b := div_of_block _ b t (by omega) (by omega)
    have hmt : t % 2 ^ (ℓ + 1) = s := by
      rw [mod_of_block _ b t (by omega) (by omega)]
      omega
    have hnn : 2 ^ (m - (ℓ + 1)) * 2 ^ (ℓ + 1) = 2 ^ m := by
      rw [← pow_add]
      congr 1
      omega
    rw [stFold_succ, stagePass_pow_spec m ℓ hl1 _ t ht]
    by_cases hcase : t % 2 ^ (ℓ + 1) < 2 ^ ℓ
    · rw [if_pos hcase]
      rw [hmt] at hcase
      have hm1 : t % 2 ^ ℓ = s := by
        rw [mod_of_block (2 ^ ℓ) (2 * b) t (by omega) (by omega)]
        omega
      have hd1 : t / 2 ^ ℓ = 2 * b :=
        div_of_block (2 ^ ℓ) (2 * b) t (by omega) (by omega)
      have hm2 : (t + 2 ^ ℓ) % 2 ^ ℓ = s := by
        rw [mod_of_block (2 ^ ℓ) (2 * b + 1) (t + 2 ^ ℓ) (by omega) (by omega)]
        omega
      have hd2 : (t + 2 ^ ℓ) / 2 ^ ℓ = 2 * b + 1 :=
        div_of_block (2 ^ ℓ) (2 * b + 1) (t + 2 ^ ℓ) (by omega) (by omega)
      have ht2 : t + 2 ^ ℓ < 2 ^ m := by
        have hble : b + 1 ≤ 2 ^ (m - (ℓ + 1)) := by
          by_contra hb
          push_neg at hb
          have hmul : 2 ^ (m - (ℓ + 1)) * 2 ^ (ℓ + 1) ≤ b * 2 ^ (ℓ + 1) :=
            Nat.mul_le_mul_right _ (by omega)
          omega
        have hmul2 : (b + 1) * 2 ^ (ℓ + 1) ≤ 2 ^ (m - (ℓ + 1)) * 2 ^ (ℓ + 1) :=
          Nat.mul_le_mul_right _ hble
        have hb1 : (b + 1) * 2 ^ (ℓ + 1) = b * 2 ^ (ℓ + 1) + 2 ^ (ℓ + 1) := by ring
        omega
      rw [ih hl t (by omega), ih hl (t + 2 ^ ℓ) ht2, hm1, hd1, hm2, hd2, hmt, hqt]
      rw [show Finset.range (2 ^ (ℓ + 1)) = Finset.range (2 * 2 ^ ℓ) from by
        rw [hp1], sum_range_even_odd]
      have heven : ∀ u ∈ Finset.range (2 ^ ℓ),
          wexp (-2 * Real.pi / ((2 ^ (ℓ + 1) : ℕ) : ℝ)) ^ (s * (2 * u)) *
            cval st (b * 2 ^ (ℓ + 1) + rev (ℓ + 1) (2 * u)) =
          wexp (-2 * Real.pi / ((2 ^ ℓ : ℕ) : ℝ)) ^ (s * u) *
            cval st (2 * b * 2 ^ ℓ + rev ℓ u) := by
        intro u _
        rw [rev, show 2 * u % 2 = 0 from by omega,
          show 2 * u / 2 = u from by omega, zero_mul, zero_add,
          show s * (2 * u) = 2 * (s * u) from by ring, pow_mul,
          wexp_two_pow_succ, hbb]
      have hodd : ∀ u ∈ Finset.range (2 ^ ℓ),
          wexp (-2 * Real.pi / ((2 ^ (ℓ + 1) : ℕ) : ℝ)) ^ (s * (2 * u + 1)) *
            cval st (b * 2 ^ (ℓ + 1) + rev (ℓ + 1) (2 * u + 1)) =
          wexp (-2 * Real.pi / ((2 ^ (ℓ + 1) : ℕ) : ℝ)) ^ s *
            (wexp (-2 * Real.pi / ((2 ^ ℓ : ℕ) : ℝ)) ^ (s * u) *
              cval st ((2 * b + 1) * 2 ^ ℓ + rev ℓ u)) := by
        intro u _
        rw [rev, show (2 * u + 1) % 2 = 1 from by omega,
          show (2 * u + 1) / 2 = u from by omega, one_mul,
          show s * (2 * u + 1) = 2 * (s * u) + s from by ring, pow_add, pow_mul,
          wexp_two_pow_succ,
          show b * 2 ^ (ℓ + 1) + (2 ^ ℓ + rev ℓ u) =
            (2 * b + 1) * 2 ^ ℓ + rev ℓ u from by rw [pow_succ]; ring]
        ring
      rw [Finset.sum_congr rfl heven, Finset.sum_congr rfl hodd, Finset.mul_sum]
    · rw [if_neg hcase]
      rw [hmt] at hcase
      push_neg at hcase
      have hm1 : (t - 2 ^ ℓ) % 2 ^ ℓ = s - 2 ^ ℓ := by
        rw [mod_of_block (2 ^ ℓ) (2 * b) (t - 2 ^ ℓ) (by omega) (by omega)]
        omega
      have hd1 : (t - 2 ^ ℓ) / 2 ^ ℓ = 2 * b :=
        div_of_block (2 ^ ℓ) (2 * b) (t - 2 ^ ℓ) (by omega) (by omega)
      have hm2 : t % 2 ^ ℓ = s - 2 ^ ℓ := by
        rw [mod_of_block (2 ^ ℓ) (2 * b + 1) t (by omega) (by omega)]
        omega
      have hd2 : t / 2 ^ ℓ = 2 * b + 1 :=
        div_of_block (2 ^ ℓ) (2 * b + 1) t (by omega) (by omega)
      have ht1 : t - 2 ^ ℓ < 2 ^ m := by omega
      rw [ih hl (t - 2 ^ ℓ) ht1, ih hl t ht, hm1, hd1, hm2, hd2, hmt, hqt]
      obtain ⟨s2, rfl⟩ : ∃ s2, s = s2 + 2 ^ ℓ := ⟨s - 2 ^ ℓ, by omega⟩
      rw [Nat.add_sub_cancel]
      have hWu : ∀ u : ℕ,
          wexp (-2 * Real.pi / ((2 ^ (ℓ + 1) : ℕ) : ℝ)) ^ (2 ^ (ℓ + 1) * u) = 1 :=
        fun u => by rw [pow_mul, wexp_pow_self (2 ^ (ℓ + 1)) hps, one_pow]
      rw [show Finset.range (2 ^ (ℓ + 1)) = Finset.range (2 * 2 ^ ℓ) from by
        rw [hp1], sum_range_even_odd]
      have heven : ∀ u ∈ Finset.range (2 ^ ℓ),
          wexp (-2 * Real.pi / ((2 ^ (ℓ + 1) : ℕ) : ℝ)) ^ ((s2 + 2 ^ ℓ) * (2 * u)) *
            cval st (b * 2 ^ (ℓ + 1) + rev (ℓ + 1) (2 * u)) =
          wexp (-2 * Real.pi / ((2 ^ ℓ : ℕ) : ℝ)) ^ (s2 * u) *
            cval st (2 * b * 2 ^ ℓ + rev ℓ u) := by
        intro u _
        rw [rev, show 2 * u % 2 = 0 from by omega,
          show 2 * u / 2 = u from by omega, zero_mul, zero_add,
          show (s2 + 2 ^ ℓ) * (2 * u) = 2 * (s2 * u) + 2 ^ (ℓ + 1) * u from by
            rw [pow_succ]; ring,
          pow_add, pow_mul, wexp_two_pow_succ, hWu u, mul_one, hbb]
      have hodd : ∀ u ∈ Finset.range (2 ^ ℓ),
          wexp (-2 * Real.pi / ((2 ^ (ℓ + 1) : ℕ) : ℝ)) ^
              ((s2 + 2 ^ ℓ) * (2 * u + 1)) *
            cval st (b * 2 ^ (ℓ + 1) + rev (ℓ + 1) (2 * u + 1)) =
          -(wexp (-2 * Real.pi / ((2 ^ (ℓ + 1) : ℕ) : ℝ)) ^ s2 *
            (wexp (-2 * Real.pi / ((2 ^ ℓ : ℕ) : ℝ)) ^ (s2 * u) *
              cval st ((2 * b + 1) * 2 ^ ℓ + rev ℓ u))) := by
        intro u _
        rw [rev, show (2 * u + 1) % 2 = 1 from by omega,
          show (2 * u + 1) / 2 = u from by omega, one_mul,
          show (s2 + 2 ^ ℓ) * (2 * u + 1) =
            2 * (s2 * u) + 2 ^ (ℓ + 1) * u + s2 + 2 ^ ℓ from by rw [pow_succ]; ring,
          pow_add, pow_add, pow_add, pow_mul, wexp_two_pow_succ, hWu u,
          mul_one, wexp_pow_half,
          show b * 2 ^ (ℓ + 1) + (2 ^ ℓ + rev ℓ u) =
            (2 * b + 1) * 2 ^ ℓ + rev ℓ u from by rw [pow_succ]; ring]
        ring
      rw [Finset.sum_congr rfl heven, Finset.sum_congr rfl hodd, Finset.mul_sum,
        Finset.sum_neg_distrib, ← sub_eq_add_neg]

/-- `fft` succeeds on every power-of-two length. -/
theorem fft_pow_ok (m : ℕ) (re : ℕ → ℝ) (imo : Option (ℕ → ℝ)) :
    fft re imo (2 ^ m) =
      .ok (fftStages (2 ^ m) (bitrevPass (2 ^ m) re (imo.getD zeros))) := by
  unfold fft
  rw [if_neg (not_ne_iff.mpr
    ((land_pred_eq_zero_iff (2 ^ m)).mpr (Or.inr ⟨m, rfl⟩)))]

/-- The stage pipeline applied to the bit-reversed input computes the DFT
with kernel `exp(-2*pi*i*s*u/n)` at every in-range index. -/
theorem fft_pow_dft (m : ℕ) (re im : ℕ → ℝ) (s : ℕ) (hs : s < 2 ^ m) :
    cval (fftStages (2 ^ m) (bitrevPass (2 ^ m) re im)) s =
      ∑ u ∈ Finset.range (2 ^ m),
        wexp (-2 * Real.pi / ((2 ^ m : ℕ) : ℝ)) ^ (s * u) * cval (re, im) u := by
  rw [fftStages_eq_stFold, Nat.log2_two_pow,
    stFold_invariant m _ m (le_refl m) s hs, Nat.mod_eq_of_lt hs,
    Nat.div_eq_of_lt hs, Nat.zero_mul]
  apply Finset.sum_congr rfl
  intro u hu
  have hu' : u < 2 ^ m := Finset.mem_range.mp hu
  congr 1
  rw [Nat.zero_add]
  have hb := bitrevPass_pow m re im (rev m u) (rev_lt m u)
  rw [rev_rev m u hu'] at hb
  exact Complex.ext hb.1 hb.2

theorem wexp_int_two_pi (k : ℤ) : wexp ((k : ℝ) * (2 * Real.pi)) = 1 := by
  rw [wexp, show ((((k : ℝ) * (2 * Real.pi) : ℝ)) : ℂ) * Complex.I =
      (k : ℂ) * (2 * Real.pi * Complex.I) from by push_cast; ring]
  exact Complex.exp_int_mul_two_pi_mul_I k

/-- Geometric-sum orthogonality of the DFT kernel. -/
theorem wexp_orthogonality (n : ℕ) (hn : 0 < n) (v s : ℕ) (hv : v < n)
    (hs : s < n) :
    ∑ u ∈ Finset.range n, wexp (((v : ℝ) - s) * (2 * Real.pi / n)) ^ u =
      (if v = s then (n : ℂ) else 0) := by
  have hn0 : (n : ℝ) ≠ 0 := Nat.cast_ne_zero.mpr (by omega)
  by_cases hvs : v = s
  · subst hvs
    rw [if_pos rfl, show ((v : ℝ) - v) * (2 * Real.pi / n) = 0 from by ring,
      wexp_zero]
    simp
  · rw [if_neg hvs]
    have hz1 : wexp (((v : ℝ) - s) * (2 * Real.pi / n)) ≠ 1 := by
      intro h1
      rw [wexp] at h1
      obtain ⟨k, hk⟩ := Complex.exp_eq_one_iff.mp h1
      have him := congrArg Complex.im hk
      simp [Complex.mul_im, Complex.mul_re] at him
      have hvsr : (v : ℝ) - s = (k : ℝ) * n := by
        have h2 : ((v : ℝ) - s) * (2 * Real.pi / n) * n =
            (k : ℝ) * (2 * Real.pi) * n := by rw [him]
        field_simp at h2
        have h3 : ((v : ℝ) - s) * (2 * Real.pi) =
            ((k : ℝ) * n) * (2 * Real.pi) := by
          rw [h2]
          ring
        exact mul_right_cancel₀ Real.two_pi_pos.ne' h3
      have hvsz : (v : ℤ) - s = k * n := by exact_mod_cast hvsr
      rcases lt_trichotomy k 0 with hk0 | hk0 | hk0
      · have := mul_le_mul_of_nonneg_right (show k ≤ -1 from by omega)
          (show (0 : ℤ) ≤ n from by positivity)
        omega
      · subst hk0
        omega
      · have := mul_le_mul_of_nonneg_right (show 1 ≤ k from by omega)
          (show (0 : ℤ) ≤ n from by positivity)
        omega
    have hzn : wexp (((v : ℝ) - s) * (2 * Real.pi / n)) ^ n = 1 := by
      rw [wexp_pow, show (n : ℝ) * (((v : ℝ) - s) * (2 * Real.pi / n)) =
          (((v : ℤ) - s : ℤ) : ℝ) * (2 * Real.pi) from by
        push_cast
        field_simp]
      exact wexp_int_two_pi _
    rw [geom_sum_eq hz1, hzn, sub_self, zero_div]

/-- Applying the forward DFT kernel to the conjugated DFT of `x` recovers
`n` times the conjugate of `x` (the heart of conjugate-forward-conjugate
inversion). -/
theorem dft_conj_inversion (m : ℕ) (x : ℕ → ℂ) (s : ℕ) (hs : s < 2 ^ m) :
    ∑ u ∈ Finset.range (2 ^ m),
      wexp (-2 * Real.pi / ((2 ^ m : ℕ) : ℝ)) ^ (s * u) *
        (starRingEnd ℂ) (∑ v ∈ Finset.range (2 ^ m),
          wexp (-2 * Real.pi / ((2 ^ m : ℕ) : ℝ)) ^ (u * v) * x v) =
      ((2 ^ m : ℕ) : ℂ) * (starRingEnd ℂ) (x s) := by
  have hnpos : (0 : ℕ) < 2 ^ m := Nat.pos_pow_of_pos _ (by norm_num)
  have hstep1 : ∀ u ∈ Finset.range (2 ^ m),
      wexp (-2 * Real.pi / ((2 ^ m : ℕ) : ℝ)) ^ (s * u) *
        (starRingEnd ℂ) (∑ v ∈ Finset.range (2 ^ m),
          wexp (-2 * Real.pi / ((2 ^ m : ℕ) : ℝ)) ^ (u * v) * x v) =
      ∑ v ∈ Finset.range (2 ^ m),
        wexp (-2 * Real.pi / ((2 ^ m : ℕ) : ℝ)) ^ (s * u) *
          ((starRingEnd ℂ) (wexp (-2 * Real.pi / ((2 ^ m : ℕ) : ℝ))) ^ (u * v) *
            (starRingEnd ℂ) (x v)) := by
    intro u _
    rw [map_sum, Finset.mul_sum]
    apply Finset.sum_congr rfl
    intro v _
    rw [map_mul, map_pow]
  rw [Finset.sum_congr rfl hstep1, Finset.sum_comm]
  have hstep2 : ∀ v ∈ Finset.range (2 ^ m),
      (∑ u ∈ Finset.range (2 ^ m),
        wexp (-2 * Real.pi / ((2 ^ m : ℕ) : ℝ)) ^ (s * u) *
          ((starRingEnd ℂ) (wexp (-2 * Real.pi / ((2 ^ m : ℕ) : ℝ))) ^ (u * v) *
            (starRingEnd ℂ) (x v))) =
      (if v = s then ((2 ^ m : ℕ) : ℂ) else 0) * (starRingEnd ℂ) (x v) := by
    intro v hv
    have hterm : ∀ u ∈ Finset.range (2 ^ m),
        wexp (-2 * Real.pi / ((2 ^ m : ℕ) : ℝ)) ^ (s * u) *
          ((starRingEnd ℂ) (wexp (-2 * Real.pi / ((2 ^ m : ℕ) : ℝ))) ^ (u * v) *
            (starRingEnd ℂ) (x v)) =
        wexp (((v : ℝ) - s) * (2 * Real.pi / ((2 ^ m : ℕ) : ℝ))) ^ u *
          (starRingEnd ℂ) (x v) := by
      intro u _
      rw [← mul_assoc]
      congr 1
      rw [pow_mul, wexp_conj, Nat.mul_comm u v, pow_mul, ← mul_pow]
      congr 1
      rw [wexp_pow, wexp_pow, ← wexp_add]
      congr 1
      push_cast
      ring
    rw [Finset.sum_congr rfl hterm, ← Finset.sum_mul,
      wexp_orthogonality (2 ^ m) hnpos v s (Finset.mem_range.mp hv) hs]
  have hstep3 : ∀ v ∈ Finset.range (2 ^ m),
      (if v = s then ((2 ^ m : ℕ) : ℂ) else 0) * (starRingEnd ℂ) (x v) =
      (if v = s then ((2 ^ m : ℕ) : ℂ) * (starRingEnd ℂ) (x v) else 0) := by
    intro v _
    rw [ite_mul, zero_mul]
  rw [Finset.sum_congr rfl hstep2, Finset.sum_congr rfl hstep3,
    Finset.sum_ite_eq' (Finset.range (2 ^ m)) s
      (fun v => ((2 ^ m : ℕ) : ℂ) * (starRingEnd ℂ) (x v)),
    if_pos (Finset.mem_range.mpr hs)]

/-- `ifft` on a power-of-two length: negate the imaginary input, run the
forward pipeline, then negate the imaginary output and divide both
outputs by `n` on the in-range indices. -/
theorem ifft_pow_ok (m : ℕ) (re im : ℕ → ℝ) :
    ifft re im (2 ^ m) =
      .ok (fun i => if i < 2 ^ m then
             (fftStages (2 ^ m) (bitrevPass (2 ^ m) re
               (fun j => if j < 2 ^ m then -(im j) else 0))).1 i /
               ((2 ^ m : ℕ) : ℝ)
           else (fftStages (2 ^ m) (bitrevPass (2 ^ m) re
               (fun j => if j < 2 ^ m then -(im j) else 0))).1 i,
           fun i => if i < 2 ^ m then
             -((fftStages (2 ^ m) (bitrevPass (2 ^ m) re
               (fun j => if j < 2 ^ m then -(im j) else 0))).2 i) /
               ((2 ^ m : ℕ) : ℝ)
           else (fftStages (2 ^ m) (bitrevPass (2 ^ m) re
               (fun j => if j < 2 ^ m then -(im j) else 0))).2 i) := by
  unfold ifft
  dsimp only
  rw [fft_pow_ok m re (some (fun j => if j < 2 ^ m then -(im j) else 0)),
    Option.getD_some, exBind_ok]
  rfl

/-- C2: FFT/IFFT round trip.  For every real input signal and every
power-of-two length `n = 2^m`, `fft` succeeds, `ifft` of its output
succeeds, and over the idealised reals the recovered real part equals the
input exactly while the imaginary part is exactly zero at every in-range
index (`ifft` negates the imaginary input, runs the forward `fft`, then
negates the imaginary output and divides both outputs by `n`). -/
theorem ifft_fft_roundtrip (x : ℕ → ℝ) (m : ℕ) :
    ∃ P Q, fft x none (2 ^ m) = .ok P ∧ ifft P.1 P.2 (2 ^ m) = .ok Q ∧
      ∀ i, i < 2 ^ m → Q.1 i = x i ∧ Q.2 i = 0 := by
  have hnpos : (0 : ℕ) < 2 ^ m := Nat.pos_pow_of_pos _ (by norm_num)
  have hnR : ((2 ^ m : ℕ) : ℝ) ≠ 0 := Nat.cast_ne_zero.mpr (by omega)
  have h1 : fft x none (2 ^ m) =
      .ok (fftStages (2 ^ m) (bitrevPass (2 ^ m) x zeros)) := by
    rw [fft_pow_ok m x none, Option.getD_none]
  refine ⟨_, _, h1,
    ifft_pow_ok m (fftStages (2 ^ m) (bitrevPass (2 ^ m) x zeros)).1
      (fftStages (2 ^ m) (bitrevPass (2 ^ m) x zeros)).2, ?_⟩
  intro i hi
  set P1 := fftStages (2 ^ m) (bitrevPass (2 ^ m) x zeros) with hP1
  have hconj : ∀ u ∈ Finset.range (2 ^ m),
      wexp (-2 * Real.pi / ((2 ^ m : ℕ) : ℝ)) ^ (i * u) *
        cval (P1.1, fun j => if j < 2 ^ m then -(P1.2 j) else 0) u =
      wexp (-2 * Real.pi / ((2 ^ m : ℕ) : ℝ)) ^ (i * u) *
        (starRingEnd ℂ) (∑ v ∈ Finset.range (2 ^ m),
          wexp (-2 * Real.pi / ((2 ^ m : ℕ) : ℝ)) ^ (u * v) *
            cval (x, zeros) v) := by
    intro u hu
    have hu2 : u < 2 ^ m := Finset.mem_range.mp hu
    congr 1
    rw [← fft_pow_dft m x zeros u hu2, ← hP1]
    apply Complex.ext
    · rw [cval_re, Complex.conj_re, cval_re]
    · rw [cval_im, Complex.conj_im, cval_im]
      dsimp only
      rw [if_pos hu2]
  have hQfull : cval (fftStages (2 ^ m) (bitrevPass (2 ^ m) P1.1
      (fun j => if j < 2 ^ m then -(P1.2 j) else 0))) i =
      ((2 ^ m : ℕ) : ℂ) * (starRingEnd ℂ) (cval (x, zeros) i) := by
    rw [fft_pow_dft m P1.1 (fun j => if j < 2 ^ m then -(P1.2 j) else 0) i hi,
      Finset.sum_congr rfl hconj]
    exact dft_conj_inversion m (cval (x, zeros)) i hi
  have hre := congrArg Complex.re hQfull
  have him := congrArg Complex.im hQfull
  simp only [Complex.mul_re, Complex.mul_im, Complex.natCast_re,
    Complex.natCast_im, Complex.conj_re, Complex.conj_im, cval_re, cval_im,
    zeros, neg_zero, mul_zero, zero_mul, sub_zero, add_zero] at hre him
  constructor
  · dsimp only
    rw [if_pos hi, hre]
    field_simp
  · dsimp only
    rw [if_pos hi, him]
    simp
